import Mathlib

/-!
# Cache simulation: direct-mapped and four-way FIFO caches

A shallow embedding of the two cache modules of the simulator
(`src/modules/direct_mapped_cache.hpp`, `src/modules/four_way_cache.hpp`), of
the CPU module (`src/modules/cpu.hpp`), of `run_simulation`
(`src/run_simulation.cpp`) and of the option and input handling of `main`
(`src/main.c`).

Conventions of the embedding.

* `unsigned`, `uint32_t` and `sc_uint<32>` values are natural numbers below
  `2 ^ 32`; every place where the source truncates to 32 bits is an explicit
  `u32`.  An expression `addr + i` with `addr : sc_uint<32>` is evaluated by
  the SystemC data types in 64 bits, so it is the exact sum until it is stored
  in a 32-bit variable.
* A `std::map` that is only accessed through `operator[]` (an absent key reads
  as the value-initialised element) is its total lookup function.
* `wait(n, SC_NS)` adds `n` to the field `time` of the module state.
* Shifts are the mathematical shifts of `Nat`.  The source keeps every shift count below
  32 except that of the tag of the four-way cache, which reaches 32 for large caches; for
  that shift the count modulo 32 of the compiled program is given as well (`fwTagMod32`).
* Where C leaves a conversion undefined (`(unsigned)pow(2, 32)` in `main`), the definition
  follows the compiled program and says so.
-/

namespace CacheSim

/-! ## Machine words -/

/-- Truncation to an unsigned 32-bit value. -/
def u32 (x : Nat) : Nat := x % 2 ^ 32

/-- Part select `w.range(hi, lo)` (also written `w(hi, lo)`) of an `sc_uint<32>`. -/
def range (w hi lo : Nat) : Nat := (w >>> lo) % 2 ^ (hi + 1 - lo)

/-- Assignment `w.range(hi, lo) = v` to a part select of an `sc_uint<32>`. -/
def setRange (w hi lo v : Nat) : Nat :=
  u32 (((w >>> (hi + 1)) <<< (hi + 1)) + ((v % 2 ^ (hi + 1 - lo)) <<< lo) + w % 2 ^ lo)

/-- Assignment `m[k] = v` on a `std::map` seen as its lookup function. -/
def mapSet {α : Type} (m : Nat → α) (k : Nat) (v : α) : Nat → α :=
  fun x => if x = k then v else m x

/-! ## Shared structures -/

/-- The struct `CacheLine` of `helper_structs/cache_line.hpp`. -/
structure CacheLine where
  tag : Nat
  valid : Bool
  data : Nat → Nat

/-- A default-constructed `CacheLine`. -/
def CacheLine.empty : CacheLine := ⟨0, false, fun _ => 0⟩

/-- Modelled from the spec: the struct `Request` of `helper_structs/request.h`,
a triple of a 32-bit byte address, a 32-bit data word and a write-enable flag. -/
structure Request where
  addr : Nat
  data : Nat
  we : Bool

/-- A read request of the word at `a`. -/
def readReq (a : Nat) : Request := ⟨a, 0, false⟩

/-- A write request of the word `d` to `a`. -/
def writeReq (a d : Nat) : Request := ⟨a, d, true⟩

/-! ## Parameter derivation of `run_simulation` -/

/-- Loop of `log2`: `while (a > 1) { a >>= 1; digits++; }`. -/
def log2Loop : Nat → Nat → Nat → Nat
  | 0, _, digits => digits
  | fuel + 1, a, digits => if a > 1 then log2Loop fuel (a >>> 1) (digits + 1) else digits

/-- The function `log2` of `run_simulation.cpp`; the argument bounds the number of
iterations of its loop. -/
def log2 (a : Nat) : Nat := log2Loop a a 0

/-- Constructor arguments of `DIRECT_MAPPED_CACHE`. -/
structure DMConfig where
  cacheLineSize : Nat
  cacheLatency : Nat
  memoryLatency : Nat
  offsetBitsCount : Nat
  offsetBitsMask : Nat
  indexBitsCount : Nat
  indexBitsMask : Nat

/-- Constructor arguments of `FOURWAY_CACHE`. -/
structure FWConfig where
  cacheLineSize : Nat
  cacheLatency : Nat
  memoryLatency : Nat
  offsetBitsCount : Nat
  offsetBitMask : Nat
  setIndexBitsCount : Nat
  setIndexBitMask : Nat

/-- The arguments `run_simulation` passes to the direct-mapped cache. -/
def dmConfig (cacheLines cacheLineSize cacheLatency memoryLatency : Nat) : DMConfig :=
  let offsetBitsCount := log2 cacheLineSize
  let offsetBitsMask := u32 ((1 <<< offsetBitsCount) + 2 ^ 32 - 1)
  let indexBitsCount := log2 cacheLines
  let indexBitsMask := u32 ((u32 (cacheLines + 2 ^ 32 - 1)) <<< offsetBitsCount)
  ⟨cacheLineSize, cacheLatency, memoryLatency, offsetBitsCount, offsetBitsMask,
    indexBitsCount, indexBitsMask⟩

/-- The arguments `run_simulation` passes to the four-way cache. -/
def fwConfig (cacheLines cacheLineSize cacheLatency memoryLatency : Nat) : FWConfig :=
  let offsetBitsCount := log2 cacheLineSize
  let offsetBitsMask := u32 ((1 <<< offsetBitsCount) + 2 ^ 32 - 1)
  let numberOfSets := cacheLines / 4
  let setIndexBitsCount := log2 numberOfSets
  let setIndexMask := u32 ((u32 (numberOfSets + 2 ^ 32 - 1)) <<< offsetBitsCount)
  ⟨cacheLineSize, cacheLatency, memoryLatency, offsetBitsCount, offsetBitsMask,
    setIndexBitsCount, setIndexMask⟩

/-! ## Direct-mapped cache -/

/-- Member variables of `DIRECT_MAPPED_CACHE`, with the time spent in `wait`. -/
structure DMState where
  cache : Nat → CacheLine
  mainMemory : Nat → Nat
  misses : Nat
  hits : Nat
  time : Nat

/-- State of a freshly constructed direct-mapped cache. -/
def DMState.init : DMState := ⟨fun _ => CacheLine.empty, fun _ => 0, 0, 0, 0⟩

/-- `offset = (addr + i) & offsetBitsMask`. -/
def dmOffset (c : DMConfig) (addr i : Nat) : Nat := u32 ((addr + i) &&& c.offsetBitsMask)

/-- `index = ((addr + i) & indexBitsMask) >> offsetBitsCount`. -/
def dmIndex (c : DMConfig) (addr i : Nat) : Nat :=
  u32 (((addr + i) &&& c.indexBitsMask) >>> c.offsetBitsCount)

/-- `tag = (addr + i) >> indexBitsCount >> offsetBitsCount`. -/
def dmTag (c : DMConfig) (addr i : Nat) : Nat :=
  u32 (((addr + i) >>> c.indexBitsCount) >>> c.offsetBitsCount)

/-- The test `!currentLine.valid || currentLine.tag != tag` of a byte access. -/
def dmMiss (c : DMConfig) (s : DMState) (addr i : Nat) : Bool :=
  !(s.cache (dmIndex c addr i)).valid || (s.cache (dmIndex c addr i)).tag != dmTag c addr i

/-- The miss branch of `read` and `write`: the loop over `j` stores
`mainMemory[cacheLineAddr + j]` at `data[offset]`, then `valid` and `tag` are set. -/
def dmFill (c : DMConfig) (mainMemory : Nat → Nat) (line : CacheLine) (addr offset tag : Nat) :
    CacheLine :=
  let cacheLineAddr := u32 (addr ^^^ c.offsetBitsMask)
  let filled := (List.range c.cacheLineSize).foldl
    (fun (l : CacheLine) j =>
      { l with data := mapSet l.data offset (mainMemory (u32 (cacheLineAddr + j))) }) line
  { filled with valid := true, tag := tag }

/-- One iteration of the byte loop of `write`; the flag is `isHit`. -/
def dmWriteByte (c : DMConfig) (addr data : Nat) (st : DMState × Bool) (i : Nat) :
    DMState × Bool :=
  let s := st.1
  let offset := dmOffset c addr i
  let index := dmIndex c addr i
  let tag := dmTag c addr i
  let currentLine := s.cache index
  let miss := dmMiss c s addr i
  let line1 := if miss then dmFill c s.mainMemory currentLine addr offset tag else currentLine
  let time1 := if miss then s.time + c.memoryLatency else s.time
  let isHit := if miss then false else st.2
  let currentBlock := range data (32 - 8 * i - 1) (32 - 8 * (i + 1))
  let line2 := { line1 with data := mapSet line1.data offset currentBlock }
  ({ s with cache := mapSet s.cache index line2,
            mainMemory := mapSet s.mainMemory (u32 (addr + i)) currentBlock,
            time := time1 }, isHit)

/-- The method `write` of the direct-mapped cache. -/
def dmWrite (c : DMConfig) (s : DMState) (addr data : Nat) : DMState :=
  let r := (List.range 4).foldl (dmWriteByte c addr data) (s, true)
  let s1 := { r.1 with time := r.1.time + c.cacheLatency }
  if r.2 then { s1 with hits := s1.hits + 1 } else { s1 with misses := s1.misses + 1 }

/-- One iteration of the byte loop of `read`; the components are the state, `isHit` and
`tempData`. -/
def dmReadByte (c : DMConfig) (addr : Nat) (st : DMState × Bool × Nat) (i : Nat) :
    DMState × Bool × Nat :=
  let s := st.1
  let offset := dmOffset c addr i
  let index := dmIndex c addr i
  let tag := dmTag c addr i
  let currentLine := s.cache index
  let miss := dmMiss c s addr i
  let line1 := if miss then dmFill c s.mainMemory currentLine addr offset tag else currentLine
  let time1 := if miss then s.time + c.memoryLatency else s.time
  let isHit := if miss then false else st.2.1
  let tempData := setRange st.2.2 (32 - 8 * i - 1) (32 - 8 * (i + 1)) (line1.data offset)
  ({ s with cache := mapSet s.cache index line1, time := time1 }, isHit, tempData)

/-- The method `read` of the direct-mapped cache; the second component is the word
assigned to `dataFromCPU`. -/
def dmRead (c : DMConfig) (s : DMState) (addr : Nat) : DMState × Nat :=
  let r := (List.range 4).foldl (dmReadByte c addr) (s, true, 0)
  let s1 := { r.1 with time := r.1.time + c.cacheLatency }
  (if r.2.1 then { s1 with hits := s1.hits + 1 } else { s1 with misses := s1.misses + 1 }, r.2.2)

/-- One pass of the loop of `processRequest`, whose locals `addr` and `data` are
`sc_uint<32>`: the state after the request and the value of the data signal when
`cache_ready` is raised again. -/
def dmRequest (c : DMConfig) (s : DMState) (r : Request) : DMState × Nat :=
  let addr := u32 r.addr
  let data := u32 r.data
  if r.we then (dmWrite c s addr data, data) else dmRead c s addr

/-- The requests of a trace served in order; the list holds the data signal after each. -/
def dmRun (c : DMConfig) : DMState → List Request → DMState × List Nat
  | s, [] => (s, [])
  | s, r :: rs =>
    let p := dmRequest c s r
    let q := dmRun c p.1 rs
    (q.1, p.2 :: q.2)

/-! ## Four-way cache -/

/-- Member variables of `FOURWAY_CACHE`, with the time spent in `wait`. -/
structure FWState where
  mainMem : Nat → Nat
  cacheMem : Nat → List CacheLine
  hits : Nat
  misses : Nat
  d : Nat
  a : Nat
  foundInCache : Bool
  time : Nat

/-- State of a freshly constructed four-way cache. -/
def FWState.init : FWState := ⟨fun _ => 0, fun _ => [], 0, 0, 0, 0, false, 0⟩

/-- `tag = address >> (offsetBitsCount + setIndexBitsCount)`.  For a shift count below 32
this is the value the source fixes.  A shift count of 32 or more, which C++ leaves undefined,
is taken as the mathematical shift here; the compiled program takes the count modulo 32
(`fwTagMod32`). -/
def fwTag (c : FWConfig) (address : Nat) : Nat :=
  address >>> (c.offsetBitsCount + c.setIndexBitsCount)

/-- `setIndex = (address & setIndexBitMask) >> offsetBitsCount`. -/
def fwSetIndex (c : FWConfig) (address : Nat) : Nat :=
  (address &&& c.setIndexBitMask) >>> c.offsetBitsCount

/-- `offset = address & offsetBitMask`. -/
def fwOffset (c : FWConfig) (address : Nat) : Nat := address &&& c.offsetBitMask

/-- The line base `(address >> offsetBitsCount) << offsetBitsCount` handed to `addToCache`. -/
def fwLineBase (c : FWConfig) (address : Nat) : Nat :=
  u32 ((address >>> c.offsetBitsCount) <<< c.offsetBitsCount)

/-- The copy loop of `addToCache`:
`for (add = address; add < address + cacheLineSize; add++)`, the bound computed in 32 bits. -/
def fwFillLine (c : FWConfig) (mainMem : Nat → Nat) (address : Nat) (line : CacheLine) :
    CacheLine :=
  (List.range' address (u32 (address + c.cacheLineSize) - address)).foldl
    (fun (l : CacheLine) add =>
      { l with data := mapSet l.data (add &&& c.offsetBitMask) (mainMem add) }) line

/-- The method `addToCache`. -/
def addToCache (c : FWConfig) (s : FWState) (address : Nat) : FWState :=
  let setIndex := fwSetIndex c address
  let q := s.cacheMem setIndex
  let q1 := if q.length ≥ 4 then q.tail else q
  let line : CacheLine := ⟨fwTag c address, true, fun _ => 0⟩
  { s with cacheMem := mapSet s.cacheMem setIndex (q1 ++ [fwFillLine c s.mainMem address line]),
           time := s.time + c.memoryLatency }

/-- The search loop of `readByte` and `writeByte`: the first line of the set whose tag
is the wanted one. -/
def fwLookup (c : FWConfig) (s : FWState) (address : Nat) : Option CacheLine :=
  (s.cacheMem (fwSetIndex c address)).find? (fun r => r.tag == fwTag c address)

/-- The method `writeByte`.  The loop variable `r` is a copy of the stored line, so the
assignment `r.data[offset] = val` does not reach `cacheMem`. -/
def writeByte (c : FWConfig) (s : FWState) (address _val : Nat) : FWState :=
  match fwLookup c s address with
  | some _ => { s with foundInCache := s.foundInCache && true }
  | none =>
    let s1 := addToCache c s (fwLineBase c address)
    { s1 with foundInCache := s1.foundInCache && false }

/-- The method `readByte`. -/
def readByte (c : FWConfig) (s : FWState) (address : Nat) : FWState × Nat :=
  match fwLookup c s address with
  | some r => ({ s with foundInCache := s.foundInCache && true }, r.data (fwOffset c address))
  | none =>
    let s1 := addToCache c s (fwLineBase c address)
    ({ s1 with foundInCache := s1.foundInCache && false }, s1.mainMem address)

/-- The counter update `foundInCache ? ++hits : hits`, `foundInCache ? misses : ++misses`
after `wait(cacheLatency, SC_NS)`. -/
def fwCount (c : FWConfig) (s : FWState) : FWState :=
  { s with time := s.time + c.cacheLatency,
           hits := if s.foundInCache then s.hits + 1 else s.hits,
           misses := if s.foundInCache then s.misses else s.misses + 1 }

/-- The main-memory stores at the head of the write thread. -/
def fwStore (s : FWState) : FWState :=
  let m0 := mapSet s.mainMem (u32 s.a) (range s.d 31 24)
  let m1 := mapSet m0 (u32 (s.a + 1)) (range s.d 23 16)
  let m2 := mapSet m1 (u32 (s.a + 2)) (range s.d 15 8)
  let m3 := mapSet m2 (u32 (s.a + 3)) (range s.d 7 0)
  { s with mainMem := m3 }

/-- The body of the thread `write` for one write request; the members `d` and `a` are
`sc_uint<32>`. -/
def fwWrite (c : FWConfig) (s : FWState) (addr data : Nat) : FWState :=
  let s0 := fwStore { s with d := u32 data, a := u32 addr, foundInCache := true }
  let s1 := writeByte c s0 (u32 s0.a) (range s0.d 31 24)
  let s2 := writeByte c s1 (u32 (s1.a + 1)) (range s1.d 23 16)
  let s3 := writeByte c s2 (u32 (s2.a + 2)) (range s2.d 15 8)
  let s4 := writeByte c s3 (u32 (s3.a + 3)) (range s3.d 7 0)
  fwCount c s4

/-- The body of the thread `read` for one read request; the word written to the data
signal is the member `d` of the result. -/
def fwRead (c : FWConfig) (s : FWState) (addr : Nat) : FWState :=
  let s0 := { s with a := u32 addr, foundInCache := true }
  let r3 := readByte c s0 (u32 (s0.a + 3))
  let s1 := { r3.1 with d := setRange r3.1.d 7 0 r3.2 }
  let r2 := readByte c s1 (u32 (s1.a + 2))
  let s2 := { r2.1 with d := setRange r2.1.d 15 8 r2.2 }
  let r1 := readByte c s2 (u32 (s2.a + 1))
  let s3 := { r1.1 with d := setRange r1.1.d 23 16 r1.2 }
  let r0 := readByte c s3 (u32 s3.a)
  let s4 := { r0.1 with d := setRange r0.1.d 31 24 r0.2 }
  fwCount c s4

/-- One request served by the four-way cache: the two threads wake on the same edge and
the one selected by `we` acts.  The second component is the value of the data signal when
`ready` is raised again. -/
def fwRequest (c : FWConfig) (s : FWState) (r : Request) : FWState × Nat :=
  if r.we then (fwWrite c s r.addr r.data, u32 r.data)
  else let s1 := fwRead c s r.addr; (s1, s1.d)

/-- The requests of a trace served in order; the list holds the data signal after each. -/
def fwRun (c : FWConfig) : FWState → List Request → FWState × List Nat
  | s, [] => (s, [])
  | s, r :: rs =>
    let p := fwRequest c s r
    let q := fwRun c p.1 rs
    (q.1, p.2 :: q.2)

/-! ## Vocabulary of the specification -/

/-- The byte `i` of a direct-mapped request at `addr` finds a resident line: the line at the
byte's index is valid and carries the byte's tag. -/
def dmResident (c : DMConfig) (s : DMState) (addr i : Nat) : Prop :=
  (s.cache (dmIndex c addr i)).valid = true ∧ (s.cache (dmIndex c addr i)).tag = dmTag c addr i

/-- The byte at `address` finds a resident line in the four-way cache: some line of the
byte's set is valid and carries the byte's tag. -/
def fwResident (c : FWConfig) (s : FWState) (address : Nat) : Prop :=
  ∃ r ∈ s.cacheMem (fwSetIndex c address), r.valid = true ∧ r.tag = fwTag c address

/-- State of the direct-mapped cache when byte `n` of a write request is about to be
processed. -/
def dmWriteBefore (c : DMConfig) (s : DMState) (addr data n : Nat) : DMState :=
  ((List.range n).foldl (dmWriteByte c addr data) (s, true)).1

/-- State of the direct-mapped cache when byte `n` of a read request is about to be
processed. -/
def dmReadBefore (c : DMConfig) (s : DMState) (addr n : Nat) : DMState :=
  ((List.range n).foldl (dmReadByte c addr) (s, true, 0)).1

/-- The first `n` calls of `writeByte` of a write request, in program order
(`a`, `a+1`, `a+2`, `a+3`), started in the state `s0` reached after the main-memory stores. -/
def fwWriteBytes (c : FWConfig) (s0 : FWState) (n : Nat) : FWState :=
  (List.range n).foldl
    (fun s i => writeByte c s (u32 (s.a + i)) (range s.d (31 - 8 * i) (24 - 8 * i))) s0

/-- The first `n` calls of `readByte` of a read request, in program order
(`a+3`, `a+2`, `a+1`, `a`), each followed by its part-select assignment to `d`. -/
def fwReadBytes (c : FWConfig) (s0 : FWState) (n : Nat) : FWState :=
  (List.range n).foldl
    (fun s j =>
      let r := readByte c s (u32 (s.a + (3 - j)))
      { r.1 with d := setRange r.1.d (8 * j + 7) (8 * j) r.2 }) s0

/-- Every resident line of every set is valid. -/
def FWAllValid (s : FWState) : Prop := ∀ set, ∀ r ∈ s.cacheMem set, r.valid = true

/-- The validity bit and the tag of every line of the direct-mapped cache. -/
def dmTagState (s : DMState) : Nat → Bool × Nat :=
  fun idx => ((s.cache idx).valid, (s.cache idx).tag)

/-- Validity bits and tags after the first `n` byte accesses of a request at `addr`. -/
def dmTagsAfter (c : DMConfig) (addr : Nat) (T : Nat → Bool × Nat) (n : Nat) : Nat → Bool × Nat :=
  (List.range n).foldl (fun T i => mapSet T (dmIndex c addr i) (true, dmTag c addr i)) T

/-- No two bytes of a request at `addr` share a line index while carrying different tags. -/
def dmConflictFree (c : DMConfig) (addr : Nat) : Prop :=
  ∀ i < 4, ∀ j < 4, dmIndex c addr i = dmIndex c addr j → dmTag c addr i = dmTag c addr j

/-- The tags of the lines of every set of the four-way cache, oldest first. -/
def fwTags (s : FWState) : Nat → List Nat := fun set => (s.cacheMem set).map (fun r => r.tag)

/-- The FIFO update of `addToCache` on the tags of one set. -/
def fifoPush (q : List Nat) (t : Nat) : List Nat := (if q.length ≥ 4 then q.tail else q) ++ [t]

/-- Effect of one byte access with set index `set` and tag `t` on the tags of the sets:
nothing on a hit, a FIFO insertion on a miss. -/
def fwTouch (T : Nat → List Nat) (set t : Nat) : Nat → List Nat :=
  if t ∈ T set then T else mapSet T set (fifoPush (T set) t)

/-- The four-way decode parameters `run_simulation` derives from a line size `2 ^ k` and
`2 ^ sb` sets. -/
def FWPow2 (c : FWConfig) (k sb : Nat) : Prop :=
  k < 32 ∧ c.cacheLineSize = 2 ^ k ∧ c.offsetBitsCount = k ∧ c.offsetBitMask = 2 ^ k - 1 ∧
    c.setIndexBitsCount = sb ∧ c.setIndexBitMask = u32 ((2 ^ sb - 1) <<< k)

/-- The addresses satisfying `P` read as 0 in main memory and in every resident line that
carries their tag. -/
def FWClean (c : FWConfig) (P : Nat → Prop) (s : FWState) : Prop :=
  ∀ x, x < 2 ^ 32 → P x →
    s.mainMem x = 0 ∧
    ∀ r ∈ s.cacheMem (fwSetIndex c x), r.tag = fwTag c x → r.data (fwOffset c x) = 0

/-- The request `r` touches the memory line `l`, lines being blocks of `S` bytes. -/
def reqTouches (S : Nat) (r : Request) (l : Nat) : Prop := ∃ i < 4, u32 (r.addr + i) / S = l

/-- The direct-mapped decode parameters `run_simulation` derives from a line size `2 ^ k`
and `2 ^ m` lines. -/
def DMPow2 (c : DMConfig) (k m : Nat) : Prop :=
  k < 32 ∧ c.cacheLineSize = 2 ^ k ∧ c.offsetBitsCount = k ∧ c.offsetBitsMask = 2 ^ k - 1 ∧
    c.indexBitsCount = m ∧ c.indexBitsMask = u32 ((2 ^ m - 1) <<< k)

/-- Every valid line of the direct-mapped cache carries index and tag of a byte access to a
memory line in `T`. -/
def DMWarm (c : DMConfig) (T : Nat → Prop) (τ : Nat → Bool × Nat) : Prop :=
  ∀ idx t, τ idx = (true, t) →
    ∃ X, T (u32 X / c.cacheLineSize) ∧ dmIndex c X 0 = idx ∧ dmTag c X 0 = t

/-- Tags of the sets after the first `n` byte accesses of a request whose `i`-th access
goes to the address `addr i`. -/
def fwTagsAfter (c : FWConfig) (addr : Nat → Nat) (T : Nat → List Nat) (n : Nat) :
    Nat → List Nat :=
  (List.range n).foldl (fun T i => fwTouch T (fwSetIndex c (addr i)) (fwTag c (addr i))) T

/-- Every resident tag of the four-way cache is the tag, in its set, of a 32-bit address
of a memory line in `T`. -/
def FWWarm (c : FWConfig) (T : Nat → Prop) (τ : Nat → List Nat) : Prop :=
  ∀ set t, t ∈ τ set →
    ∃ x, x < 2 ^ 32 ∧ T (x / c.cacheLineSize) ∧ fwSetIndex c x = set ∧ fwTag c x = t

/-- One request on the tags of a single set with the hit and miss counters: a hit when the
tag is resident, a FIFO insertion and a miss otherwise. -/
def fifoStep (st : List Nat × Nat × Nat) (t : Nat) : List Nat × Nat × Nat :=
  if t ∈ st.1 then (st.1, st.2.1 + 1, st.2.2) else (fifoPush st.1 t, st.2.1, st.2.2 + 1)

/-! ## Simulation harness: CPU, cache module and `run_simulation`

The two SystemC threads are expanded into one step function per clock edge.

* The clock has a period of 1 ns and its first rising edge at 0 ns; the CPU thread runs once
  per rising edge, so edge number `t` is at `t` ns (field `now`).
* A request handed over at the edge at `t` ns is served by the cache thread in the waits
  `wait(memoryLatency, SC_NS)` of the missing bytes and a final `wait(cacheLatency, SC_NS)`;
  when their sum is `L` ns the cache publishes its counters and data and raises `ready` at
  `t + L` ns.  The CPU thread is woken by an edge one delta cycle after the timed events of
  that instant.  After a final wait of at least 1 ns the cache thread writes `ready` in the
  first delta cycle of `t + L` ns, so the CPU sees it at the edge at `t + L` ns.  A final
  wait of 0 ns ends one delta cycle later, when the CPU thread of that edge runs as well, so
  the CPU sees `ready` from the edge at `t + L + 1` ns.
* `sc_stop()` lets the delta cycle in which it is called finish, so what the cache thread
  writes to the counter signals in the delta cycle in which the CPU thread stops is part
  of the result.
* An access to `requests` outside `[0, numRequests)` has no result (`none`). -/

/-- The cache module instantiated by `run_simulation`. -/
inductive Cache where
  | direct (c : DMConfig) (s : DMState)
  | fourway (c : FWConfig) (s : FWState)

/-- One request served by the module: the module afterwards and the data signal. -/
def Cache.serve : Cache → Request → Cache × Nat
  | Cache.direct c s, r => (Cache.direct c (dmRequest c s r).1, (dmRequest c s r).2)
  | Cache.fourway c s, r => (Cache.fourway c (fwRequest c s r).1, (fwRequest c s r).2)

/-- Time the module has spent in `wait`. -/
def Cache.time : Cache → Nat
  | Cache.direct _ s => s.time
  | Cache.fourway _ s => s.time

/-- Value of the hit counter signal. -/
def Cache.hits : Cache → Nat
  | Cache.direct _ s => s.hits
  | Cache.fourway _ s => s.hits

/-- Value of the miss counter signal. -/
def Cache.misses : Cache → Nat
  | Cache.direct _ s => s.misses
  | Cache.fourway _ s => s.misses

/-- The parameter `cacheLatency` of the module. -/
def Cache.cacheLatency : Cache → Nat
  | Cache.direct c _ => c.cacheLatency
  | Cache.fourway c _ => c.cacheLatency

/-- The parameter `memoryLatency` of the module. -/
def Cache.memoryLatency : Cache → Nat
  | Cache.direct c _ => c.memoryLatency
  | Cache.fourway c _ => c.memoryLatency

/-- Time the module waits while it serves the request `r`. -/
def Cache.latency (c : Cache) (r : Request) : Nat := (c.serve r).1.time - c.time

/-- Time after the hand-over of `r` from which a clock edge shows `ready` raised to the CPU:
the time the module waits, and one delta cycle more, which defers it to the next edge, when
the final `wait(cacheLatency, SC_NS)` is a wait of 0 ns. -/
def Cache.readyAfter (c : Cache) (r : Request) : Nat :=
  if c.cacheLatency = 0 then c.latency r + 1 else c.latency r

/-- The value `SIZE_MAX` of a 64-bit `size_t`. -/
def sizeMax : Nat := 2 ^ 64 - 1

/-- Conversion of an `int` to `size_t`, as in the initialiser `maxCycles(cycles)`. -/
def toSizeT (x : Int) : Nat := (x % 2 ^ 64).toNat

/-- Members of `CPU`, the signals it shares with the cache, the cache module and the
request in flight (time at which the cache publishes its counters, time from which an edge
shows `ready` raised to the CPU, module and data signal at that time).  The field `cache`
is the module whose counters the result signals show. -/
structure Sim where
  requests : Nat → Request
  numRequests : Nat
  maxCycles : Nat
  currentRequest : Nat
  elapsedCycles : Nat
  cycles : Nat
  ready : Bool
  data : Nat
  now : Nat
  cache : Cache
  inFlight : Option (Nat × Nat × Cache × Nat)

/-- The block `if (cache_ready->read()) { ... }` at the head of the loop of `CPU::run`. -/
def cpuDispatch (st : Sim) : Option Sim :=
  if st.ready then
    if st.currentRequest < st.numRequests then
      let r := st.requests st.currentRequest
      let p := st.cache.serve r
      some { st with data := u32 r.data, ready := false,
                     currentRequest := st.currentRequest + 1,
                     inFlight := some (st.now + st.cache.latency r,
                       st.now + st.cache.readyAfter r, p.1, p.2) }
    else none
  else some st

/-- What the cache thread has done when the CPU thread runs at the clock edge `st.now`:
the request is completed and `ready` is seen raised, or the counters are published in this
delta cycle while `ready` still reads false, or the cache is waiting. -/
def cacheAdvance (st : Sim) : Sim :=
  match st.inFlight with
  | some (doneAt, seenFrom, c, out) =>
    if seenFrom ≤ st.now then
      { st with ready := true, data := out, cache := c, inFlight := none }
    else if doneAt ≤ st.now then { st with cache := c }
    else st
  | none => st

/-- The statement `requests[currentRequest - 1].data = data->read()` under its guard
`currentRequest > 0 && !requests[currentRequest - 1].we`. -/
def cpuStore (st : Sim) : Option Sim :=
  if st.currentRequest > 0 then
    if st.currentRequest - 1 < st.numRequests then
      let r := st.requests (st.currentRequest - 1)
      let r1 : Request := { r with data := st.data }
      if !r.we then some { st with requests := mapSet st.requests (st.currentRequest - 1) r1 }
      else some st
    else none
  else some st

/-- The loop body of `CPU::run` from `wait()`, which resumes at the next edge, to the two
exit tests; the flag tells whether the loop is left. -/
def cpuResume (st2 : Sim) : Option (Sim × Bool) :=
  let st3 := cacheAdvance { st2 with now := st2.now + 1 }
  if st3.ready then
    match cpuStore st3 with
    | none => none
    | some st4 =>
      if st4.currentRequest ≥ st4.numRequests then some (st4, true)
      else some (st4, decide (st4.elapsedCycles ≥ st4.maxCycles))
  else some (st3, decide (st3.elapsedCycles ≥ st3.maxCycles))

/-- One pass of the loop of `CPU::run`, from the increment of `elapsedCycles` on. -/
def cpuPass (st : Sim) : Option (Sim × Bool) :=
  let st1 := { st with elapsedCycles := st.elapsedCycles + 1, cycles := st.elapsedCycles + 1 }
  match cpuDispatch st1 with
  | none => none
  | some st2 => cpuResume st2

/-- The loop of `CPU::run`; the first argument bounds the number of passes. -/
def cpuLoop : Nat → Sim → Option Sim
  | 0, _ => none
  | fuel + 1, st =>
    match cpuPass st with
    | none => none
    | some (st1, true) => some st1
    | some (st1, false) => cpuLoop fuel st1

/-- The end of `CPU::run`: the sentinel is written when a request is left. -/
def cpuFinish (st : Sim) : Sim :=
  if st.currentRequest < st.numRequests || !st.ready then { st with cycles := sizeMax } else st

/-- The method `CPU::run`.  A pass is made at most once per cycle of the budget (and once
when the budget is 0), which bounds the loop. -/
def cpuRun (st : Sim) : Option Sim := (cpuLoop (st.maxCycles + 1) st).map cpuFinish

/-- Modelled from the spec: the struct `Result` of `helper_structs/result.h`. -/
structure Result where
  cycles : Nat
  misses : Nat
  hits : Nat
  primitiveGateCount : Nat

/-- Product of two `unsigned` values. -/
def umul (a b : Nat) : Nat := u32 (a * b)

/-- Sum of two `unsigned` values. -/
def uadd (a b : Nat) : Nat := u32 (a + b)

/-- Difference of two `unsigned` values. -/
def usub (a b : Nat) : Nat := u32 (a + (2 ^ 32 - u32 b))

/-- The gate count `run_simulation` accumulates for the direct-mapped cache: every term is
an `unsigned` expression added to the `size_t` total. -/
def gateCountDirect (cacheLines cacheLineSize : Nat) : Nat :=
  let offsetBitsCount := log2 cacheLineSize
  let indexBitsCount := log2 cacheLines
  let g1 := 0 + umul (umul (log2 cacheLines) 4) 2
  let g2 := g1 + umul (usub (usub 32 indexBitsCount) offsetBitsCount) 2
  g2 + umul (umul cacheLines 2)
    (usub (usub (uadd (umul cacheLineSize 8) 32) indexBitsCount) offsetBitsCount)

/-- The gate count `run_simulation` accumulates for the four-way cache. -/
def gateCountFourway (cacheLines cacheLineSize : Nat) : Nat :=
  let offsetBitsCount := log2 cacheLineSize
  let numberOfSets := cacheLines / 4
  let setIndexBitsCount := log2 numberOfSets
  let g1 := 0 + umul (umul (log2 numberOfSets) 4) 2
  let g2 := g1 + umul (umul 2 (usub (usub 32 setIndexBitsCount) offsetBitsCount)) 4
  let g3 := g2 + 32 * 3 * 4
  let g4 := g3 + umul (umul cacheLines 2)
    (usub (usub (uadd (umul cacheLineSize 8) 32) setIndexBitsCount) offsetBitsCount)
  g4 + umul numberOfSets 110

/-- The cache `run_simulation` instantiates. -/
def simCache (directMapped : Int) (cacheLines cacheLineSize cacheLatency memoryLatency : Nat) :
    Cache :=
  if directMapped ≠ 0 then
    Cache.direct (dmConfig cacheLines cacheLineSize cacheLatency memoryLatency) DMState.init
  else Cache.fourway (fwConfig cacheLines cacheLineSize cacheLatency memoryLatency) FWState.init

/-- The state in which `sc_start()` is called: `ready` was written `true`, nothing has run. -/
def simInit (cycles directMapped : Int)
    (cacheLines cacheLineSize cacheLatency memoryLatency numRequests : Nat)
    (requests : Nat → Request) : Sim :=
  { requests := requests, numRequests := numRequests, maxCycles := toSizeT cycles,
    currentRequest := 0, elapsedCycles := 0, cycles := 0, ready := true, data := 0, now := 0,
    cache := simCache directMapped cacheLines cacheLineSize cacheLatency memoryLatency,
    inFlight := none }

/-- The function `run_simulation`: the result and the request array after the run. -/
def runSimulation (cycles directMapped : Int)
    (cacheLines cacheLineSize cacheLatency memoryLatency numRequests : Nat)
    (requests : Nat → Request) : Option (Result × (Nat → Request)) :=
  let gates := if directMapped ≠ 0 then gateCountDirect cacheLines cacheLineSize
    else gateCountFourway cacheLines cacheLineSize
  match cpuRun (simInit cycles directMapped cacheLines cacheLineSize cacheLatency memoryLatency
      numRequests requests) with
  | none => none
  | some st =>
    some ({ cycles := st.cycles, misses := st.cache.misses, hits := st.cache.hits,
            primitiveGateCount := gates + (100 - gates % 100) }, st.requests)

/-- The request array holding the elements of a list. -/
def arrayOf (l : List Request) : Nat → Request := fun i => l.getD i ⟨0, 0, false⟩

/-- The module after the first `k` requests of the array have been served. -/
def cacheAfter (c0 : Cache) (reqs : Nat → Request) : Nat → Cache
  | 0 => c0
  | k + 1 => ((cacheAfter c0 reqs k).serve (reqs k)).1

/-- The data word on the data signal when request `k` of the array is completed. -/
def published (c0 : Cache) (reqs : Nat → Request) (k : Nat) : Nat :=
  ((cacheAfter c0 reqs k).serve (reqs k)).2

/-- Number of clock cycles between the hand-over of `r` and the edge at which the CPU sees
`ready` raised again: at least one. -/
def Cache.occupancy (c : Cache) (r : Request) : Nat := max (c.readyAfter r) 1

/-- The clock edge at which request `k` is handed over when the budget permits. -/
def startEdge (c0 : Cache) (reqs : Nat → Request) : Nat → Nat
  | 0 => 0
  | k + 1 => startEdge c0 reqs k + (cacheAfter c0 reqs k).occupancy (reqs k)

/-- The request array after the reads among the first `k` requests received their data. -/
def storedAfter (c0 : Cache) (reqs : Nat → Request) (k : Nat) : Nat → Request :=
  fun j => if j < k ∧ (reqs j).we = false then { reqs j with data := published c0 reqs j }
    else reqs j

/-- The number of `i < n` with `p i`. -/
def countBelow (p : Nat → Bool) : Nat → Nat
  | 0 => 0
  | n + 1 => countBelow p n + (if p n then 1 else 0)

/-- The number of the four bytes of the request `r` that miss in the direct-mapped cache,
each byte tested in the state the bytes before it have left. -/
def dmMissBytes (c : DMConfig) (s : DMState) (r : Request) : Nat :=
  countBelow (fun i =>
    if r.we then dmMiss c (dmWriteBefore c s (u32 r.addr) (u32 r.data) i) (u32 r.addr) i
    else dmMiss c (dmReadBefore c s (u32 r.addr) i) (u32 r.addr) i) 4

/-- The number of the four bytes of the request `r` that miss in the four-way cache, each
byte searched in the state the bytes before it have left; a write goes through the bytes
`a`, `a+1`, `a+2`, `a+3`, a read through `a+3`, `a+2`, `a+1`, `a`. -/
def fwMissBytes (c : FWConfig) (s : FWState) (r : Request) : Nat :=
  countBelow (fun i =>
    if r.we then
      (fwLookup c
        (fwWriteBytes c (fwStore { s with d := u32 r.data, a := u32 r.addr, foundInCache := true }) i)
        (u32 (u32 r.addr + i))).isNone
    else
      (fwLookup c (fwReadBytes c { s with a := u32 r.addr, foundInCache := true } i)
        (u32 (u32 r.addr + (3 - i)))).isNone) 4

/-- The number of the four bytes of the request `r` that miss in the module. -/
def Cache.missBytes : Cache → Request → Nat
  | Cache.direct c s, r => dmMissBytes c s r
  | Cache.fourway c s, r => fwMissBytes c s r

/-- The sum over the first `k` requests of `cacheLatency + memoryLatency * m`, where `m` is
the number of bytes of the request that miss. -/
def serviceTime (c0 : Cache) (reqs : Nat → Request) : Nat → Nat
  | 0 => 0
  | k + 1 => serviceTime c0 reqs k +
      (c0.cacheLatency + c0.memoryLatency * (cacheAfter c0 reqs k).missBytes (reqs k))

/-- Relation between the state of the simulation at a clock edge and the trace: `k`
requests are completed; either the cache is ready, or request `k` is in flight. -/
def SimCore (c0 : Cache) (reqs : Nat → Request) (n B : Nat) (st : Sim) (k : Nat) : Prop :=
  st.numRequests = n ∧ st.maxCycles = B ∧ st.elapsedCycles = st.now ∧
  st.cycles = st.elapsedCycles ∧ st.requests = storedAfter c0 reqs k ∧ k ≤ n ∧
  ((st.ready = true ∧ st.inFlight = none ∧ st.currentRequest = k ∧
      st.now = startEdge c0 reqs k ∧ st.cache = cacheAfter c0 reqs k) ∨
   (st.ready = false ∧ k < n ∧ st.currentRequest = k + 1 ∧
      st.inFlight = some (startEdge c0 reqs k + (cacheAfter c0 reqs k).latency (reqs k),
        startEdge c0 reqs k + (cacheAfter c0 reqs k).readyAfter (reqs k),
        cacheAfter c0 reqs (k + 1), published c0 reqs k) ∧
      startEdge c0 reqs k < st.now ∧ st.now < startEdge c0 reqs (k + 1) ∧
      st.cache = cacheAfter c0 reqs
        (if startEdge c0 reqs k + (cacheAfter c0 reqs k).latency (reqs k) ≤ st.now
          then k + 1 else k)))

/-- Relation between the state of the simulation at a `wait()` of the CPU and the trace:
`k` requests are completed and request `k` is in flight. -/
def SimFlight (c0 : Cache) (reqs : Nat → Request) (n B : Nat) (st : Sim) (k : Nat) : Prop :=
  st.numRequests = n ∧ st.maxCycles = B ∧ st.elapsedCycles = st.now + 1 ∧
  st.cycles = st.elapsedCycles ∧
  st.requests = storedAfter c0 reqs k ∧ k < n ∧ st.ready = false ∧
  st.currentRequest = k + 1 ∧
  st.inFlight = some (startEdge c0 reqs k + (cacheAfter c0 reqs k).latency (reqs k),
    startEdge c0 reqs k + (cacheAfter c0 reqs k).readyAfter (reqs k),
    cacheAfter c0 reqs (k + 1), published c0 reqs k) ∧
  startEdge c0 reqs k ≤ st.now ∧ st.now < startEdge c0 reqs (k + 1) ∧
  st.cache = cacheAfter c0 reqs
    (if startEdge c0 reqs k + (cacheAfter c0 reqs k).latency (reqs k) ≤ st.now ∧
        startEdge c0 reqs k < st.now then k + 1 else k)

/-! ## Gate count of the specification -/

/-- The gate total the specification states for the direct-mapped cache, before rounding:
`8*log2(N) + 2*T + 2*N*(8*S + T)` with `T = 32 - log2(N) - log2(S)`, in exact integers. -/
def specGateCountDirect (N S : Nat) : Nat :=
  let T := 32 - log2 N - log2 S
  8 * log2 N + 2 * T + 2 * N * (8 * S + T)

/-- The gate total the specification states for the four-way cache, before rounding:
`8*log2(N/4) + 8*T + 384 + 2*N*(8*S + T) + 110*(N/4)` with `T = 32 - log2(N/4) - log2(S)`,
in exact integers. -/
def specGateCountFourway (N S : Nat) : Nat :=
  let T := 32 - log2 (N / 4) - log2 S
  8 * log2 (N / 4) + 8 * T + 384 + 2 * N * (8 * S + T) + 110 * (N / 4)

/-- The gate total `run_simulation` has accumulated before it rounds. -/
def gateTotal (directMapped : Int) (cacheLines cacheLineSize : Nat) : Nat :=
  if directMapped ≠ 0 then gateCountDirect cacheLines cacheLineSize
  else gateCountFourway cacheLines cacheLineSize

/-- Every set holds at most four tags, and no tag twice. -/
def FWSetsOk (T : Nat → List Nat) : Prop := ∀ set, (T set).length ≤ 4 ∧ (T set).Nodup

/-! ## Number of cache lines in `main`

The calls `log2`, `ceil`, `floor` and `pow` of the C library are taken at their exact
values; the arguments are integers below `2 ^ 32`, which a `double` holds exactly. -/

/-- Search for the least `j` with `n ≤ 2 ^ j`, upwards from `j`. -/
def ceilLog2From : Nat → Nat → Nat → Nat
  | 0, j, _ => j
  | fuel + 1, j, n => if n ≤ 2 ^ j then j else ceilLog2From fuel (j + 1) n

/-- The value `ceil(log2(n))` of `main.c` for `1 ≤ n < 2 ^ 32`, the least `j` with
`n ≤ 2 ^ j`.  The argument is exact as a `double`, the library logarithm of a power of two
is its exponent, and for any other `n` the logarithm differs from every integer by more
than `2 ^ -32`, far beyond the rounding error of the library, so `ceil` yields the ceiling
of the exact logarithm. -/
def ceilLog2 (n : Nat) : Nat := ceilLog2From n 0 n

/-- Search for the greatest `j` with `2 ^ j ≤ n`, upwards from `j`. -/
def floorLog2From : Nat → Nat → Nat → Nat
  | 0, j, _ => j
  | fuel + 1, j, n => if n < 2 ^ (j + 1) then j else floorLog2From fuel (j + 1) n

/-- The value `floor(log2(n))` of `main.c` for `1 ≤ n < 2 ^ 32`, the greatest `j` with
`2 ^ j ≤ n`. -/
def floorLog2 (n : Nat) : Nat := floorLog2From n 0 n

/-- The function `is_power_of_two` of `main.c`: `ceil(log2(n)) == floor(log2(n))`. -/
def is_power_of_two (n : Nat) : Bool := ceilLog2 n == floorLog2 n

/-- The conversion `(unsigned)` of a `double` whose value is the integer `x`, as the compiled
program performs it: the value is converted to a 64-bit integer, of which the low 32 bits
are kept.  For `x < 2 ^ 32` that is `x`, the value C prescribes.  C leaves the conversion of
a larger value undefined; the only such value `main` converts is `pow(2, 32)`, which
becomes 0. -/
def toUnsigned (x : Nat) : Nat := x % 2 ^ 32

/-- The value of `cachelines` that `main` passes to `run_simulation`, from the value the
option `--cachelines` was parsed to: the block `if(direct_mapped) { ... } else { ... }`
with its assignments `cachelines = (unsigned)pow(2,ceil(log2(cachelines)))` and
`cachelines = 4`. -/
def cachelinesPassed (direct_mapped : Int) (cachelines : Nat) : Nat :=
  if direct_mapped ≠ 0 then
    if !is_power_of_two cachelines then toUnsigned (2 ^ ceilLog2 cachelines)
    else cachelines
  else
    if !is_power_of_two cachelines then toUnsigned (2 ^ ceilLog2 cachelines)
    else if cachelines < 4 then 4
    else cachelines

/-! ## Rows of the input file in `main`

Strings are the lists of their characters before the terminating zero.  The library
functions `isspace`, `strtoul` and `strtok` follow the C standard; a line is assumed to fit
the buffer of `fgets`. -/

/-- The function `isspace` in the C locale: space, and the control characters 9 to 13. -/
def isspace (ch : Char) : Bool := ch.toNat == 32 || (9 ≤ ch.toNat && ch.toNat ≤ 13)

/-- The value of a character as a digit of `strtoul`: `0`-`9`, and letters from 10 on. -/
def digitVal (ch : Char) : Option Nat :=
  if 48 ≤ ch.toNat ∧ ch.toNat ≤ 57 then some (ch.toNat - 48)
  else if 97 ≤ ch.toNat ∧ ch.toNat ≤ 122 then some (ch.toNat - 97 + 10)
  else if 65 ≤ ch.toNat ∧ ch.toNat ≤ 90 then some (ch.toNat - 65 + 10)
  else none

/-- The character is a digit of the base. -/
def isDigitOf (base : Nat) (ch : Char) : Bool :=
  match digitVal ch with
  | some v => decide (v < base)
  | none => false

/-- The subject sequence of `strtoul` after its optional sign `+` or `-`. -/
def skipSign (s : List Char) : List Char :=
  if s.head? == some '-' || s.head? == some '+' then s.tail else s

/-- The subject sequence of `strtoul` after its optional prefix: in base 16 a `0x` or `0X`
that a hexadecimal digit follows. -/
def skipHexMark (base : Nat) (s : List Char) : List Char :=
  if base == 16 then
    match s with
    | z :: x :: d :: t =>
      if z == '0' && (x == 'x' || x == 'X') && isDigitOf 16 d then d :: t else s
    | _ => s
  else s

/-- The library function `strtoul(nptr, &endptr, base)` for the bases 10 and 16 and a 64-bit
`unsigned long`, after the C standard: white space is skipped, a sign and, in base 16, a
prefix `0x` before a hexadecimal digit are accepted, and the longest run of digits is
converted.  The components are the value returned, the rest of the string at `endptr`, and
whether `errno` is set to `ERANGE`.  Without a digit nothing is converted and `endptr` is
`nptr`; a value beyond `ULONG_MAX` is reported as `ULONG_MAX` with `ERANGE`; a value after
a minus sign is negated in 64 bits. -/
def strtoul (nptr : List Char) (base : Nat) : Nat × List Char × Bool :=
  let s1 := nptr.dropWhile isspace
  let neg := s1.head? == some '-'
  let s3 := skipHexMark base (skipSign s1)
  let digits := s3.takeWhile (isDigitOf base)
  if digits.isEmpty then (0, nptr, false)
  else
    let v := digits.foldl (fun acc ch => acc * base + (digitVal ch).getD 0) 0
    if v > 2 ^ 64 - 1 then (2 ^ 64 - 1, s3.dropWhile (isDigitOf base), true)
    else (if neg then (2 ^ 64 - v) % 2 ^ 64 else v, s3.dropWhile (isDigitOf base), false)

/-- The checks `convert_dec_to_uint32_t` and `convert_hex_to_uint32_t` make on the result of
`strtoul`, in their order; `none` is the return value 1. -/
def convertChecked (c : List Char) (r : Nat × List Char × Bool) : Option Nat :=
  if r.2.1.length = c.length then none
  else if r.2.1.head?.isSome && !(r.2.1.head?.any isspace) then none
  else if (r.2.2 && r.1 == 2 ^ 64 - 1) || r.1 > 2 ^ 32 - 1 then none
  else if r.2.2 && r.1 == 0 then none
  else some (u32 r.1)

/-- The function `convert_dec_to_uint32_t` of `main.c`. -/
def convert_dec_to_uint32_t (c : List Char) : Option Nat := convertChecked c (strtoul c 10)

/-- The function `convert_hex_to_uint32_t` of `main.c`. -/
def convert_hex_to_uint32_t (c : List Char) : Option Nat := convertChecked c (strtoul c 16)

/-- The library function `strtok` with the delimiter `,`, on the string its saved pointer
points to: `none` is the null pointer; otherwise the token, the string at the new saved
pointer (after the delimiter that ended the token, or the end), and whether the character
before the token is a comma, that is, whether delimiters were skipped. -/
def strtok (s : List Char) : Option (List Char × List Char × Bool) :=
  match s.dropWhile (fun ch => ch == ',') with
  | [] => none
  | ch :: t =>
    some ((ch :: t).takeWhile (fun x => x != ','),
      ((ch :: t).dropWhile (fun x => x != ',')).tail, s.head? == some ',')

/-- The function `is_empty_line` of `main.c`. -/
def is_empty_line (l : List Char) : Bool := l.all isspace

/-- The loop over the first column: white space is skipped, one letter of `W`, `w`, `R`,
`r` sets `we` and `found`, anything else ends the program (`none`). -/
def parseOpLoop : List Char → Option Bool → Option (Option Bool)
  | [], st => some st
  | ch :: t, st =>
    if isspace ch then parseOpLoop t st
    else if (ch == 'W' || ch == 'w') && st.isNone then parseOpLoop t (some true)
    else if (ch == 'R' || ch == 'r') && st.isNone then parseOpLoop t (some false)
    else none

/-- The first column: the loop and the test `if (!parsed)`; the result is `we`. -/
def parseOp (column : List Char) : Option Bool :=
  match parseOpLoop column none with
  | some (some we) => some we
  | _ => none

/-- The conversion the loops over the second and third column choose at the first
character that is not white space: hexadecimal when it is `0` followed by `x` or `X`,
decimal otherwise.  The argument `rest` is the column from that character on. -/
def convertColumn (column rest : List Char) : Option Nat :=
  if rest.head? == some '0' && (rest.tail.head? == some 'x' || rest.tail.head? == some 'X') then
    convert_hex_to_uint32_t column
  else convert_dec_to_uint32_t column

/-- The second column: the loop and the test `if (!parsed)`; the result is `address`. -/
def parseAddress (column : List Char) : Option Nat :=
  match column.dropWhile isspace with
  | [] => none
  | ch :: t => convertColumn column (ch :: t)

/-- The third column, from the third call of `strtok` to the last: the result is `data`,
`none` is `exit(EXIT_FAILURE)`. -/
def parseData (we : Bool) (saved : List Char) : Option Nat :=
  match strtok saved with
  | none => if we then none else some 0
  | some (column, saved3, skipped) =>
    if skipped then none
    else
      match column.dropWhile isspace with
      | [] => if we then none else if (strtok saved3).isSome then none else some 0
      | ch :: t =>
        if !we then none
        else
          match convertColumn column (ch :: t) with
          | none => none
          | some data => if (strtok saved3).isSome then none else some data

/-- The body of the loop of `main` over the lines of the input file, for a line that is not
empty and fits the buffer: the request stored, or `none` for `exit(EXIT_FAILURE)`. -/
def parseLine (line : List Char) : Option Request :=
  if line.head? == some ',' then none
  else
    match strtok line with
    | none => none
    | some (column0, saved1, _) =>
      match parseOp column0 with
      | none => none
      | some we =>
        match strtok saved1 with
        | none => none
        | some (column1, saved2, skipped) =>
          if skipped then none
          else
            match parseAddress column1 with
            | none => none
            | some address =>
              match parseData we saved2 with
              | none => none
              | some data => some ⟨address, data, we⟩

/-- Column `n` of a row, counted from 0: the text between the `n`-th comma and the next
comma or the end of the row; `none` when the row has fewer than `n` commas. -/
def csvColumn : Nat → List Char → Option (List Char)
  | 0, s => some (s.takeWhile (fun x => x != ','))
  | n + 1, s =>
    match s.dropWhile (fun x => x != ',') with
    | [] => none
    | _ :: t => csvColumn n t

/-! ## The CPU against an arbitrary cache -/

/-- The loop body of `CPU::run` from `wait()` on, when the signals `cache_ready` and `data`
read `r` and `d` at the edge at which the CPU resumes, whatever the cache has done. -/
def cpuResumeAny (r : Bool) (d : Nat) (st2 : Sim) : Option (Sim × Bool) :=
  let st3 := { st2 with now := st2.now + 1, ready := r, data := d }
  if st3.ready then
    match cpuStore st3 with
    | none => none
    | some st4 =>
      if st4.currentRequest ≥ st4.numRequests then some (st4, true)
      else some (st4, decide (st4.elapsedCycles ≥ st4.maxCycles))
  else some (st3, decide (st3.elapsedCycles ≥ st3.maxCycles))

/-- One pass of the loop of `CPU::run` against arbitrary signal values. -/
def cpuPassAny (r : Bool) (d : Nat) (st : Sim) : Option (Sim × Bool) :=
  let st1 := { st with elapsedCycles := st.elapsedCycles + 1, cycles := st.elapsedCycles + 1 }
  match cpuDispatch st1 with
  | none => none
  | some st2 => cpuResumeAny r d st2

/-- The loop of `CPU::run` against a cache that is left arbitrary: `sig t` gives the values
of `cache_ready` and `data` the CPU reads when it resumes after the edge `t`.  The first
argument bounds the number of passes. -/
def cpuLoopAny (sig : Nat → Bool × Nat) : Nat → Sim → Option Sim
  | 0, _ => none
  | fuel + 1, st =>
    match cpuPassAny (sig st.now).1 (sig st.now).2 st with
    | none => none
    | some (st1, true) => some st1
    | some (st1, false) => cpuLoopAny sig fuel st1

/-! ## The call of `run_simulation` in `main` -/

/-- The test `if(requestCount == 0)` of `main`, after which the program ends; otherwise
`run_simulation` is called with `requestCount` requests. -/
def mainCallsRun (requestCount : Nat) : Bool := !(requestCount == 0)

/-- The function `convert_unsigned` of `main.c`: the value stored through the pointer, or
`none` for the return value 1.  Unlike the conversions of the input file it accepts nothing
after the number. -/
def convert_unsigned (c : List Char) : Option Nat :=
  let r := strtoul c 10
  if r.2.1.length = c.length then none
  else if r.2.1.head?.isSome then none
  else if (r.2.2 && r.1 == 2 ^ 64 - 1) || r.1 > 2 ^ 32 - 1 then none
  else if r.2.2 && r.1 == 0 then none
  else some (u32 r.1)

/-- The value of the `int` variable `cycles` of `main` after `convert_unsigned` has stored
the `unsigned` value `u` through the pointer `(unsigned *) &cycles`: the `int` with the same
32 bits. -/
def intOfUnsigned (u : Nat) : Int := if u < 2 ^ 31 then (u : Int) else (u : Int) - 2 ^ 32

/-- The member `maxCycles` of the CPU when the option `--cycles` was converted to `N`:
`main` passes the `int` to `run_simulation`, which passes it to the constructor of the CPU,
whose initialiser `maxCycles(cycles)` converts it to `size_t`. -/
def maxCyclesOf (N : Nat) : Nat := toSizeT (intOfUnsigned N)

/-! ## Four-way cache with the shift of the compiled program

The tag shift `address >> (offsetBitsCount + setIndexBitsCount)` has a 32-bit left operand.
For a count below 32 the source fixes its value, which `fwTag` gives.  For a count of 32 or
more C++ leaves it undefined; the shift instruction of the compiled program takes the count
modulo 32.  The definitions below repeat the methods of `FOURWAY_CACHE` with that tag; they
differ from the ones above in the tag only. -/

/-- The tag `address >> (offsetBitsCount + setIndexBitsCount)` as the compiled program
computes it: the shift instruction takes its count modulo 32.  For a count below 32 this is
the shift of the source and the value of `fwTag`; C++ leaves the shift of a 32-bit operand
by 32 or more undefined. -/
def fwTagMod32 (c : FWConfig) (address : Nat) : Nat :=
  address >>> ((c.offsetBitsCount + c.setIndexBitsCount) % 32)

/-- The method `addToCache` with the tag of the compiled program. -/
def addToCacheMod32 (c : FWConfig) (s : FWState) (address : Nat) : FWState :=
  let setIndex := fwSetIndex c address
  let q := s.cacheMem setIndex
  let q1 := if q.length ≥ 4 then q.tail else q
  let line : CacheLine := ⟨fwTagMod32 c address, true, fun _ => 0⟩
  { s with cacheMem := mapSet s.cacheMem setIndex (q1 ++ [fwFillLine c s.mainMem address line]),
           time := s.time + c.memoryLatency }

/-- The search loop of `readByte` and `writeByte` with the tag of the compiled program. -/
def fwLookupMod32 (c : FWConfig) (s : FWState) (address : Nat) : Option CacheLine :=
  (s.cacheMem (fwSetIndex c address)).find? (fun r => r.tag == fwTagMod32 c address)

/-- The method `writeByte` with the tag of the compiled program. -/
def writeByteMod32 (c : FWConfig) (s : FWState) (address _val : Nat) : FWState :=
  match fwLookupMod32 c s address with
  | some _ => { s with foundInCache := s.foundInCache && true }
  | none =>
    let s1 := addToCacheMod32 c s (fwLineBase c address)
    { s1 with foundInCache := s1.foundInCache && false }

/-- The method `readByte` with the tag of the compiled program. -/
def readByteMod32 (c : FWConfig) (s : FWState) (address : Nat) : FWState × Nat :=
  match fwLookupMod32 c s address with
  | some r => ({ s with foundInCache := s.foundInCache && true }, r.data (fwOffset c address))
  | none =>
    let s1 := addToCacheMod32 c s (fwLineBase c address)
    ({ s1 with foundInCache := s1.foundInCache && false }, s1.mainMem address)

/-- The body of the thread `write` with the tag of the compiled program. -/
def fwWriteMod32 (c : FWConfig) (s : FWState) (addr data : Nat) : FWState :=
  let s0 := fwStore { s with d := u32 data, a := u32 addr, foundInCache := true }
  let s1 := writeByteMod32 c s0 (u32 s0.a) (range s0.d 31 24)
  let s2 := writeByteMod32 c s1 (u32 (s1.a + 1)) (range s1.d 23 16)
  let s3 := writeByteMod32 c s2 (u32 (s2.a + 2)) (range s2.d 15 8)
  let s4 := writeByteMod32 c s3 (u32 (s3.a + 3)) (range s3.d 7 0)
  fwCount c s4

/-- The body of the thread `read` with the tag of the compiled program. -/
def fwReadMod32 (c : FWConfig) (s : FWState) (addr : Nat) : FWState :=
  let s0 := { s with a := u32 addr, foundInCache := true }
  let r3 := readByteMod32 c s0 (u32 (s0.a + 3))
  let s1 := { r3.1 with d := setRange r3.1.d 7 0 r3.2 }
  let r2 := readByteMod32 c s1 (u32 (s1.a + 2))
  let s2 := { r2.1 with d := setRange r2.1.d 15 8 r2.2 }
  let r1 := readByteMod32 c s2 (u32 (s2.a + 1))
  let s3 := { r1.1 with d := setRange r1.1.d 23 16 r1.2 }
  let r0 := readByteMod32 c s3 (u32 s3.a)
  let s4 := { r0.1 with d := setRange r0.1.d 31 24 r0.2 }
  fwCount c s4

/-- One request served by the four-way cache with the tag of the compiled program. -/
def fwRequestMod32 (c : FWConfig) (s : FWState) (r : Request) : FWState × Nat :=
  if r.we then (fwWriteMod32 c s r.addr r.data, u32 r.data)
  else let s1 := fwReadMod32 c s r.addr; (s1, s1.d)

/-- The requests of a trace served in order by the four-way cache with the tag of the
compiled program. -/
def fwRunMod32 (c : FWConfig) : FWState → List Request → FWState × List Nat
  | s, [] => (s, [])
  | s, r :: rs =>
    let p := fwRequestMod32 c s r
    let q := fwRunMod32 c p.1 rs
    (q.1, p.2 :: q.2)

/-- Every set holds at most four lines and every resident line is valid. -/
def FWBounded (s : FWState) : Prop :=
  ∀ set, (s.cacheMem set).length ≤ 4 ∧ ∀ r ∈ s.cacheMem set, r.valid = true

/-! ## Arithmetic of the address decode -/

theorem log2Loop_two_pow (j : Nat) : ∀ fuel digits, j ≤ fuel → log2Loop fuel (2 ^ j) digits = digits + j := by
  induction j with
  | zero =>
    intro fuel digits _
    cases fuel <;> simp [log2Loop]
  | succ j ih =>
    intro fuel digits h
    cases fuel with
    | zero => omega
    | succ f =>
      have h1 : 2 ^ (j + 1) > 1 := Nat.one_lt_two_pow (by omega)
      have h2 : 2 ^ (j + 1) >>> 1 = 2 ^ j := by
        rw [Nat.shiftRight_eq_div_pow, pow_succ]; simp
      simp only [log2Loop, h1, if_true, h2]
      rw [ih f (digits + 1) (by omega)]; omega

theorem log2_two_pow (j : Nat) : log2 (2 ^ j) = j := by
  unfold log2
  rw [log2Loop_two_pow j _ 0 (Nat.le_of_lt (Nat.lt_two_pow j))]; simp

theorem u32_of_lt {x : Nat} (h : x < 2 ^ 32) : u32 x = x := Nat.mod_eq_of_lt h

theorem u32_lt (x : Nat) : u32 x < 2 ^ 32 := Nat.mod_lt _ (by norm_num)

theorem offsetMask_eq (k : Nat) (hk : k < 32) : u32 ((1 <<< k) + 2 ^ 32 - 1) = 2 ^ k - 1 := by
  have h1 : 1 ≤ 2 ^ k := Nat.one_le_two_pow
  have h2 : 2 ^ k < 2 ^ 32 := Nat.pow_lt_pow_right (by norm_num) hk
  rw [Nat.one_shiftLeft]
  unfold u32
  have : 2 ^ k + 2 ^ 32 - 1 = (2 ^ k - 1) + 2 ^ 32 := by omega
  rw [this, Nat.add_mod_right]
  exact Nat.mod_eq_of_lt (by omega)

theorem countMask_eq (m : Nat) (hm : m < 32) : u32 (2 ^ m + 2 ^ 32 - 1) = 2 ^ m - 1 := by
  have := offsetMask_eq m hm
  rwa [Nat.one_shiftLeft] at this

/-- Bit `j` of the truncated index mask. -/
theorem testBit_indexMask (m k j : Nat) :
    (u32 ((2 ^ m - 1) <<< k)).testBit j = (decide (j < 32) && (decide (k ≤ j) && decide (j - k < m))) := by
  unfold u32
  rw [Nat.testBit_mod_two_pow, Nat.testBit_shiftLeft, Nat.testBit_two_pow_sub_one]

theorem index_decode (X m k : Nat) :
    (X &&& u32 ((2 ^ m - 1) <<< k)) >>> k = (X / 2 ^ k) % 2 ^ (min m (32 - k)) := by
  apply Nat.eq_of_testBit_eq
  intro j
  rw [Nat.testBit_shiftRight, Nat.testBit_and, testBit_indexMask, Nat.testBit_mod_two_pow,
    ← Nat.shiftRight_eq_div_pow, Nat.testBit_shiftRight]
  by_cases h1 : j < m <;> by_cases h2 : k + j < 32 <;> simp [h1, h2] <;> try omega

/-! ## Main memory -/

theorem range_eq (w hi lo : Nat) : range w hi lo = w / 2 ^ lo % 2 ^ (hi + 1 - lo) := by
  unfold range; rw [Nat.shiftRight_eq_div_pow]

theorem dmWriteByte_mainMemory (c : DMConfig) (a d : Nat) (st : DMState × Bool) (i : Nat) :
    (dmWriteByte c a d st i).1.mainMemory
      = mapSet st.1.mainMemory (u32 (a + i)) (range d (32 - 8 * i - 1) (32 - 8 * (i + 1))) := rfl

theorem dmWrite_mainMemory (c : DMConfig) (s : DMState) (a d : Nat) :
    (dmWrite c s a d).mainMemory
      = mapSet (mapSet (mapSet (mapSet s.mainMemory (u32 a) (range d 31 24))
          (u32 (a + 1)) (range d 23 16)) (u32 (a + 2)) (range d 15 8)) (u32 (a + 3)) (range d 7 0) := by
  unfold dmWrite
  have h : List.range 4 = [0, 1, 2, 3] := by decide
  simp only [h, List.foldl]
  split <;> simp [dmWriteByte_mainMemory]

theorem addToCache_mainMem (c : FWConfig) (s : FWState) (x : Nat) :
    (addToCache c s x).mainMem = s.mainMem := rfl

theorem writeByte_mainMem (c : FWConfig) (s : FWState) (x v : Nat) :
    (writeByte c s x v).mainMem = s.mainMem := by
  unfold writeByte; split <;> rfl

theorem writeByte_d (c : FWConfig) (s : FWState) (x v : Nat) :
    (writeByte c s x v).d = s.d := by
  unfold writeByte; split <;> rfl

theorem writeByte_a (c : FWConfig) (s : FWState) (x v : Nat) :
    (writeByte c s x v).a = s.a := by
  unfold writeByte; split <;> rfl

theorem fwWrite_mainMem (c : FWConfig) (s : FWState) (a d : Nat) :
    (fwWrite c s a d).mainMem
      = mapSet (mapSet (mapSet (mapSet s.mainMem (u32 (u32 a)) (range (u32 d) 31 24))
          (u32 (u32 a + 1)) (range (u32 d) 23 16)) (u32 (u32 a + 2)) (range (u32 d) 15 8))
          (u32 (u32 a + 3)) (range (u32 d) 7 0) := by
  simp [fwWrite, fwCount, writeByte_mainMem, fwStore]

theorem mem_after_write (m : Nat → Nat) (a : Nat) (b0 b1 b2 b3 : Nat) :
    let m' := mapSet (mapSet (mapSet (mapSet m (u32 a) b0) (u32 (a + 1)) b1) (u32 (a + 2)) b2) (u32 (a + 3)) b3
    m' (a % 2 ^ 32) = b0 ∧ m' ((a + 1) % 2 ^ 32) = b1 ∧
    m' ((a + 2) % 2 ^ 32) = b2 ∧ m' ((a + 3) % 2 ^ 32) = b3 ∧
    ∀ x, x ≠ a % 2 ^ 32 → x ≠ (a + 1) % 2 ^ 32 → x ≠ (a + 2) % 2 ^ 32 → x ≠ (a + 3) % 2 ^ 32 →
      m' x = m x := by
  intro m'
  simp only [m', mapSet, u32]
  refine ⟨?_, ?_, ?_, ?_, ?_⟩
  · split_ifs <;> first | rfl | omega
  · split_ifs <;> first | rfl | omega
  · split_ifs <;> first | rfl | omega
  · simp
  · intro x h0 h1 h2 h3
    split_ifs <;> first | rfl | omega

theorem range_bytes (d : Nat) :
    range d 31 24 = d / 2 ^ 24 % 256 ∧ range d 23 16 = d / 2 ^ 16 % 256 ∧
    range d 15 8 = d / 2 ^ 8 % 256 ∧ range d 7 0 = d % 256 := by
  simp only [range_eq]; norm_num

theorem range_bytes_u32 (d : Nat) :
    range (u32 d) 31 24 = d / 2 ^ 24 % 256 ∧ range (u32 d) 23 16 = d / 2 ^ 16 % 256 ∧
    range (u32 d) 15 8 = d / 2 ^ 8 % 256 ∧ range (u32 d) 7 0 = d % 256 := by
  simp only [range_eq, u32]; norm_num; omega

theorem u32_u32_add (a i : Nat) : u32 (u32 a + i) = u32 (a + i) := by
  unfold u32; omega

theorem u32_u32 (a : Nat) : u32 (u32 a) = u32 a := by
  unfold u32; omega

/-- C5: in either organisation, after a write request `(a, d)` main memory holds bits
31..24, 23..16, 15..8 and 7..0 of `d` at the byte addresses `a`, `a+1`, `a+2`, `a+3` taken
modulo `2 ^ 32`, and every other address reads as before the request. -/
theorem write_request_reaches_main_memory (a d : Nat) :
    (∀ (c : DMConfig) (s : DMState),
      let m := (dmWrite c s a d).mainMemory
      m (a % 2 ^ 32) = d / 2 ^ 24 % 256 ∧ m ((a + 1) % 2 ^ 32) = d / 2 ^ 16 % 256 ∧
      m ((a + 2) % 2 ^ 32) = d / 2 ^ 8 % 256 ∧ m ((a + 3) % 2 ^ 32) = d % 256 ∧
      ∀ x, x ≠ a % 2 ^ 32 → x ≠ (a + 1) % 2 ^ 32 → x ≠ (a + 2) % 2 ^ 32 →
        x ≠ (a + 3) % 2 ^ 32 → m x = s.mainMemory x) ∧
    (∀ (c : FWConfig) (s : FWState),
      let m := (fwWrite c s a d).mainMem
      m (a % 2 ^ 32) = d / 2 ^ 24 % 256 ∧ m ((a + 1) % 2 ^ 32) = d / 2 ^ 16 % 256 ∧
      m ((a + 2) % 2 ^ 32) = d / 2 ^ 8 % 256 ∧ m ((a + 3) % 2 ^ 32) = d % 256 ∧
      ∀ x, x ≠ a % 2 ^ 32 → x ≠ (a + 1) % 2 ^ 32 → x ≠ (a + 2) % 2 ^ 32 →
        x ≠ (a + 3) % 2 ^ 32 → m x = s.mainMem x) := by
  obtain ⟨r0, r1, r2, r3⟩ := range_bytes d
  obtain ⟨q0, q1, q2, q3⟩ := range_bytes_u32 d
  constructor
  · intro c s m
    simp only [m, dmWrite_mainMemory, r0, r1, r2, r3]
    exact mem_after_write s.mainMemory a _ _ _ _
  · intro c s m
    simp only [m, fwWrite_mainMem, q0, q1, q2, q3, u32_u32_add, u32_u32]
    exact mem_after_write s.mainMem a _ _ _ _

/-! ## Hit and miss accounting -/

theorem range4 : List.range 4 = [0, 1, 2, 3] := by decide

theorem dmMiss_eq_false_iff (c : DMConfig) (s : DMState) (a i : Nat) :
    dmMiss c s a i = false ↔ dmResident c s a i := by
  unfold dmMiss dmResident
  cases (s.cache (dmIndex c a i)).valid <;> simp

theorem dmWriteByte_flag (c : DMConfig) (a d : Nat) (st : DMState × Bool) (i : Nat) :
    (dmWriteByte c a d st i).2 = (!dmMiss c st.1 a i && st.2) := by
  unfold dmWriteByte
  cases h : dmMiss c st.1 a i <;> simp [h]

theorem dmReadByte_flag (c : DMConfig) (a : Nat) (st : DMState × Bool × Nat) (i : Nat) :
    (dmReadByte c a st i).2.1 = (!dmMiss c st.1 a i && st.2.1) := by
  unfold dmReadByte
  cases h : dmMiss c st.1 a i <;> simp [h]

theorem dmWrite_fold_counters (c : DMConfig) (a d : Nat) (l : List Nat) :
    ∀ st : DMState × Bool, (l.foldl (dmWriteByte c a d) st).1.hits = st.1.hits ∧
      (l.foldl (dmWriteByte c a d) st).1.misses = st.1.misses := by
  induction l with
  | nil => intro st; exact ⟨rfl, rfl⟩
  | cons i l ih =>
    intro st
    rw [List.foldl_cons]
    exact ⟨(ih _).1.trans rfl, (ih _).2.trans rfl⟩

theorem dmRead_fold_counters (c : DMConfig) (a : Nat) (l : List Nat) :
    ∀ st : DMState × Bool × Nat, (l.foldl (dmReadByte c a) st).1.hits = st.1.hits ∧
      (l.foldl (dmReadByte c a) st).1.misses = st.1.misses := by
  induction l with
  | nil => intro st; exact ⟨rfl, rfl⟩
  | cons i l ih =>
    intro st
    rw [List.foldl_cons]
    exact ⟨(ih _).1.trans rfl, (ih _).2.trans rfl⟩

/-- The flag `isHit` after the first `n` bytes of a write. -/
theorem dmWrite_fold_flag (c : DMConfig) (s : DMState) (a d : Nat) (n : Nat) :
    ((List.range n).foldl (dmWriteByte c a d) (s, true)).2 = true ↔
      ∀ i < n, dmResident c (dmWriteBefore c s a d i) a i := by
  induction n with
  | zero => simp
  | succ n ih =>
    rw [List.range_succ, List.foldl_append, List.foldl_cons, List.foldl_nil, dmWriteByte_flag]
    simp only [Bool.and_eq_true, Bool.not_eq_true', dmMiss_eq_false_iff, ih]
    constructor
    · rintro ⟨h1, h2⟩ i hi
      rcases Nat.lt_succ_iff_lt_or_eq.mp hi with h | h
      · exact h2 i h
      · subst h; exact h1
    · intro h
      exact ⟨h n (Nat.lt_succ_self n), fun i hi => h i (Nat.lt_succ_of_lt hi)⟩

/-- The flag `isHit` after the first `n` bytes of a read. -/
theorem dmRead_fold_flag (c : DMConfig) (s : DMState) (a : Nat) (n : Nat) :
    ((List.range n).foldl (dmReadByte c a) (s, true, 0)).2.1 = true ↔
      ∀ i < n, dmResident c (dmReadBefore c s a i) a i := by
  induction n with
  | zero => simp
  | succ n ih =>
    rw [List.range_succ, List.foldl_append, List.foldl_cons, List.foldl_nil, dmReadByte_flag]
    simp only [Bool.and_eq_true, Bool.not_eq_true', dmMiss_eq_false_iff, ih]
    constructor
    · rintro ⟨h1, h2⟩ i hi
      rcases Nat.lt_succ_iff_lt_or_eq.mp hi with h | h
      · exact h2 i h
      · subst h; exact h1
    · intro h
      exact ⟨h n (Nat.lt_succ_self n), fun i hi => h i (Nat.lt_succ_of_lt hi)⟩

theorem dmWrite_counters (c : DMConfig) (s : DMState) (a d : Nat) :
    ((∀ i < 4, dmResident c (dmWriteBefore c s a d i) a i) →
      (dmWrite c s a d).hits = s.hits + 1 ∧ (dmWrite c s a d).misses = s.misses) ∧
    (¬ (∀ i < 4, dmResident c (dmWriteBefore c s a d i) a i) →
      (dmWrite c s a d).hits = s.hits ∧ (dmWrite c s a d).misses = s.misses + 1) := by
  have hc := dmWrite_fold_counters c a d (List.range 4) (s, true)
  rw [← dmWrite_fold_flag]
  unfold dmWrite
  constructor
  · intro h; simp [h, hc.1, hc.2]
  · intro h; simp [h, hc.1, hc.2]

theorem dmRead_counters (c : DMConfig) (s : DMState) (a : Nat) :
    ((∀ i < 4, dmResident c (dmReadBefore c s a i) a i) →
      (dmRead c s a).1.hits = s.hits + 1 ∧ (dmRead c s a).1.misses = s.misses) ∧
    (¬ (∀ i < 4, dmResident c (dmReadBefore c s a i) a i) →
      (dmRead c s a).1.hits = s.hits ∧ (dmRead c s a).1.misses = s.misses + 1) := by
  have hc := dmRead_fold_counters c a (List.range 4) (s, true, 0)
  rw [← dmRead_fold_flag]
  unfold dmRead
  constructor
  · intro h; simp [h, hc.1, hc.2]
  · intro h; simp [h, hc.1, hc.2]


/-! ### Four-way cache -/

theorem fwWrite_eq (c : FWConfig) (s : FWState) (a d : Nat) :
    fwWrite c s a d
      = fwCount c (fwWriteBytes c (fwStore { s with d := u32 d, a := u32 a, foundInCache := true }) 4) := by
  rfl

theorem fwRead_eq (c : FWConfig) (s : FWState) (a : Nat) :
    fwRead c s a = fwCount c (fwReadBytes c { s with a := u32 a, foundInCache := true } 4) := by
  rfl

theorem fwFillLine_fold_tag_valid (c : FWConfig) (m : Nat → Nat) (l : List Nat) :
    ∀ line : CacheLine,
      (l.foldl (fun (l : CacheLine) add =>
        { l with data := mapSet l.data (add &&& c.offsetBitMask) (m add) }) line).tag = line.tag ∧
      (l.foldl (fun (l : CacheLine) add =>
        { l with data := mapSet l.data (add &&& c.offsetBitMask) (m add) }) line).valid = line.valid := by
  induction l with
  | nil => intro line; exact ⟨rfl, rfl⟩
  | cons x l ih =>
    intro line
    rw [List.foldl_cons]
    exact ⟨(ih _).1.trans rfl, (ih _).2.trans rfl⟩

theorem fwFillLine_tag (c : FWConfig) (m : Nat → Nat) (x : Nat) (line : CacheLine) :
    (fwFillLine c m x line).tag = line.tag := (fwFillLine_fold_tag_valid c m _ line).1

theorem fwFillLine_valid (c : FWConfig) (m : Nat → Nat) (x : Nat) (line : CacheLine) :
    (fwFillLine c m x line).valid = line.valid := (fwFillLine_fold_tag_valid c m _ line).2

theorem mem_of_mem_fifo {α : Type} (q : List α) (r : α) (h : r ∈ (if q.length ≥ 4 then q.tail else q)) : r ∈ q := by
  split at h
  · exact List.mem_of_mem_tail h
  · exact h

theorem addToCache_allValid (c : FWConfig) (s : FWState) (x : Nat) (h : FWAllValid s) :
    FWAllValid (addToCache c s x) := by
  intro set r hr
  simp only [addToCache, mapSet] at hr
  split at hr
  · rw [List.mem_append] at hr
    rcases hr with hr | hr
    · exact h _ r (mem_of_mem_fifo _ r hr)
    · rw [List.mem_singleton] at hr
      rw [hr, fwFillLine_valid]
  · exact h set r hr

theorem writeByte_allValid (c : FWConfig) (s : FWState) (x v : Nat) (h : FWAllValid s) :
    FWAllValid (writeByte c s x v) := by
  unfold writeByte
  split
  · exact h
  · exact addToCache_allValid c s _ h

theorem readByte_allValid (c : FWConfig) (s : FWState) (x : Nat) (h : FWAllValid s) :
    FWAllValid (readByte c s x).1 := by
  unfold readByte
  split
  · exact h
  · exact addToCache_allValid c s _ h

theorem writeByte_hits (c : FWConfig) (s : FWState) (x v : Nat) :
    (writeByte c s x v).hits = s.hits ∧ (writeByte c s x v).misses = s.misses := by
  unfold writeByte; split <;> exact ⟨rfl, rfl⟩

theorem readByte_hits (c : FWConfig) (s : FWState) (x : Nat) :
    (readByte c s x).1.hits = s.hits ∧ (readByte c s x).1.misses = s.misses := by
  unfold readByte; split <;> exact ⟨rfl, rfl⟩

theorem readByte_a (c : FWConfig) (s : FWState) (x : Nat) : (readByte c s x).1.a = s.a := by
  unfold readByte; split <;> rfl

theorem fwLookup_isSome_iff (c : FWConfig) (s : FWState) (x : Nat) (h : FWAllValid s) :
    (fwLookup c s x).isSome = true ↔ fwResident c s x := by
  unfold fwLookup fwResident
  rw [List.find?_isSome]
  constructor
  · rintro ⟨r, hr, ht⟩
    exact ⟨r, hr, h _ r hr, by simpa using ht⟩
  · rintro ⟨r, hr, _, ht⟩
    exact ⟨r, hr, by simpa using ht⟩

theorem writeByte_found (c : FWConfig) (s : FWState) (x v : Nat) :
    (writeByte c s x v).foundInCache = (s.foundInCache && (fwLookup c s x).isSome) := by
  unfold writeByte
  split <;> rename_i h <;> simp [h, addToCache]

theorem readByte_found (c : FWConfig) (s : FWState) (x : Nat) :
    (readByte c s x).1.foundInCache = (s.foundInCache && (fwLookup c s x).isSome) := by
  unfold readByte
  split <;> rename_i h <;> simp [h, addToCache]

theorem fwWriteBytes_succ (c : FWConfig) (s0 : FWState) (n : Nat) :
    fwWriteBytes c s0 (n + 1)
      = writeByte c (fwWriteBytes c s0 n) (u32 ((fwWriteBytes c s0 n).a + n))
          (range (fwWriteBytes c s0 n).d (31 - 8 * n) (24 - 8 * n)) := by
  simp only [fwWriteBytes, List.range_succ, List.foldl_append, List.foldl_cons, List.foldl_nil]

theorem fwReadBytes_succ (c : FWConfig) (s0 : FWState) (n : Nat) :
    fwReadBytes c s0 (n + 1)
      = { (readByte c (fwReadBytes c s0 n) (u32 ((fwReadBytes c s0 n).a + (3 - n)))).1 with
          d := setRange (readByte c (fwReadBytes c s0 n) (u32 ((fwReadBytes c s0 n).a + (3 - n)))).1.d
                (8 * n + 7) (8 * n)
                (readByte c (fwReadBytes c s0 n) (u32 ((fwReadBytes c s0 n).a + (3 - n)))).2 } := by
  simp only [fwReadBytes, List.range_succ, List.foldl_append, List.foldl_cons, List.foldl_nil]

theorem fwWriteBytes_fields (c : FWConfig) (s0 : FWState) (n : Nat) :
    (fwWriteBytes c s0 n).a = s0.a ∧
    (fwWriteBytes c s0 n).hits = s0.hits ∧ (fwWriteBytes c s0 n).misses = s0.misses := by
  induction n with
  | zero => exact ⟨rfl, rfl, rfl⟩
  | succ n ih =>
    rw [fwWriteBytes_succ]
    refine ⟨?_, ?_, ?_⟩
    · rw [writeByte_a]; exact ih.1
    · rw [(writeByte_hits _ _ _ _).1]; exact ih.2.1
    · rw [(writeByte_hits _ _ _ _).2]; exact ih.2.2

theorem fwWriteBytes_allValid (c : FWConfig) (s0 : FWState) (h : FWAllValid s0) (n : Nat) :
    FWAllValid (fwWriteBytes c s0 n) := by
  induction n with
  | zero => exact h
  | succ n ih => rw [fwWriteBytes_succ]; exact writeByte_allValid c _ _ _ ih

theorem fwReadBytes_fields (c : FWConfig) (s0 : FWState) (n : Nat) :
    (fwReadBytes c s0 n).a = s0.a ∧
    (fwReadBytes c s0 n).hits = s0.hits ∧ (fwReadBytes c s0 n).misses = s0.misses := by
  induction n with
  | zero => exact ⟨rfl, rfl, rfl⟩
  | succ n ih =>
    rw [fwReadBytes_succ]
    refine ⟨?_, ?_, ?_⟩
    · show (readByte c _ _).1.a = _
      rw [readByte_a]; exact ih.1
    · show (readByte c _ _).1.hits = _
      rw [(readByte_hits _ _ _).1]; exact ih.2.1
    · show (readByte c _ _).1.misses = _
      rw [(readByte_hits _ _ _).2]; exact ih.2.2

theorem fwReadBytes_allValid (c : FWConfig) (s0 : FWState) (h : FWAllValid s0) (n : Nat) :
    FWAllValid (fwReadBytes c s0 n) := by
  induction n with
  | zero => exact h
  | succ n ih => rw [fwReadBytes_succ]; exact readByte_allValid c _ _ ih

theorem fwWriteBytes_found (c : FWConfig) (s0 : FWState) (h : FWAllValid s0)
    (hf : s0.foundInCache = true) (n : Nat) :
    (fwWriteBytes c s0 n).foundInCache = true ↔
      ∀ i < n, fwResident c (fwWriteBytes c s0 i) (u32 (s0.a + i)) := by
  induction n with
  | zero => simp [fwWriteBytes, hf]
  | succ n ih =>
    rw [fwWriteBytes_succ, writeByte_found, Bool.and_eq_true, ih,
      fwLookup_isSome_iff c _ _ (fwWriteBytes_allValid c s0 h n), (fwWriteBytes_fields c s0 n).1]
    constructor
    · rintro ⟨h1, h2⟩ i hi
      rcases Nat.lt_succ_iff_lt_or_eq.mp hi with h | h
      · exact h1 i h
      · subst h; exact h2
    · intro h
      exact ⟨fun i hi => h i (Nat.lt_succ_of_lt hi), h n (Nat.lt_succ_self n)⟩

theorem fwReadBytes_found (c : FWConfig) (s0 : FWState) (h : FWAllValid s0)
    (hf : s0.foundInCache = true) (n : Nat) :
    (fwReadBytes c s0 n).foundInCache = true ↔
      ∀ j < n, fwResident c (fwReadBytes c s0 j) (u32 (s0.a + (3 - j))) := by
  induction n with
  | zero => simp [fwReadBytes, hf]
  | succ n ih =>
    rw [fwReadBytes_succ]
    show (readByte c _ _).1.foundInCache = true ↔ _
    rw [readByte_found, Bool.and_eq_true, ih,
      fwLookup_isSome_iff c _ _ (fwReadBytes_allValid c s0 h n), (fwReadBytes_fields c s0 n).1]
    constructor
    · rintro ⟨h1, h2⟩ i hi
      rcases Nat.lt_succ_iff_lt_or_eq.mp hi with h | h
      · exact h1 i h
      · subst h; exact h2
    · intro h
      exact ⟨fun i hi => h i (Nat.lt_succ_of_lt hi), h n (Nat.lt_succ_self n)⟩

theorem fwWrite_counters (c : FWConfig) (s : FWState) (h : FWAllValid s) (a d : Nat) :
    let s0 := fwStore { s with d := u32 d, a := u32 a, foundInCache := true }
    ((∀ i < 4, fwResident c (fwWriteBytes c s0 i) (u32 (u32 a + i))) →
      (fwWrite c s a d).hits = s.hits + 1 ∧ (fwWrite c s a d).misses = s.misses) ∧
    (¬ (∀ i < 4, fwResident c (fwWriteBytes c s0 i) (u32 (u32 a + i))) →
      (fwWrite c s a d).hits = s.hits ∧ (fwWrite c s a d).misses = s.misses + 1) := by
  intro s0
  have hv : FWAllValid s0 := h
  have hi := fwWriteBytes_fields c s0 4
  have hf := fwWriteBytes_found c s0 hv rfl 4
  have ha : s0.a = u32 a := rfl
  have hh : s0.hits = s.hits := rfl
  have hm : s0.misses = s.misses := rfl
  rw [ha] at hf
  rw [fwWrite_eq, ← hf]
  constructor
  · intro hh'
    simp only [fwCount, hh', if_true, hi.2.1, hi.2.2, hh, hm, and_self]
  · intro hh'
    simp [fwCount, hh', hi.2.1, hi.2.2, hh, hm]

theorem fwRead_counters (c : FWConfig) (s : FWState) (h : FWAllValid s) (a : Nat) :
    let s0 : FWState := { s with a := u32 a, foundInCache := true }
    ((∀ j < 4, fwResident c (fwReadBytes c s0 j) (u32 (u32 a + (3 - j)))) →
      (fwRead c s a).hits = s.hits + 1 ∧ (fwRead c s a).misses = s.misses) ∧
    (¬ (∀ j < 4, fwResident c (fwReadBytes c s0 j) (u32 (u32 a + (3 - j)))) →
      (fwRead c s a).hits = s.hits ∧ (fwRead c s a).misses = s.misses + 1) := by
  intro s0
  have hv : FWAllValid s0 := h
  have hi := fwReadBytes_fields c s0 4
  have hf := fwReadBytes_found c s0 hv rfl 4
  have ha : s0.a = u32 a := rfl
  have hh : s0.hits = s.hits := rfl
  have hm : s0.misses = s.misses := rfl
  rw [ha] at hf
  rw [fwRead_eq, ← hf]
  constructor
  · intro hh'
    simp only [fwCount, hh', if_true, hi.2.1, hi.2.2, hh, hm, and_self]
  · intro hh'
    simp [fwCount, hh', hi.2.1, hi.2.2, hh, hm]

theorem fwCount_allValid (c : FWConfig) (s : FWState) (h : FWAllValid s) : FWAllValid (fwCount c s) := h

theorem fwRequest_allValid (c : FWConfig) (s : FWState) (r : Request) (h : FWAllValid s) :
    FWAllValid (fwRequest c s r).1 := by
  unfold fwRequest
  split
  · show FWAllValid (fwWrite c s r.addr r.data)
    rw [fwWrite_eq]
    exact fwCount_allValid c _ (fwWriteBytes_allValid c
      (fwStore { s with d := u32 r.data, a := u32 r.addr, foundInCache := true }) h 4)
  · show FWAllValid (fwRead c s r.addr)
    rw [fwRead_eq]
    exact fwCount_allValid c _ (fwReadBytes_allValid c
      { s with a := u32 r.addr, foundInCache := true } h 4)

theorem fwRun_allValid (c : FWConfig) (trace : List Request) :
    ∀ s, FWAllValid s → FWAllValid (fwRun c s trace).1 := by
  induction trace with
  | nil => intro s h; exact h
  | cons r rs ih => intro s h; exact ih _ (fwRequest_allValid c s r h)

theorem fwInit_allValid : FWAllValid FWState.init := by
  intro set r hr; simp [FWState.init] at hr


theorem dmRequest_counters (c : DMConfig) (s : DMState) (r : Request) :
    ((dmRequest c s r).1.hits = s.hits + 1 ∧ (dmRequest c s r).1.misses = s.misses) ∨
    ((dmRequest c s r).1.hits = s.hits ∧ (dmRequest c s r).1.misses = s.misses + 1) := by
  unfold dmRequest
  by_cases hw : r.we = true
  · simp only [hw, if_true]
    by_cases h : ∀ i < 4, dmResident c (dmWriteBefore c s (u32 r.addr) (u32 r.data) i) (u32 r.addr) i
    · exact Or.inl ((dmWrite_counters c s _ _).1 h)
    · exact Or.inr ((dmWrite_counters c s _ _).2 h)
  · simp only [hw]
    by_cases h : ∀ i < 4, dmResident c (dmReadBefore c s (u32 r.addr) i) (u32 r.addr) i
    · exact Or.inl ((dmRead_counters c s _).1 h)
    · exact Or.inr ((dmRead_counters c s _).2 h)

theorem fwCount_counters (c : FWConfig) (s : FWState) :
    ((fwCount c s).hits = s.hits + 1 ∧ (fwCount c s).misses = s.misses) ∨
    ((fwCount c s).hits = s.hits ∧ (fwCount c s).misses = s.misses + 1) := by
  unfold fwCount
  cases s.foundInCache <;> simp

theorem fwRequest_counters (c : FWConfig) (s : FWState) (r : Request) :
    ((fwRequest c s r).1.hits = s.hits + 1 ∧ (fwRequest c s r).1.misses = s.misses) ∨
    ((fwRequest c s r).1.hits = s.hits ∧ (fwRequest c s r).1.misses = s.misses + 1) := by
  unfold fwRequest
  by_cases hw : r.we = true
  · simp only [hw, if_true, fwWrite_eq]
    have h := fwCount_counters c
      (fwWriteBytes c (fwStore { s with d := u32 r.data, a := u32 r.addr, foundInCache := true }) 4)
    have hf := fwWriteBytes_fields c
      (fwStore { s with d := u32 r.data, a := u32 r.addr, foundInCache := true }) 4
    rw [hf.2.1, hf.2.2] at h
    exact h
  · simp only [hw, fwRead_eq]
    have h := fwCount_counters c
      (fwReadBytes c { s with a := u32 r.addr, foundInCache := true } 4)
    have hf := fwReadBytes_fields c { s with a := u32 r.addr, foundInCache := true } 4
    rw [hf.2.1, hf.2.2] at h
    exact h

theorem dmRun_counters (c : DMConfig) (trace : List Request) :
    ∀ s : DMState, (dmRun c s trace).1.hits + (dmRun c s trace).1.misses
        = s.hits + s.misses + trace.length ∧
      s.hits ≤ (dmRun c s trace).1.hits ∧ s.misses ≤ (dmRun c s trace).1.misses := by
  induction trace with
  | nil => intro s; simp [dmRun]
  | cons r rs ih =>
    intro s
    have h := ih (dmRequest c s r).1
    have h1 := dmRequest_counters c s r
    simp only [dmRun, List.length_cons]
    omega

theorem fwRun_counters (c : FWConfig) (trace : List Request) :
    ∀ s : FWState, (fwRun c s trace).1.hits + (fwRun c s trace).1.misses
        = s.hits + s.misses + trace.length ∧
      s.hits ≤ (fwRun c s trace).1.hits ∧ s.misses ≤ (fwRun c s trace).1.misses := by
  induction trace with
  | nil => intro s; simp [fwRun]
  | cons r rs ih =>
    intro s
    have h := ih (fwRequest c s r).1
    have h1 := fwRequest_counters c s r
    simp only [fwRun, List.length_cons]
    omega

/-- C6: in either organisation a request increments `hits` exactly when each of its four
byte accesses found a resident valid line with matching tag at the moment that byte was
processed, and increments `misses` instead as soon as one of the four bytes missed.  The
four-way part is stated for every state the cache can reach from its initial state. -/
theorem request_hit_iff_all_bytes_resident :
    (∀ (c : DMConfig) (s : DMState) (a d : Nat),
      ((∀ i < 4, dmResident c (dmWriteBefore c s a d i) a i) →
        (dmWrite c s a d).hits = s.hits + 1 ∧ (dmWrite c s a d).misses = s.misses) ∧
      (¬ (∀ i < 4, dmResident c (dmWriteBefore c s a d i) a i) →
        (dmWrite c s a d).hits = s.hits ∧ (dmWrite c s a d).misses = s.misses + 1)) ∧
    (∀ (c : DMConfig) (s : DMState) (a : Nat),
      ((∀ i < 4, dmResident c (dmReadBefore c s a i) a i) →
        (dmRead c s a).1.hits = s.hits + 1 ∧ (dmRead c s a).1.misses = s.misses) ∧
      (¬ (∀ i < 4, dmResident c (dmReadBefore c s a i) a i) →
        (dmRead c s a).1.hits = s.hits ∧ (dmRead c s a).1.misses = s.misses + 1)) ∧
    (∀ (c : FWConfig) (trace : List Request) (a d : Nat),
      let s := (fwRun c FWState.init trace).1
      let s0 := fwStore { s with d := u32 d, a := u32 a, foundInCache := true }
      ((∀ i < 4, fwResident c (fwWriteBytes c s0 i) (u32 (u32 a + i))) →
        (fwWrite c s a d).hits = s.hits + 1 ∧ (fwWrite c s a d).misses = s.misses) ∧
      (¬ (∀ i < 4, fwResident c (fwWriteBytes c s0 i) (u32 (u32 a + i))) →
        (fwWrite c s a d).hits = s.hits ∧ (fwWrite c s a d).misses = s.misses + 1)) ∧
    (∀ (c : FWConfig) (trace : List Request) (a : Nat),
      let s := (fwRun c FWState.init trace).1
      let s0 : FWState := { s with a := u32 a, foundInCache := true }
      ((∀ j < 4, fwResident c (fwReadBytes c s0 j) (u32 (u32 a + (3 - j)))) →
        (fwRead c s a).hits = s.hits + 1 ∧ (fwRead c s a).misses = s.misses) ∧
      (¬ (∀ j < 4, fwResident c (fwReadBytes c s0 j) (u32 (u32 a + (3 - j)))) →
        (fwRead c s a).hits = s.hits ∧ (fwRead c s a).misses = s.misses + 1)) :=
  ⟨fun c s a d => dmWrite_counters c s a d,
   fun c s a => dmRead_counters c s a,
   fun c trace a d => fwWrite_counters c _ (fwRun_allValid c trace _ fwInit_allValid) a d,
   fun c trace a => fwRead_counters c _ (fwRun_allValid c trace _ fwInit_allValid) a⟩

/-- C7: in either organisation every served request increases exactly one of `hits` and
`misses` by exactly 1 and leaves the other unchanged; hence after any trace the two counters
have grown by the number of requests served, neither has decreased, and from the initial
state `hits + misses` is the number of requests served. -/
theorem counters_count_served_requests :
    (∀ (c : DMConfig) (s : DMState) (r : Request),
      ((dmRequest c s r).1.hits = s.hits + 1 ∧ (dmRequest c s r).1.misses = s.misses) ∨
      ((dmRequest c s r).1.hits = s.hits ∧ (dmRequest c s r).1.misses = s.misses + 1)) ∧
    (∀ (c : DMConfig) (s : DMState) (trace : List Request),
      (dmRun c s trace).1.hits + (dmRun c s trace).1.misses = s.hits + s.misses + trace.length ∧
      s.hits ≤ (dmRun c s trace).1.hits ∧ s.misses ≤ (dmRun c s trace).1.misses) ∧
    (∀ (c : DMConfig) (trace : List Request),
      (dmRun c DMState.init trace).1.hits + (dmRun c DMState.init trace).1.misses
        = trace.length) ∧
    (∀ (c : FWConfig) (s : FWState) (r : Request),
      ((fwRequest c s r).1.hits = s.hits + 1 ∧ (fwRequest c s r).1.misses = s.misses) ∨
      ((fwRequest c s r).1.hits = s.hits ∧ (fwRequest c s r).1.misses = s.misses + 1)) ∧
    (∀ (c : FWConfig) (s : FWState) (trace : List Request),
      (fwRun c s trace).1.hits + (fwRun c s trace).1.misses = s.hits + s.misses + trace.length ∧
      s.hits ≤ (fwRun c s trace).1.hits ∧ s.misses ≤ (fwRun c s trace).1.misses) ∧
    (∀ (c : FWConfig) (trace : List Request),
      (fwRun c FWState.init trace).1.hits + (fwRun c FWState.init trace).1.misses
        = trace.length) := by
  refine ⟨dmRequest_counters, fun c s t => dmRun_counters c t s, ?_, fwRequest_counters,
    fun c s t => fwRun_counters c t s, ?_⟩
  · intro c trace
    have h := (dmRun_counters c trace DMState.init).1
    simpa [DMState.init] using h
  · intro c trace
    have h := (fwRun_counters c trace FWState.init).1
    simpa [FWState.init] using h

/-! ## Validity bits and tags of the direct-mapped cache -/

theorem dmResident_iff_tagState (c : DMConfig) (s : DMState) (a i : Nat) :
    dmResident c s a i ↔ dmTagState s (dmIndex c a i) = (true, dmTag c a i) := by
  unfold dmResident dmTagState
  rw [Prod.mk.injEq]

theorem dmFill_valid_tag (c : DMConfig) (m : Nat → Nat) (line : CacheLine) (a o t : Nat) :
    (dmFill c m line a o t).valid = true ∧ (dmFill c m line a o t).tag = t := ⟨rfl, rfl⟩

theorem dmWriteByte_tagState (c : DMConfig) (a d : Nat) (st : DMState × Bool) (i : Nat) :
    dmTagState (dmWriteByte c a d st i).1
      = mapSet (dmTagState st.1) (dmIndex c a i) (true, dmTag c a i) := by
  funext idx
  by_cases hm : dmMiss c st.1 a i = true
  · by_cases hi : idx = dmIndex c a i
    · simp [dmWriteByte, dmTagState, mapSet, hm, hi, dmFill]
    · simp [dmWriteByte, dmTagState, mapSet, hi]
  · have hr := (dmMiss_eq_false_iff c st.1 a i).mp (by simpa using hm)
    by_cases hi : idx = dmIndex c a i
    · simp [dmWriteByte, dmTagState, mapSet, hm, hi, hr.1, hr.2]
    · simp [dmWriteByte, dmTagState, mapSet, hi]

theorem dmReadByte_tagState (c : DMConfig) (a : Nat) (st : DMState × Bool × Nat) (i : Nat) :
    dmTagState (dmReadByte c a st i).1
      = mapSet (dmTagState st.1) (dmIndex c a i) (true, dmTag c a i) := by
  funext idx
  by_cases hm : dmMiss c st.1 a i = true
  · by_cases hi : idx = dmIndex c a i
    · simp [dmReadByte, dmTagState, mapSet, hm, hi, dmFill]
    · simp [dmReadByte, dmTagState, mapSet, hi]
  · have hr := (dmMiss_eq_false_iff c st.1 a i).mp (by simpa using hm)
    by_cases hi : idx = dmIndex c a i
    · simp [dmReadByte, dmTagState, mapSet, hm, hi, hr.1, hr.2]
    · simp [dmReadByte, dmTagState, mapSet, hi]

theorem dmTagsAfter_succ (c : DMConfig) (a : Nat) (T : Nat → Bool × Nat) (n : Nat) :
    dmTagsAfter c a T (n + 1) = mapSet (dmTagsAfter c a T n) (dmIndex c a n) (true, dmTag c a n) := by
  simp only [dmTagsAfter, List.range_succ, List.foldl_append, List.foldl_cons, List.foldl_nil]

theorem dmWriteBefore_succ (c : DMConfig) (s : DMState) (a d n : Nat) :
    dmWriteBefore c s a d (n + 1)
      = (dmWriteByte c a d ((List.range n).foldl (dmWriteByte c a d) (s, true)) n).1 := by
  simp only [dmWriteBefore, List.range_succ, List.foldl_append, List.foldl_cons, List.foldl_nil]

theorem dmReadBefore_succ (c : DMConfig) (s : DMState) (a n : Nat) :
    dmReadBefore c s a (n + 1)
      = (dmReadByte c a ((List.range n).foldl (dmReadByte c a) (s, true, 0)) n).1 := by
  simp only [dmReadBefore, List.range_succ, List.foldl_append, List.foldl_cons, List.foldl_nil]

theorem dmWriteBefore_tagState (c : DMConfig) (s : DMState) (a d n : Nat) :
    dmTagState (dmWriteBefore c s a d n) = dmTagsAfter c a (dmTagState s) n := by
  induction n with
  | zero => rfl
  | succ n ih =>
    rw [dmWriteBefore_succ, dmWriteByte_tagState, dmTagsAfter_succ, ← ih]; rfl

theorem dmReadBefore_tagState (c : DMConfig) (s : DMState) (a n : Nat) :
    dmTagState (dmReadBefore c s a n) = dmTagsAfter c a (dmTagState s) n := by
  induction n with
  | zero => rfl
  | succ n ih =>
    rw [dmReadBefore_succ, dmReadByte_tagState, dmTagsAfter_succ, ← ih]; rfl

theorem dmWrite_tagState (c : DMConfig) (s : DMState) (a d : Nat) :
    dmTagState (dmWrite c s a d) = dmTagsAfter c a (dmTagState s) 4 := by
  rw [← dmWriteBefore_tagState c s a d 4]
  unfold dmWrite dmWriteBefore
  dsimp only
  split_ifs <;> rfl

theorem dmRead_tagState (c : DMConfig) (s : DMState) (a : Nat) :
    dmTagState (dmRead c s a).1 = dmTagsAfter c a (dmTagState s) 4 := by
  rw [← dmReadBefore_tagState c s a 4]
  unfold dmRead dmReadBefore
  dsimp only
  split_ifs <;> rfl

theorem mapSet_self {α : Type} (m : Nat → α) (k : Nat) (v : α) (h : m k = v) : mapSet m k v = m := by
  funext x
  unfold mapSet
  split
  · rename_i hx; rw [hx, h]
  · rfl

/-- After the first `n` bytes the line of each of them carries the tag of one of them. -/
theorem dmTagsAfter_last (c : DMConfig) (a : Nat) (T : Nat → Bool × Nat) (n : Nat) :
    ∀ i < n, ∃ j < n, dmIndex c a j = dmIndex c a i ∧
      dmTagsAfter c a T n (dmIndex c a i) = (true, dmTag c a j) := by
  induction n with
  | zero => intro i hi; omega
  | succ n ih =>
    intro i hi
    rw [dmTagsAfter_succ]
    by_cases h : dmIndex c a i = dmIndex c a n
    · exact ⟨n, Nat.lt_succ_self n, h.symm, by simp [mapSet, h]⟩
    · have hin : i < n := by
        rcases Nat.lt_succ_iff_lt_or_eq.mp hi with h' | h'
        · exact h'
        · subst h'; exact absurd rfl h
      obtain ⟨j, hj, hj1, hj2⟩ := ih i hin
      exact ⟨j, Nat.lt_succ_of_lt hj, hj1, by simp [mapSet, h, hj2]⟩

/-- All bytes of a request are resident at their moment exactly when they are all resident
before the request. -/
theorem dmTagsAfter_all_resident (c : DMConfig) (a : Nat) (T : Nat → Bool × Nat) (n : Nat) :
    (∀ i < n, dmTagsAfter c a T i (dmIndex c a i) = (true, dmTag c a i)) ↔
      ∀ i < n, T (dmIndex c a i) = (true, dmTag c a i) := by
  have key : ∀ m, (∀ i < m, dmTagsAfter c a T i (dmIndex c a i) = (true, dmTag c a i)) →
      dmTagsAfter c a T m = T := by
    intro m
    induction m with
    | zero => intro _; rfl
    | succ m ih =>
      intro h
      have h1 := ih (fun i hi => h i (Nat.lt_succ_of_lt hi))
      rw [dmTagsAfter_succ, mapSet_self _ _ _ (h m (Nat.lt_succ_self m)), h1]
  have key2 : ∀ m, (∀ i < m, T (dmIndex c a i) = (true, dmTag c a i)) →
      dmTagsAfter c a T m = T := by
    intro m
    induction m with
    | zero => intro _; rfl
    | succ m ih =>
      intro h
      have h1 := ih (fun i hi => h i (Nat.lt_succ_of_lt hi))
      rw [dmTagsAfter_succ, h1, mapSet_self _ _ _ (h m (Nat.lt_succ_self m))]
  constructor
  · intro h i hi
    have := h i hi
    rwa [key i (fun j hj => h j (Nat.lt_trans hj hi))] at this
  · intro h i hi
    rw [key2 i (fun j hj => h j (Nat.lt_trans hj hi))]
    exact h i hi

theorem dmTagsAfter_resident_iff (c : DMConfig) (a : Nat) (T : Nat → Bool × Nat) :
    (∀ i < 4, dmTagsAfter c a T 4 (dmIndex c a i) = (true, dmTag c a i)) ↔ dmConflictFree c a := by
  constructor
  · intro h i hi j hj hij
    have h1 := h i hi
    have h2 := h j hj
    rw [hij, h2] at h1
    exact ((Prod.mk.injEq _ _ _ _).mp h1).2.symm
  · intro h i hi
    obtain ⟨j, hj, hj1, hj2⟩ := dmTagsAfter_last c a T 4 i hi
    rw [hj2, h j hj i hi hj1]

/-- A request served right after the same request hits exactly when it is conflict free. -/
theorem dmRequest_repeat (c : DMConfig) (s : DMState) (r : Request) :
    ((dmRequest c (dmRequest c s r).1 r).1.hits = (dmRequest c s r).1.hits + 1 ∧
      (dmRequest c (dmRequest c s r).1 r).1.misses = (dmRequest c s r).1.misses) ↔
    dmConflictFree c (u32 r.addr) := by
  rw [← dmTagsAfter_resident_iff c (u32 r.addr) (dmTagState s),
    ← dmTagsAfter_all_resident]
  unfold dmRequest
  by_cases hw : r.we = true
  · simp only [hw, if_true]
    rw [← dmWrite_tagState c s (u32 r.addr) (u32 r.data)]
    have hc := dmWrite_counters c (dmWrite c s (u32 r.addr) (u32 r.data)) (u32 r.addr) (u32 r.data)
    simp only [dmResident_iff_tagState, dmWriteBefore_tagState] at hc
    constructor
    · intro h
      by_contra hn
      have := hc.2 hn
      omega
    · exact hc.1
  · simp only [if_neg hw]
    rw [← dmRead_tagState c s (u32 r.addr)]
    have hc := dmRead_counters c (dmRead c s (u32 r.addr)).1 (u32 r.addr)
    simp only [dmResident_iff_tagState, dmReadBefore_tagState] at hc
    constructor
    · intro h
      by_contra hn
      have := hc.2 hn
      omega
    · exact hc.1

/-! ## Tags of the four-way cache -/

theorem fwSetIndex_eq_of_line (c : FWConfig) (x y : Nat)
    (h : x >>> c.offsetBitsCount = y >>> c.offsetBitsCount) : fwSetIndex c x = fwSetIndex c y := by
  unfold fwSetIndex
  apply Nat.eq_of_testBit_eq
  intro j
  have hx : x.testBit (c.offsetBitsCount + j) = y.testBit (c.offsetBitsCount + j) := by
    rw [← Nat.testBit_shiftRight, ← Nat.testBit_shiftRight, h]
  rw [Nat.testBit_shiftRight, Nat.testBit_shiftRight, Nat.testBit_and, Nat.testBit_and, hx]

theorem fwTag_eq_of_line (c : FWConfig) (x y : Nat)
    (h : x >>> c.offsetBitsCount = y >>> c.offsetBitsCount) : fwTag c x = fwTag c y := by
  unfold fwTag
  rw [Nat.shiftRight_add, Nat.shiftRight_add, h]

theorem fwLineBase_eq (c : FWConfig) (x : Nat) (hx : x < 2 ^ 32) :
    fwLineBase c x = (x >>> c.offsetBitsCount) <<< c.offsetBitsCount := by
  unfold fwLineBase
  apply u32_of_lt
  rw [Nat.shiftRight_eq_div_pow, Nat.shiftLeft_eq]
  exact Nat.lt_of_le_of_lt (Nat.div_mul_le_self _ _) hx

theorem fwLineBase_line (c : FWConfig) (x : Nat) (hx : x < 2 ^ 32) :
    fwLineBase c x >>> c.offsetBitsCount = x >>> c.offsetBitsCount := by
  rw [fwLineBase_eq c x hx, Nat.shiftLeft_shiftRight]

theorem fwSetIndex_lineBase (c : FWConfig) (x : Nat) (hx : x < 2 ^ 32) :
    fwSetIndex c (fwLineBase c x) = fwSetIndex c x :=
  fwSetIndex_eq_of_line c _ _ (fwLineBase_line c x hx)

theorem fwTag_lineBase (c : FWConfig) (x : Nat) (hx : x < 2 ^ 32) :
    fwTag c (fwLineBase c x) = fwTag c x :=
  fwTag_eq_of_line c _ _ (fwLineBase_line c x hx)

theorem fwLookup_isSome_iff_mem (c : FWConfig) (s : FWState) (x : Nat) :
    (fwLookup c s x).isSome = true ↔ fwTag c x ∈ fwTags s (fwSetIndex c x) := by
  unfold fwLookup fwTags
  rw [List.find?_isSome, List.mem_map]
  constructor
  · rintro ⟨r, hr, ht⟩
    exact ⟨r, hr, by simpa using ht⟩
  · rintro ⟨r, hr, ht⟩
    exact ⟨r, hr, by simpa using ht⟩

theorem addToCache_tags (c : FWConfig) (s : FWState) (x : Nat) :
    fwTags (addToCache c s x)
      = mapSet (fwTags s) (fwSetIndex c x) (fifoPush (fwTags s (fwSetIndex c x)) (fwTag c x)) := by
  funext set
  unfold addToCache fwTags mapSet fifoPush
  by_cases h : set = fwSetIndex c x
  · simp only [h, if_true, List.map_append, List.map_cons, List.map_nil, fwFillLine_tag,
      List.length_map]
    split <;> simp
  · simp only [h, if_false]

theorem writeByte_tags (c : FWConfig) (s : FWState) (x v : Nat) (hx : x < 2 ^ 32) :
    fwTags (writeByte c s x v) = fwTouch (fwTags s) (fwSetIndex c x) (fwTag c x) := by
  unfold writeByte fwTouch
  have hl := fwLookup_isSome_iff_mem c s x
  split
  · rename_i r h
    rw [h] at hl
    rw [if_pos (hl.mp rfl)]; rfl
  · rename_i h
    rw [h] at hl
    rw [if_neg (fun hh => by simpa using hl.mpr hh)]
    show fwTags (addToCache c s (fwLineBase c x)) = _
    rw [addToCache_tags, fwSetIndex_lineBase c x hx, fwTag_lineBase c x hx]

theorem readByte_tags (c : FWConfig) (s : FWState) (x : Nat) (hx : x < 2 ^ 32) :
    fwTags (readByte c s x).1 = fwTouch (fwTags s) (fwSetIndex c x) (fwTag c x) := by
  unfold readByte fwTouch
  have hl := fwLookup_isSome_iff_mem c s x
  split
  · rename_i r h
    rw [h] at hl
    rw [if_pos (hl.mp rfl)]; rfl
  · rename_i h
    rw [h] at hl
    rw [if_neg (fun hh => by simpa using hl.mpr hh)]
    show fwTags (addToCache c s (fwLineBase c x)) = _
    rw [addToCache_tags, fwSetIndex_lineBase c x hx, fwTag_lineBase c x hx]

theorem writeByte_found_mem (c : FWConfig) (s : FWState) (x v : Nat) :
    (writeByte c s x v).foundInCache
      = (s.foundInCache && decide (fwTag c x ∈ fwTags s (fwSetIndex c x))) := by
  rw [writeByte_found]
  congr 1
  rw [Bool.eq_iff_iff, fwLookup_isSome_iff_mem]; simp

theorem readByte_found_mem (c : FWConfig) (s : FWState) (x : Nat) :
    (readByte c s x).1.foundInCache
      = (s.foundInCache && decide (fwTag c x ∈ fwTags s (fwSetIndex c x))) := by
  rw [readByte_found]
  congr 1
  rw [Bool.eq_iff_iff, fwLookup_isSome_iff_mem]; simp

theorem mem_fifoPush (q : List Nat) (t : Nat) : t ∈ fifoPush q t := by
  unfold fifoPush; simp

theorem fwTouch_mem (T : Nat → List Nat) (set t : Nat) : t ∈ fwTouch T set t set := by
  unfold fwTouch
  split
  · assumption
  · simp [mapSet, mem_fifoPush]

theorem fwTouch_of_mem (T : Nat → List Nat) (set t : Nat) (h : t ∈ T set) : fwTouch T set t = T := by
  unfold fwTouch; rw [if_pos h]

theorem fwTouch_idem (T : Nat → List Nat) (set t : Nat) :
    fwTouch (fwTouch T set t) set t = fwTouch T set t :=
  fwTouch_of_mem _ _ _ (fwTouch_mem T set t)

/-! ## FIFO replacement -/

theorem aligned_line (ob x j : Nat) (hob : 2 ≤ ob) (hal : x % 4 = 0) (hj : j < 4) :
    (x + j) >>> ob = x >>> ob := by
  obtain ⟨p, rfl⟩ : ∃ p, ob = 2 + p := ⟨ob - 2, by omega⟩
  rw [Nat.shiftRight_add, Nat.shiftRight_add]
  congr 1
  rw [Nat.shiftRight_eq_div_pow, Nat.shiftRight_eq_div_pow]
  omega

theorem aligned_u32 (x j : Nat) (hx : x < 2 ^ 32) (hal : x % 4 = 0) (hj : j < 4) :
    u32 (x + j) = x + j := by
  apply u32_of_lt; omega

/-- The bytes of an aligned request lie in the set and carry the tag of its address when a
line has at least four bytes. -/
theorem aligned_decode (c : FWConfig) (hob : 2 ≤ c.offsetBitsCount) (x j : Nat)
    (hx : x < 2 ^ 32) (hal : x % 4 = 0) (hj : j < 4) :
    u32 (x + j) < 2 ^ 32 ∧ fwSetIndex c (u32 (x + j)) = fwSetIndex c x ∧
      fwTag c (u32 (x + j)) = fwTag c x := by
  rw [aligned_u32 x j hx hal hj]
  have h := aligned_line c.offsetBitsCount x j hob hal hj
  exact ⟨by omega, fwSetIndex_eq_of_line c _ _ h, fwTag_eq_of_line c _ _ h⟩

theorem fwWriteBytes_aligned (c : FWConfig) (hob : 2 ≤ c.offsetBitsCount) (s0 : FWState)
    (hx : s0.a < 2 ^ 32) (hal : s0.a % 4 = 0) (n : Nat) (hn : n < 4) :
    fwTags (fwWriteBytes c s0 (n + 1)) = fwTouch (fwTags s0) (fwSetIndex c s0.a) (fwTag c s0.a) ∧
    (fwWriteBytes c s0 (n + 1)).foundInCache
      = (s0.foundInCache && decide (fwTag c s0.a ∈ fwTags s0 (fwSetIndex c s0.a))) := by
  induction n with
  | zero =>
    obtain ⟨h1, h2, h3⟩ := aligned_decode c hob s0.a 0 hx hal hn
    rw [fwWriteBytes_succ]
    have e : fwWriteBytes c s0 0 = s0 := rfl
    rw [e, writeByte_tags c _ _ _ h1, writeByte_found_mem, h2, h3]
    exact ⟨rfl, rfl⟩
  | succ n ih =>
    obtain ⟨ih1, ih2⟩ := ih (by omega)
    have ha := (fwWriteBytes_fields c s0 (n + 1)).1
    obtain ⟨h1, h2, h3⟩ := aligned_decode c hob s0.a (n + 1) hx hal hn
    rw [fwWriteBytes_succ, ha, writeByte_tags c _ _ _ h1, writeByte_found_mem, h2, h3, ih1, ih2,
      fwTouch_idem]
    refine ⟨rfl, ?_⟩
    simp [fwTouch_mem]

theorem fwReadBytes_aligned (c : FWConfig) (hob : 2 ≤ c.offsetBitsCount) (s0 : FWState)
    (hx : s0.a < 2 ^ 32) (hal : s0.a % 4 = 0) (n : Nat) (hn : n < 4) :
    fwTags (fwReadBytes c s0 (n + 1)) = fwTouch (fwTags s0) (fwSetIndex c s0.a) (fwTag c s0.a) ∧
    (fwReadBytes c s0 (n + 1)).foundInCache
      = (s0.foundInCache && decide (fwTag c s0.a ∈ fwTags s0 (fwSetIndex c s0.a))) := by
  induction n with
  | zero =>
    obtain ⟨h1, h2, h3⟩ := aligned_decode c hob s0.a (3 - 0) hx hal (by omega)
    rw [fwReadBytes_succ]
    have e : fwReadBytes c s0 0 = s0 := rfl
    rw [e]
    show fwTags (readByte c _ _).1 = _ ∧ (readByte c _ _).1.foundInCache = _
    rw [readByte_tags c _ _ h1, readByte_found_mem, h2, h3]
    exact ⟨rfl, rfl⟩
  | succ n ih =>
    obtain ⟨ih1, ih2⟩ := ih (by omega)
    have ha := (fwReadBytes_fields c s0 (n + 1)).1
    obtain ⟨h1, h2, h3⟩ := aligned_decode c hob s0.a (3 - (n + 1)) hx hal (by omega)
    rw [fwReadBytes_succ]
    show fwTags (readByte c _ _).1 = _ ∧ (readByte c _ _).1.foundInCache = _
    rw [ha, readByte_tags c _ _ h1, readByte_found_mem, h2, h3, ih1, ih2, fwTouch_idem]
    refine ⟨rfl, ?_⟩
    simp [fwTouch_mem]

/-- An aligned request in a cache whose lines have at least four bytes: one FIFO access
with the set and tag of its address, a hit exactly when the tag is resident. -/
theorem fwRequest_aligned (c : FWConfig) (hob : 2 ≤ c.offsetBitsCount) (s : FWState)
    (r : Request) (hx : r.addr < 2 ^ 32) (hal : r.addr % 4 = 0) :
    fwTags (fwRequest c s r).1 = fwTouch (fwTags s) (fwSetIndex c r.addr) (fwTag c r.addr) ∧
    (fwTag c r.addr ∈ fwTags s (fwSetIndex c r.addr) →
      (fwRequest c s r).1.hits = s.hits + 1 ∧ (fwRequest c s r).1.misses = s.misses) ∧
    (fwTag c r.addr ∉ fwTags s (fwSetIndex c r.addr) →
      (fwRequest c s r).1.hits = s.hits ∧ (fwRequest c s r).1.misses = s.misses + 1) := by
  have hu : u32 r.addr = r.addr := u32_of_lt hx
  unfold fwRequest
  by_cases hw : r.we = true
  · simp only [hw, if_true, fwWrite_eq]
    have h := fwWriteBytes_aligned c hob
      (fwStore { s with d := u32 r.data, a := u32 r.addr, foundInCache := true })
      (by show u32 r.addr < 2 ^ 32; rw [hu]; exact hx) (by show u32 r.addr % 4 = 0; rw [hu]; exact hal)
      3 (by omega)
    have hf := fwWriteBytes_fields c
      (fwStore { s with d := u32 r.data, a := u32 r.addr, foundInCache := true }) 4
    have ea : (fwStore { s with d := u32 r.data, a := u32 r.addr, foundInCache := true }).a = r.addr := hu
    have et : fwTags (fwStore { s with d := u32 r.data, a := u32 r.addr, foundInCache := true }) = fwTags s := rfl
    have ef : (fwStore { s with d := u32 r.data, a := u32 r.addr, foundInCache := true }).foundInCache = true := rfl
    rw [ea, et, ef] at h
    refine ⟨h.1, ?_, ?_⟩
    · intro hm
      simp only [fwCount, h.2, hm, decide_True, Bool.and_self, if_true, hf.2.1, hf.2.2]
      exact ⟨rfl, rfl⟩
    · intro hm
      simp only [fwCount, h.2, hm, decide_False, Bool.and_false, Bool.false_eq_true, if_false, hf.2.1, hf.2.2]
      exact ⟨rfl, rfl⟩
  · simp only [if_neg hw, fwRead_eq]
    have h := fwReadBytes_aligned c hob { s with a := u32 r.addr, foundInCache := true }
      (by show u32 r.addr < 2 ^ 32; rw [hu]; exact hx) (by show u32 r.addr % 4 = 0; rw [hu]; exact hal)
      3 (by omega)
    have hf := fwReadBytes_fields c { s with a := u32 r.addr, foundInCache := true } 4
    have ea : ({ s with a := u32 r.addr, foundInCache := true } : FWState).a = r.addr := hu
    have et : fwTags ({ s with a := u32 r.addr, foundInCache := true } : FWState) = fwTags s := rfl
    have ef : ({ s with a := u32 r.addr, foundInCache := true } : FWState).foundInCache = true := rfl
    rw [ea, et, ef] at h
    refine ⟨h.1, ?_, ?_⟩
    · intro hm
      simp only [fwCount, h.2, hm, decide_True, Bool.and_self, if_true, hf.2.1, hf.2.2]
      exact ⟨trivial, trivial⟩
    · intro hm
      simp only [fwCount, h.2, hm, decide_False, Bool.and_false, Bool.false_eq_true, if_false, hf.2.1, hf.2.2]
      exact ⟨trivial, trivial⟩


theorem fwTouch_at (T : Nat → List Nat) (set t : Nat) :
    fwTouch T set t set = if t ∈ T set then T set else fifoPush (T set) t := by
  unfold fwTouch
  split
  · rfl
  · simp [mapSet]

theorem fwConfig_offsetBitsCount (cacheLines k cl ml : Nat) :
    (fwConfig cacheLines (2 ^ k) cl ml).offsetBitsCount = k := by
  show log2 (2 ^ k) = k
  exact log2_two_pow k

theorem fwRun_cons (c : FWConfig) (s : FWState) (r : Request) (rs : List Request) :
    (fwRun c s (r :: rs)).1 = (fwRun c (fwRequest c s r).1 rs).1 := rfl

/-- C10 (amended): in a four-way cache whose lines have at least four bytes, five
requests to aligned addresses of one set with pairwise distinct tags, served from a state
in which that set is empty, leave the set with the tags of the second to fifth address in
that order after the first four had filled it in order; a following request to the first
address is counted as a miss. -/
theorem fifo_evicts_first_written (cacheLines k cl ml : Nat) (hk : 2 ≤ k) (s : FWState)
    (r1 r2 r3 r4 r5 r6 : Request) (set : Nat)
    (haddr : ∀ r ∈ [r1, r2, r3, r4, r5], r.addr < 2 ^ 32 ∧ r.addr % 4 = 0 ∧
      fwSetIndex (fwConfig cacheLines (2 ^ k) cl ml) r.addr = set)
    (hdist : ([r1, r2, r3, r4, r5].map
      (fun r => fwTag (fwConfig cacheLines (2 ^ k) cl ml) r.addr)).Nodup)
    (hempty : s.cacheMem set = []) (h6 : r6.addr = r1.addr) :
    fwTags (fwRun (fwConfig cacheLines (2 ^ k) cl ml) s [r1, r2, r3, r4]).1 set
      = [r1, r2, r3, r4].map (fun r => fwTag (fwConfig cacheLines (2 ^ k) cl ml) r.addr) ∧
    fwTags (fwRun (fwConfig cacheLines (2 ^ k) cl ml) s [r1, r2, r3, r4, r5]).1 set
      = [r2, r3, r4, r5].map (fun r => fwTag (fwConfig cacheLines (2 ^ k) cl ml) r.addr) ∧
    (fwRequest (fwConfig cacheLines (2 ^ k) cl ml)
        (fwRun (fwConfig cacheLines (2 ^ k) cl ml) s [r1, r2, r3, r4, r5]).1 r6).1.misses
      = (fwRun (fwConfig cacheLines (2 ^ k) cl ml) s [r1, r2, r3, r4, r5]).1.misses + 1 ∧
    (fwRequest (fwConfig cacheLines (2 ^ k) cl ml)
        (fwRun (fwConfig cacheLines (2 ^ k) cl ml) s [r1, r2, r3, r4, r5]).1 r6).1.hits
      = (fwRun (fwConfig cacheLines (2 ^ k) cl ml) s [r1, r2, r3, r4, r5]).1.hits := by
  generalize hc : fwConfig cacheLines (2 ^ k) cl ml = c at *
  have hob : 2 ≤ c.offsetBitsCount := by rw [← hc, fwConfig_offsetBitsCount]; exact hk
  obtain ⟨a1, a2, a3, a4, a5⟩ :
      (r1.addr < 2 ^ 32 ∧ r1.addr % 4 = 0 ∧ fwSetIndex c r1.addr = set) ∧
      (r2.addr < 2 ^ 32 ∧ r2.addr % 4 = 0 ∧ fwSetIndex c r2.addr = set) ∧
      (r3.addr < 2 ^ 32 ∧ r3.addr % 4 = 0 ∧ fwSetIndex c r3.addr = set) ∧
      (r4.addr < 2 ^ 32 ∧ r4.addr % 4 = 0 ∧ fwSetIndex c r4.addr = set) ∧
      (r5.addr < 2 ^ 32 ∧ r5.addr % 4 = 0 ∧ fwSetIndex c r5.addr = set) := by
    simpa using haddr
  have h0 : fwTags s set = [] := by simp [fwTags, hempty]
  simp only [List.map_cons, List.map_nil, List.nodup_cons, List.mem_cons, List.mem_singleton,
    not_or, List.not_mem_nil, not_false_eq_true, List.nodup_nil, and_true] at hdist
  obtain ⟨⟨n12, n13, n14, n15⟩, ⟨n23, n24, n25⟩, ⟨n34, n35⟩, n45⟩ := hdist
  have e1 := (fwRequest_aligned c hob s r1 a1.1 a1.2.1).1
  have t1 : fwTags (fwRequest c s r1).1 set = [fwTag c r1.addr] := by
    rw [e1, a1.2.2, fwTouch_at, h0]; simp [fifoPush]
  have e2 := (fwRequest_aligned c hob (fwRequest c s r1).1 r2 a2.1 a2.2.1).1
  have t2 : fwTags (fwRequest c (fwRequest c s r1).1 r2).1 set
      = [fwTag c r1.addr, fwTag c r2.addr] := by
    rw [e2, a2.2.2, fwTouch_at, t1]; simp [fifoPush, Ne.symm n12]
  have e3 := (fwRequest_aligned c hob (fwRequest c (fwRequest c s r1).1 r2).1 r3 a3.1 a3.2.1).1
  have t3 : fwTags (fwRequest c (fwRequest c (fwRequest c s r1).1 r2).1 r3).1 set
      = [fwTag c r1.addr, fwTag c r2.addr, fwTag c r3.addr] := by
    rw [e3, a3.2.2, fwTouch_at, t2]; simp [fifoPush, Ne.symm n13, Ne.symm n23]
  have e4 := (fwRequest_aligned c hob
    (fwRequest c (fwRequest c (fwRequest c s r1).1 r2).1 r3).1 r4 a4.1 a4.2.1).1
  have t4 : fwTags (fwRequest c (fwRequest c (fwRequest c (fwRequest c s r1).1 r2).1 r3).1 r4).1 set
      = [fwTag c r1.addr, fwTag c r2.addr, fwTag c r3.addr, fwTag c r4.addr] := by
    rw [e4, a4.2.2, fwTouch_at, t3]; simp [fifoPush, Ne.symm n14, Ne.symm n24, Ne.symm n34]
  have e5 := (fwRequest_aligned c hob
    (fwRequest c (fwRequest c (fwRequest c (fwRequest c s r1).1 r2).1 r3).1 r4).1 r5 a5.1 a5.2.1).1
  have t5 : fwTags (fwRequest c
      (fwRequest c (fwRequest c (fwRequest c (fwRequest c s r1).1 r2).1 r3).1 r4).1 r5).1 set
      = [fwTag c r2.addr, fwTag c r3.addr, fwTag c r4.addr, fwTag c r5.addr] := by
    rw [e5, a5.2.2, fwTouch_at, t4]
    simp [fifoPush, Ne.symm n15, Ne.symm n25, Ne.symm n35, Ne.symm n45]
  have hx6 : r6.addr < 2 ^ 32 := by rw [h6]; exact a1.1
  have hal6 : r6.addr % 4 = 0 := by rw [h6]; exact a1.2.1
  have hmiss := (fwRequest_aligned c hob
    (fwRequest c (fwRequest c (fwRequest c (fwRequest c (fwRequest c s r1).1 r2).1 r3).1 r4).1 r5).1
    r6 hx6 hal6).2.2
  rw [h6, a1.2.2, t5] at hmiss
  have hm := hmiss (by simp [n12, n13, n14, n15])
  refine ⟨t4, t5, hm.2, hm.1⟩

/-- C10 (amended), instance: 4 lines of 16 bytes, reads of 0x000, 0x100, 0x200, 0x300,
0x400 from the initial state, then a read of 0x000. -/
theorem fifo_evicts_first_written_witness :
    fwTags (fwRun (fwConfig 4 (2 ^ 4) 1 10) FWState.init
        [readReq 0x000, readReq 0x100, readReq 0x200, readReq 0x300]).1 0
      = [readReq 0x000, readReq 0x100, readReq 0x200, readReq 0x300].map
          (fun r => fwTag (fwConfig 4 (2 ^ 4) 1 10) r.addr) ∧
    fwTags (fwRun (fwConfig 4 (2 ^ 4) 1 10) FWState.init
        [readReq 0x000, readReq 0x100, readReq 0x200, readReq 0x300,
          readReq 0x400]).1 0
      = [readReq 0x100, readReq 0x200, readReq 0x300, readReq 0x400].map
          (fun r => fwTag (fwConfig 4 (2 ^ 4) 1 10) r.addr) ∧
    (fwRequest (fwConfig 4 (2 ^ 4) 1 10)
        (fwRun (fwConfig 4 (2 ^ 4) 1 10) FWState.init
          [readReq 0x000, readReq 0x100, readReq 0x200, readReq 0x300,
            readReq 0x400]).1 (readReq 0x000)).1.misses
      = (fwRun (fwConfig 4 (2 ^ 4) 1 10) FWState.init
          [readReq 0x000, readReq 0x100, readReq 0x200, readReq 0x300,
            readReq 0x400]).1.misses + 1 ∧
    (fwRequest (fwConfig 4 (2 ^ 4) 1 10)
        (fwRun (fwConfig 4 (2 ^ 4) 1 10) FWState.init
          [readReq 0x000, readReq 0x100, readReq 0x200, readReq 0x300,
            readReq 0x400]).1 (readReq 0x000)).1.hits
      = (fwRun (fwConfig 4 (2 ^ 4) 1 10) FWState.init
          [readReq 0x000, readReq 0x100, readReq 0x200, readReq 0x300,
            readReq 0x400]).1.hits :=
  fifo_evicts_first_written 4 4 1 10 (by decide) FWState.init
    (readReq 0x000) (readReq 0x100) (readReq 0x200) (readReq 0x300) (readReq 0x400)
    (readReq 0x000) 0 (by decide) (by decide) rfl rfl

/-- C10 (as stated, without a bound on the line size): with one-byte lines each request
fills four lines, so after five requests to the aligned addresses 0, 4, 8, 12, 16 of the
single set the set holds the four lines of the last request only. -/
theorem fifo_one_byte_lines_counterexample :
    (∀ r ∈ ([readReq 0, readReq 4, readReq 8, readReq 12, readReq 16] :
        List Request), r.addr % 4 = 0 ∧ fwSetIndex (fwConfig 4 1 1 10) r.addr = 0) ∧
    (([readReq 0, readReq 4, readReq 8, readReq 12, readReq 16] :
        List Request).map (fun r => fwTag (fwConfig 4 1 1 10) r.addr)).Nodup ∧
    FWState.init.cacheMem 0 = [] ∧
    fwTags (fwRun (fwConfig 4 1 1 10) FWState.init
        [readReq 0, readReq 4, readReq 8, readReq 12, readReq 16]).1 0
      ≠ ([readReq 4, readReq 8, readReq 12, readReq 16] : List Request).map
          (fun r => fwTag (fwConfig 4 1 1 10) r.addr) := by
  refine ⟨by decide, by decide, rfl, by decide⟩

/-! ## Four-way decode for power-of-two configurations -/

theorem fwConfig_pow2 (m k cl ml : Nat) (hk : k < 32) (hm : 2 ≤ m) (hm' : m < 32) :
    FWPow2 (fwConfig (2 ^ m) (2 ^ k) cl ml) k (m - 2) := by
  have hd : 2 ^ m / 4 = 2 ^ (m - 2) := by
    obtain ⟨p, rfl⟩ : ∃ p, m = p + 2 := ⟨m - 2, by omega⟩
    rw [pow_add]; norm_num
  refine ⟨hk, rfl, log2_two_pow k, ?_, ?_, ?_⟩
  · show u32 ((1 <<< log2 (2 ^ k)) + 2 ^ 32 - 1) = 2 ^ k - 1
    rw [log2_two_pow, offsetMask_eq k hk]
  · show log2 (2 ^ m / 4) = m - 2
    rw [hd, log2_two_pow]
  · show u32 ((u32 (2 ^ m / 4 + 2 ^ 32 - 1)) <<< log2 (2 ^ k)) = _
    rw [hd, log2_two_pow, countMask_eq (m - 2) (by omega)]

theorem fwOffset_eq (c : FWConfig) (k sb : Nat) (h : FWPow2 c k sb) (x : Nat) :
    fwOffset c x = x % 2 ^ k := by
  unfold fwOffset
  rw [h.2.2.2.1, Nat.and_pow_two_sub_one_eq_mod]

theorem fwSetIndex_eq (c : FWConfig) (k sb : Nat) (h : FWPow2 c k sb) (x : Nat) :
    fwSetIndex c x = (x / 2 ^ k) % 2 ^ (min sb (32 - k)) := by
  unfold fwSetIndex
  rw [h.2.2.2.2.2, h.2.2.1, index_decode]

theorem fwTag_eq (c : FWConfig) (k sb : Nat) (h : FWPow2 c k sb) (x : Nat) :
    fwTag c x = x / 2 ^ k / 2 ^ sb := by
  unfold fwTag
  rw [h.2.2.1, h.2.2.2.2.1, Nat.shiftRight_add, Nat.shiftRight_eq_div_pow,
    Nat.shiftRight_eq_div_pow]

/-- Set index and tag determine the memory line of a 32-bit address. -/
theorem fw_line_inj (c : FWConfig) (k sb : Nat) (h : FWPow2 c k sb) (x y : Nat)
    (hx : x < 2 ^ 32) (hy : y < 2 ^ 32)
    (hs : fwSetIndex c x = fwSetIndex c y) (ht : fwTag c x = fwTag c y) :
    x / 2 ^ k = y / 2 ^ k := by
  rw [fwSetIndex_eq c k sb h, fwSetIndex_eq c k sb h] at hs
  rw [fwTag_eq c k sb h, fwTag_eq c k sb h] at ht
  have hk : k < 32 := h.1
  have hqx : x / 2 ^ k < 2 ^ (32 - k) := by
    rw [Nat.div_lt_iff_lt_mul (Nat.two_pow_pos k), ← pow_add]
    have : 32 - k + k = 32 := by omega
    rw [this]; exact hx
  have hqy : y / 2 ^ k < 2 ^ (32 - k) := by
    rw [Nat.div_lt_iff_lt_mul (Nat.two_pow_pos k), ← pow_add]
    have : 32 - k + k = 32 := by omega
    rw [this]; exact hy
  by_cases hc : sb ≤ 32 - k
  · rw [Nat.min_eq_left hc] at hs
    rw [← Nat.div_add_mod (x / 2 ^ k) (2 ^ sb), ← Nat.div_add_mod (y / 2 ^ k) (2 ^ sb), hs, ht]
  · rw [Nat.min_eq_right (by omega)] at hs
    rwa [Nat.mod_eq_of_lt hqx, Nat.mod_eq_of_lt hqy] at hs

/-- Tag, set index and offset determine a 32-bit address. -/
theorem fw_decode_inj (c : FWConfig) (k sb : Nat) (h : FWPow2 c k sb) (x y : Nat)
    (hx : x < 2 ^ 32) (hy : y < 2 ^ 32)
    (hs : fwSetIndex c x = fwSetIndex c y) (ht : fwTag c x = fwTag c y)
    (ho : fwOffset c x = fwOffset c y) : x = y := by
  have hl := fw_line_inj c k sb h x y hx hy hs ht
  rw [fwOffset_eq c k sb h, fwOffset_eq c k sb h] at ho
  rw [← Nat.div_add_mod x (2 ^ k), ← Nat.div_add_mod y (2 ^ k), hl, ho]

/-! ## Line fill of the four-way cache -/

theorem fwFill_fold_data (c : FWConfig) (m : Nat → Nat) (l : List Nat) :
    ∀ (line : CacheLine) (o : Nat),
      (l.foldl (fun (l : CacheLine) add =>
          { l with data := mapSet l.data (add &&& c.offsetBitMask) (m add) }) line).data o
        = line.data o ∨
      ∃ add ∈ l, add &&& c.offsetBitMask = o ∧
        (l.foldl (fun (l : CacheLine) add =>
          { l with data := mapSet l.data (add &&& c.offsetBitMask) (m add) }) line).data o
        = m add := by
  induction l with
  | nil => intro line o; exact Or.inl rfl
  | cons x l ih =>
    intro line o
    rw [List.foldl_cons]
    rcases ih { line with data := mapSet line.data (x &&& c.offsetBitMask) (m x) } o with h | h
    · by_cases ho : o = x &&& c.offsetBitMask
      · right
        refine ⟨x, List.mem_cons_self _ _, ho.symm, ?_⟩
        rw [h]; simp [mapSet, ho]
      · left
        rw [h]; simp [mapSet, ho]
    · obtain ⟨add, hadd, h1, h2⟩ := h
      exact Or.inr ⟨add, List.mem_cons_of_mem _ hadd, h1, h2⟩

/-- Every byte of a freshly filled line is 0 or a copy of the main-memory byte of an
address of the line with that offset. -/
theorem fwFillLine_data (c : FWConfig) (m : Nat → Nat) (base t o : Nat) :
    (fwFillLine c m base ⟨t, true, fun _ => 0⟩).data o = 0 ∨
    ∃ add, base ≤ add ∧ add < base + c.cacheLineSize ∧ add < 2 ^ 32 ∧
      add &&& c.offsetBitMask = o ∧
      (fwFillLine c m base ⟨t, true, fun _ => 0⟩).data o = m add := by
  unfold fwFillLine
  rcases fwFill_fold_data c m _ ⟨t, true, fun _ => 0⟩ o with h | ⟨add, hadd, h1, h2⟩
  · exact Or.inl h
  · right
    rw [List.mem_range'_1] at hadd
    have hu : u32 (base + c.cacheLineSize) ≤ base + c.cacheLineSize := Nat.mod_le _ _
    have hu' := u32_lt (base + c.cacheLineSize)
    exact ⟨add, hadd.1, by omega, by omega, h1, h2⟩

/-! ## Never-written addresses in the four-way cache -/

theorem fwLineBase_bounds (c : FWConfig) (k sb : Nat) (h : FWPow2 c k sb) (y add : Nat)
    (hy : y < 2 ^ 32) (h1 : fwLineBase c y ≤ add) (h2 : add < fwLineBase c y + c.cacheLineSize) :
    add >>> c.offsetBitsCount = fwLineBase c y >>> c.offsetBitsCount := by
  rw [fwLineBase_eq c y hy] at h1 h2 ⊢
  rw [h.2.1] at h2
  rw [h.2.2.1] at h1 h2 ⊢
  rw [Nat.shiftLeft_shiftRight]
  rw [Nat.shiftRight_eq_div_pow, Nat.shiftLeft_eq] at h1 h2
  rw [Nat.shiftRight_eq_div_pow, Nat.shiftRight_eq_div_pow]
  apply Nat.div_eq_of_lt_le h1
  rw [Nat.add_mul, Nat.one_mul]; exact h2

theorem addToCache_clean (c : FWConfig) (k sb : Nat) (h : FWPow2 c k sb) (P : Nat → Prop)
    (s : FWState) (y : Nat) (hy : y < 2 ^ 32) (hc : FWClean c P s) :
    FWClean c P (addToCache c s (fwLineBase c y)) := by
  intro x hx hP
  refine ⟨(hc x hx hP).1, ?_⟩
  intro r hr ht
  simp only [addToCache, mapSet] at hr
  split at hr
  · rename_i hset
    rw [List.mem_append] at hr
    rcases hr with hr | hr
    · exact (hc x hx hP).2 r (by rw [hset]; exact mem_of_mem_fifo _ r hr) ht
    · rw [List.mem_singleton] at hr
      rw [hr, fwFillLine_tag] at ht
      rw [hr]
      rcases fwFillLine_data c s.mainMem (fwLineBase c y) (fwTag c (fwLineBase c y))
        (fwOffset c x) with h0 | ⟨add, h1, h2, h3, h4, h5⟩
      · exact h0
      · have hline := fwLineBase_bounds c k sb h y add hy h1 h2
        have e : add = x := by
          apply fw_decode_inj c k sb h add x h3 hx
          · rw [fwSetIndex_eq_of_line c _ _ hline, hset]
          · rw [fwTag_eq_of_line c _ _ hline]; exact ht
          · exact h4
        rw [h5, e]
        exact (hc x hx hP).1
  · exact (hc x hx hP).2 r hr ht

theorem writeByte_clean (c : FWConfig) (k sb : Nat) (h : FWPow2 c k sb) (P : Nat → Prop)
    (s : FWState) (y v : Nat) (hy : y < 2 ^ 32) (hc : FWClean c P s) :
    FWClean c P (writeByte c s y v) := by
  unfold writeByte
  split
  · exact hc
  · exact addToCache_clean c k sb h P s y hy hc

theorem readByte_clean (c : FWConfig) (k sb : Nat) (h : FWPow2 c k sb) (P : Nat → Prop)
    (s : FWState) (y : Nat) (hy : y < 2 ^ 32) (hc : FWClean c P s) :
    FWClean c P (readByte c s y).1 := by
  unfold readByte
  split
  · exact hc
  · exact addToCache_clean c k sb h P s y hy hc

/-- A byte read at a clean address returns 0, on a hit as on a miss. -/
theorem readByte_clean_value (c : FWConfig) (P : Nat → Prop) (s : FWState) (y : Nat)
    (hy : y < 2 ^ 32) (hP : P y) (hc : FWClean c P s) : (readByte c s y).2 = 0 := by
  unfold readByte
  split
  · rename_i r hr
    unfold fwLookup at hr
    have hm := List.mem_of_find?_eq_some hr
    have ht := List.find?_some hr
    exact (hc y hy hP).2 r hm (by simpa using ht)
  · exact (hc y hy hP).1

theorem readByte_d (c : FWConfig) (s : FWState) (x : Nat) : (readByte c s x).1.d = s.d := by
  unfold readByte; split <;> rfl

theorem fwStore_clean (c : FWConfig) (P : Nat → Prop) (s : FWState)
    (hP : ∀ i < 4, ¬ P (u32 (s.a + i))) (hc : FWClean c P s) : FWClean c P (fwStore s) := by
  intro x hx hPx
  refine ⟨?_, (hc x hx hPx).2⟩
  have h0 : x ≠ u32 s.a := fun e => hP 0 (by decide) (by rw [Nat.add_zero, ← e]; exact hPx)
  have h1 : x ≠ u32 (s.a + 1) := fun e => hP 1 (by decide) (by rw [← e]; exact hPx)
  have h2 : x ≠ u32 (s.a + 2) := fun e => hP 2 (by decide) (by rw [← e]; exact hPx)
  have h3 : x ≠ u32 (s.a + 3) := fun e => hP 3 (by decide) (by rw [← e]; exact hPx)
  simp only [fwStore, mapSet, h0, h1, h2, h3, if_false]
  exact (hc x hx hPx).1

theorem fwWriteBytes_clean (c : FWConfig) (k sb : Nat) (h : FWPow2 c k sb) (P : Nat → Prop)
    (s0 : FWState) (hc : FWClean c P s0) (n : Nat) : FWClean c P (fwWriteBytes c s0 n) := by
  induction n with
  | zero => exact hc
  | succ n ih =>
    rw [fwWriteBytes_succ]
    exact writeByte_clean c k sb h P _ _ _ (u32_lt _) ih

theorem fwReadBytes_clean (c : FWConfig) (k sb : Nat) (h : FWPow2 c k sb) (P : Nat → Prop)
    (s0 : FWState) (hc : FWClean c P s0) (n : Nat) : FWClean c P (fwReadBytes c s0 n) := by
  induction n with
  | zero => exact hc
  | succ n ih =>
    rw [fwReadBytes_succ]
    exact readByte_clean c k sb h P _ _ (u32_lt _) ih

theorem fwRequest_clean (c : FWConfig) (k sb : Nat) (h : FWPow2 c k sb) (P : Nat → Prop)
    (s : FWState) (r : Request)
    (hP : r.we = true → ∀ i < 4, ¬ P (u32 (r.addr + i))) (hc : FWClean c P s) :
    FWClean c P (fwRequest c s r).1 := by
  unfold fwRequest
  by_cases hw : r.we = true
  · simp only [hw, if_true, fwWrite_eq]
    apply fwWriteBytes_clean c k sb h P
    apply fwStore_clean c P
    · intro i hi
      show ¬ P (u32 (u32 r.addr + i))
      rw [u32_u32_add]
      exact hP hw i hi
    · exact hc
  · simp only [if_neg hw, fwRead_eq]
    exact fwReadBytes_clean c k sb h P { s with a := u32 r.addr, foundInCache := true } hc 4

theorem fwRun_clean (c : FWConfig) (k sb : Nat) (h : FWPow2 c k sb) (P : Nat → Prop)
    (trace : List Request) :
    ∀ s, (∀ r ∈ trace, r.we = true → ∀ i < 4, ¬ P (u32 (r.addr + i))) → FWClean c P s →
      FWClean c P (fwRun c s trace).1 := by
  induction trace with
  | nil => intro s _ hc; exact hc
  | cons r rs ih =>
    intro s hP hc
    exact ih _ (fun r' hr' => hP r' (List.mem_cons_of_mem _ hr'))
      (fwRequest_clean c k sb h P s r (hP r (List.mem_cons_self _ _)) hc)

theorem fwInit_clean (c : FWConfig) (P : Nat → Prop) : FWClean c P FWState.init := by
  intro x _ _
  refine ⟨rfl, ?_⟩
  intro r hr
  simp [FWState.init] at hr

theorem setRange_zero_chain (w : Nat) :
    setRange (setRange (setRange (setRange w 7 0 0) 15 8 0) 23 16 0) 31 24 0 = 0 := by
  simp only [setRange, u32, Nat.shiftRight_eq_div_pow, Nat.shiftLeft_eq]
  norm_num
  omega

/-- A read of four clean bytes publishes the word 0. -/
theorem fwRead_clean_value (c : FWConfig) (k sb : Nat) (h : FWPow2 c k sb) (P : Nat → Prop)
    (s : FWState) (a : Nat) (hP : ∀ j < 4, P (u32 (a + j))) (hc : FWClean c P s) :
    (fwRead c s a).d = 0 := by
  rw [fwRead_eq]
  show (fwReadBytes c { s with a := u32 a, foundInCache := true } 4).d = 0
  have hc0 : FWClean c P { s with a := u32 a, foundInCache := true } := hc
  have hcn := fwReadBytes_clean c k sb h P _ hc0
  have ha := fun n => (fwReadBytes_fields c { s with a := u32 a, foundInCache := true } n).1
  have hv : ∀ n < 4, (readByte c (fwReadBytes c { s with a := u32 a, foundInCache := true } n)
      (u32 ((fwReadBytes c { s with a := u32 a, foundInCache := true } n).a + (3 - n)))).2 = 0 := by
    intro n hn
    apply readByte_clean_value c P _ _ (u32_lt _) _ (hcn n)
    rw [ha n]
    show P (u32 (u32 a + (3 - n)))
    rw [u32_u32_add]
    exact hP (3 - n) (by omega)
  rw [fwReadBytes_succ]
  show setRange (readByte c _ _).1.d _ _ _ = 0
  rw [hv 3 (by decide), readByte_d, fwReadBytes_succ]
  show setRange (setRange (readByte c _ _).1.d _ _ _) _ _ _ = 0
  rw [hv 2 (by decide), readByte_d, fwReadBytes_succ]
  show setRange (setRange (setRange (readByte c _ _).1.d _ _ _) _ _ _) _ _ _ = 0
  rw [hv 1 (by decide), readByte_d, fwReadBytes_succ]
  show setRange (setRange (setRange (setRange (readByte c _ _).1.d _ _ _) _ _ _) _ _ _) _ _ _ = 0
  rw [hv 0 (by decide), readByte_d]
  exact setRange_zero_chain _

/-- C4: four-way cache derived by `run_simulation` from power-of-two sizes with at least
four lines, after any trace from the initial state: a read request such that none of its
four byte addresses was the target of a byte of an earlier write request publishes the
word 0, whether its bytes hit or miss.  (The read address need not be aligned; byte
addresses are taken modulo `2 ^ 32`.) -/
theorem fourway_unwritten_address_reads_zero (m k cl ml : Nat) (hk : k < 32) (hm : 2 ≤ m)
    (hm' : m < 32) (trace : List Request) (r : Request) (hr : r.we = false)
    (hnw : ∀ w ∈ trace, w.we = true → ∀ i < 4, ∀ j < 4, u32 (w.addr + i) ≠ u32 (r.addr + j)) :
    (fwRequest (fwConfig (2 ^ m) (2 ^ k) cl ml)
      (fwRun (fwConfig (2 ^ m) (2 ^ k) cl ml) FWState.init trace).1 r).2 = 0 := by
  have hp := fwConfig_pow2 m k cl ml hk hm hm'
  have hc := fwRun_clean _ k (m - 2) hp (fun x => ∃ j < 4, x = u32 (r.addr + j)) trace
    FWState.init
    (fun w hw hwe i hi ⟨j, hj, e⟩ => hnw w hw hwe i hi j hj e)
    (fwInit_clean _ _)
  unfold fwRequest
  simp only [hr, Bool.false_eq_true, if_false]
  exact fwRead_clean_value _ k (m - 2) hp _ _ r.addr (fun j hj => ⟨j, hj, rfl⟩) hc

/-- C4, instance: 4 lines of 16 bytes; after writes to 0x10 and 0x04, with the line of
address 0 already resident, a read of the never-written address 0 returns 0. -/
theorem fourway_unwritten_address_reads_zero_witness :
    (fwRequest (fwConfig (2 ^ 2) (2 ^ 4) 1 10)
      (fwRun (fwConfig (2 ^ 2) (2 ^ 4) 1 10) FWState.init
        [writeReq 0x10 0xDEADBEEF, readReq 0x00, writeReq 0x04 0x01020304]).1
      (readReq 0x00)).2 = 0 :=
  fourway_unwritten_address_reads_zero 2 4 1 10 (by decide) (by decide) (by decide)
    [writeReq 0x10 0xDEADBEEF, readReq 0x00, writeReq 0x04 0x01020304] (readReq 0x00) rfl
    (by decide)

/-! ## Cold lines in the direct-mapped cache -/

theorem dmConfig_pow2 (m k cl ml : Nat) (hk : k < 32) (hm : m < 32) :
    DMPow2 (dmConfig (2 ^ m) (2 ^ k) cl ml) k m := by
  refine ⟨hk, rfl, log2_two_pow k, ?_, log2_two_pow m, ?_⟩
  · show u32 ((1 <<< log2 (2 ^ k)) + 2 ^ 32 - 1) = 2 ^ k - 1
    rw [log2_two_pow, offsetMask_eq k hk]
  · show u32 ((u32 (2 ^ m + 2 ^ 32 - 1)) <<< log2 (2 ^ k)) = _
    rw [log2_two_pow, countMask_eq m hm]

theorem dmIndex_eq (c : DMConfig) (k m : Nat) (h : DMPow2 c k m) (X : Nat) :
    dmIndex c X 0 = (X / 2 ^ k) % 2 ^ (min m (32 - k)) := by
  unfold dmIndex
  rw [h.2.2.2.2.2, h.2.2.1, Nat.add_zero, index_decode]
  apply u32_of_lt
  calc X / 2 ^ k % 2 ^ (min m (32 - k)) < 2 ^ (min m (32 - k)) := Nat.mod_lt _ (Nat.two_pow_pos _)
    _ ≤ 2 ^ 32 := Nat.pow_le_pow_right (by norm_num) (by omega)

theorem dmTag_eq (c : DMConfig) (k m : Nat) (h : DMPow2 c k m) (X : Nat) :
    dmTag c X 0 = (X / 2 ^ k / 2 ^ m) % 2 ^ 32 := by
  unfold dmTag u32
  rw [h.2.2.1, h.2.2.2.2.1, Nat.add_zero, Nat.shiftRight_eq_div_pow, Nat.shiftRight_eq_div_pow,
    Nat.div_div_eq_div_mul, Nat.div_div_eq_div_mul, Nat.mul_comm]

theorem u32_div_pow (X k : Nat) (hk : k < 32) : u32 X / 2 ^ k = (X / 2 ^ k) % 2 ^ (32 - k) := by
  unfold u32
  have : (2 : Nat) ^ 32 = 2 ^ k * 2 ^ (32 - k) := by
    rw [← pow_add]; congr 1; omega
  rw [this, Nat.mod_mul_right_div_self]

/-- Index and tag of a byte access determine the memory line it touches. -/
theorem dm_line_inj (c : DMConfig) (k m : Nat) (h : DMPow2 c k m) (X Y : Nat)
    (hi : dmIndex c X 0 = dmIndex c Y 0) (ht : dmTag c X 0 = dmTag c Y 0) :
    u32 X / c.cacheLineSize = u32 Y / c.cacheLineSize := by
  have hk : k < 32 := h.1
  rw [dmIndex_eq c k m h, dmIndex_eq c k m h] at hi
  rw [dmTag_eq c k m h, dmTag_eq c k m h] at ht
  rw [h.2.1, u32_div_pow X k hk, u32_div_pow Y k hk]
  by_cases hc : m < 32 - k
  · rw [Nat.min_eq_left (Nat.le_of_lt hc)] at hi
    have hx : X / 2 ^ k % (2 ^ m * 2 ^ 32) = Y / 2 ^ k % (2 ^ m * 2 ^ 32) := by
      rw [Nat.mod_mul, Nat.mod_mul, hi, ht]
    have hd : 2 ^ (32 - k) ∣ 2 ^ m * 2 ^ 32 := by
      rw [← pow_add]; exact pow_dvd_pow 2 (by omega)
    rw [← Nat.mod_mod_of_dvd (X / 2 ^ k) hd, ← Nat.mod_mod_of_dvd (Y / 2 ^ k) hd, hx]
  · rw [Nat.min_eq_right (by omega)] at hi
    exact hi

theorem dmWarm_mono (c : DMConfig) (T T' : Nat → Prop) (τ : Nat → Bool × Nat)
    (hT : ∀ l, T l → T' l) (h : DMWarm c T τ) : DMWarm c T' τ := by
  intro idx t ht
  obtain ⟨X, h1, h2, h3⟩ := h idx t ht
  exact ⟨X, hT _ h1, h2, h3⟩

theorem dmTagsAfter_warm (c : DMConfig) (T : Nat → Prop) (τ : Nat → Bool × Nat) (a : Nat)
    (h : DMWarm c T τ) (n : Nat) (hT : ∀ i < n, T (u32 (a + i) / c.cacheLineSize)) :
    DMWarm c T (dmTagsAfter c a τ n) := by
  induction n with
  | zero => exact h
  | succ n ih =>
    rw [dmTagsAfter_succ]
    intro idx t ht
    unfold mapSet at ht
    split at ht
    · rename_i hidx
      have e : dmTag c a n = t := ((Prod.mk.injEq _ _ _ _).mp ht).2
      exact ⟨a + n, hT n (Nat.lt_succ_self n), hidx.symm, e⟩
    · exact ih (fun i hi => hT i (Nat.lt_succ_of_lt hi)) idx t ht

theorem dmRequest_tagState (c : DMConfig) (s : DMState) (r : Request) :
    dmTagState (dmRequest c s r).1 = dmTagsAfter c (u32 r.addr) (dmTagState s) 4 := by
  unfold dmRequest
  by_cases hw : r.we = true
  · simp only [hw, if_true]; exact dmWrite_tagState c s _ _
  · simp only [if_neg hw]; exact dmRead_tagState c s _

theorem dmRun_cons (c : DMConfig) (s : DMState) (r : Request) (rs : List Request) :
    (dmRun c s (r :: rs)).1 = (dmRun c (dmRequest c s r).1 rs).1 := rfl

theorem dmRun_warm (c : DMConfig) (trace : List Request) :
    ∀ (s : DMState) (T : Nat → Prop), DMWarm c T (dmTagState s) →
      DMWarm c (fun l => T l ∨ ∃ r ∈ trace, reqTouches c.cacheLineSize r l)
        (dmTagState (dmRun c s trace).1) := by
  induction trace with
  | nil => intro s T h; exact dmWarm_mono c _ _ _ (fun l hl => Or.inl hl) h
  | cons r rs ih =>
    intro s T h
    rw [dmRun_cons]
    have h1 : DMWarm c (fun l => T l ∨ reqTouches c.cacheLineSize r l)
        (dmTagState (dmRequest c s r).1) := by
      rw [dmRequest_tagState]
      apply dmTagsAfter_warm c _ _ _ (dmWarm_mono c _ _ _ (fun l hl => Or.inl hl) h)
      intro i hi
      exact Or.inr ⟨i, hi, by rw [u32_u32_add]⟩
    refine dmWarm_mono c _ _ _ ?_ (ih _ _ h1)
    rintro l ((hl | hl) | ⟨r', hr', hl⟩)
    · exact Or.inl hl
    · exact Or.inr ⟨r, List.mem_cons_self _ _, hl⟩
    · exact Or.inr ⟨r', List.mem_cons_of_mem _ hr', hl⟩

theorem dmInit_warm (c : DMConfig) (T : Nat → Prop) : DMWarm c T (dmTagState DMState.init) := by
  intro idx t h
  simp [dmTagState, DMState.init, CacheLine.empty] at h

/-- A request that is served as a hit finds all its bytes resident before it starts. -/
theorem dmRequest_hit_resident (c : DMConfig) (s : DMState) (r : Request)
    (h : ¬ ((dmRequest c s r).1.hits = s.hits ∧ (dmRequest c s r).1.misses = s.misses + 1)) :
    ∀ i < 4, dmTagState s (dmIndex c (u32 r.addr) i) = (true, dmTag c (u32 r.addr) i) := by
  rw [← dmTagsAfter_all_resident]
  by_contra hn
  apply h
  unfold dmRequest
  by_cases hw : r.we = true
  · simp only [hw, if_true]
    have hc := (dmWrite_counters c s (u32 r.addr) (u32 r.data)).2
    simp only [dmResident_iff_tagState, dmWriteBefore_tagState] at hc
    exact hc hn
  · simp only [if_neg hw]
    have hc := (dmRead_counters c s (u32 r.addr)).2
    simp only [dmResident_iff_tagState, dmReadBefore_tagState] at hc
    exact hc hn

/-- A direct-mapped request that touches a memory line no earlier request touched is a miss. -/
theorem dm_cold_line_misses (c : DMConfig) (k m : Nat) (hp : DMPow2 c k m)
    (trace : List Request) (r : Request)
    (hcold : ∃ l, reqTouches c.cacheLineSize r l ∧ ∀ r' ∈ trace, ¬ reqTouches c.cacheLineSize r' l) :
    (dmRequest c (dmRun c DMState.init trace).1 r).1.hits = (dmRun c DMState.init trace).1.hits ∧
    (dmRequest c (dmRun c DMState.init trace).1 r).1.misses
      = (dmRun c DMState.init trace).1.misses + 1 := by
  by_contra hn
  have hres := dmRequest_hit_resident c _ r hn
  obtain ⟨l, ⟨i, hi, hl⟩, hcold⟩ := hcold
  have hw := dmRun_warm c trace DMState.init (fun _ => False) (dmInit_warm c _)
  obtain ⟨X, hT, hX1, hX2⟩ := hw _ _ (hres i hi)
  rcases hT with hT | ⟨r', hr', j, hj, hT⟩
  · exact hT
  · apply hcold r' hr'
    refine ⟨j, hj, ?_⟩
    rw [hT, ← hl]
    have := dm_line_inj c k m hp X (u32 r.addr + i) hX1 hX2
    rw [this, u32_u32_add]

/-! ## Cold lines in the four-way cache -/

theorem fwTagsAfter_succ (c : FWConfig) (addr : Nat → Nat) (T : Nat → List Nat) (n : Nat) :
    fwTagsAfter c addr T (n + 1)
      = fwTouch (fwTagsAfter c addr T n) (fwSetIndex c (addr n)) (fwTag c (addr n)) := by
  simp only [fwTagsAfter, List.range_succ, List.foldl_append, List.foldl_cons, List.foldl_nil]

theorem fwWriteBytes_tags (c : FWConfig) (s0 : FWState) (n : Nat) :
    fwTags (fwWriteBytes c s0 n) = fwTagsAfter c (fun i => u32 (s0.a + i)) (fwTags s0) n := by
  induction n with
  | zero => rfl
  | succ n ih =>
    rw [fwWriteBytes_succ, writeByte_tags c _ _ _ (u32_lt _), fwTagsAfter_succ, ih,
      (fwWriteBytes_fields c s0 n).1]

theorem fwReadBytes_tags (c : FWConfig) (s0 : FWState) (n : Nat) :
    fwTags (fwReadBytes c s0 n)
      = fwTagsAfter c (fun j => u32 (s0.a + (3 - j))) (fwTags s0) n := by
  induction n with
  | zero => rfl
  | succ n ih =>
    rw [fwReadBytes_succ]
    show fwTags (readByte c _ _).1 = _
    rw [readByte_tags c _ _ (u32_lt _), fwTagsAfter_succ, ih, (fwReadBytes_fields c s0 n).1]

theorem fwWriteBytes_found_tags (c : FWConfig) (s0 : FWState) (hf : s0.foundInCache = true)
    (n : Nat) :
    (fwWriteBytes c s0 n).foundInCache = true ↔
      ∀ i < n, fwTag c (u32 (s0.a + i))
        ∈ fwTagsAfter c (fun i => u32 (s0.a + i)) (fwTags s0) i (fwSetIndex c (u32 (s0.a + i))) := by
  induction n with
  | zero => simp [fwWriteBytes, hf]
  | succ n ih =>
    rw [fwWriteBytes_succ, writeByte_found_mem, Bool.and_eq_true, ih, fwWriteBytes_tags,
      (fwWriteBytes_fields c s0 n).1, decide_eq_true_iff]
    constructor
    · rintro ⟨h1, h2⟩ i hi
      rcases Nat.lt_succ_iff_lt_or_eq.mp hi with h | h
      · exact h1 i h
      · subst h; exact h2
    · intro h
      exact ⟨fun i hi => h i (Nat.lt_succ_of_lt hi), h n (Nat.lt_succ_self n)⟩

theorem fwReadBytes_found_tags (c : FWConfig) (s0 : FWState) (hf : s0.foundInCache = true)
    (n : Nat) :
    (fwReadBytes c s0 n).foundInCache = true ↔
      ∀ j < n, fwTag c (u32 (s0.a + (3 - j)))
        ∈ fwTagsAfter c (fun j => u32 (s0.a + (3 - j))) (fwTags s0) j
            (fwSetIndex c (u32 (s0.a + (3 - j)))) := by
  induction n with
  | zero => simp [fwReadBytes, hf]
  | succ n ih =>
    rw [fwReadBytes_succ]
    show (readByte c _ _).1.foundInCache = true ↔ _
    rw [readByte_found_mem, Bool.and_eq_true, ih, fwReadBytes_tags,
      (fwReadBytes_fields c s0 n).1, decide_eq_true_iff]
    constructor
    · rintro ⟨h1, h2⟩ i hi
      rcases Nat.lt_succ_iff_lt_or_eq.mp hi with h | h
      · exact h1 i h
      · subst h; exact h2
    · intro h
      exact ⟨fun i hi => h i (Nat.lt_succ_of_lt hi), h n (Nat.lt_succ_self n)⟩

/-- When every byte access hits, the tags never change. -/
theorem fwTagsAfter_all_found (c : FWConfig) (addr : Nat → Nat) (T : Nat → List Nat) (n : Nat)
    (h : ∀ i < n, fwTag c (addr i) ∈ fwTagsAfter c addr T i (fwSetIndex c (addr i))) :
    fwTagsAfter c addr T n = T ∧ ∀ i < n, fwTag c (addr i) ∈ T (fwSetIndex c (addr i)) := by
  induction n with
  | zero => exact ⟨rfl, fun i hi => absurd hi (Nat.not_lt_zero i)⟩
  | succ n ih =>
    obtain ⟨h1, h2⟩ := ih (fun i hi => h i (Nat.lt_succ_of_lt hi))
    have hn := h n (Nat.lt_succ_self n)
    rw [h1] at hn
    refine ⟨?_, ?_⟩
    · rw [fwTagsAfter_succ, h1, fwTouch_of_mem _ _ _ hn]
    · intro i hi
      rcases Nat.lt_succ_iff_lt_or_eq.mp hi with h' | h'
      · exact h2 i h'
      · subst h'; exact hn

theorem mem_fifoPush_iff (q : List Nat) (t t' : Nat) (h : t' ∈ fifoPush q t) : t' ∈ q ∨ t' = t := by
  unfold fifoPush at h
  rw [List.mem_append, List.mem_singleton] at h
  rcases h with h | h
  · exact Or.inl (mem_of_mem_fifo q t' h)
  · exact Or.inr h

theorem fwWarm_mono (c : FWConfig) (T T' : Nat → Prop) (τ : Nat → List Nat)
    (hT : ∀ l, T l → T' l) (h : FWWarm c T τ) : FWWarm c T' τ := by
  intro set t ht
  obtain ⟨x, h0, h1, h2, h3⟩ := h set t ht
  exact ⟨x, h0, hT _ h1, h2, h3⟩

theorem fwTouch_warm (c : FWConfig) (T : Nat → Prop) (τ : Nat → List Nat) (x : Nat)
    (hx : x < 2 ^ 32) (hT : T (x / c.cacheLineSize)) (h : FWWarm c T τ) :
    FWWarm c T (fwTouch τ (fwSetIndex c x) (fwTag c x)) := by
  unfold fwTouch
  split
  · exact h
  · intro set t ht
    unfold mapSet at ht
    split at ht
    · rename_i hset
      rcases mem_fifoPush_iff _ _ _ ht with h' | h'
      · exact h set t (by rw [hset]; exact h')
      · exact ⟨x, hx, hT, hset.symm, h'.symm⟩
    · exact h set t ht

theorem fwTagsAfter_warm (c : FWConfig) (T : Nat → Prop) (τ : Nat → List Nat)
    (addr : Nat → Nat) (h : FWWarm c T τ) (n : Nat)
    (hT : ∀ i < n, addr i < 2 ^ 32 ∧ T (addr i / c.cacheLineSize)) :
    FWWarm c T (fwTagsAfter c addr τ n) := by
  induction n with
  | zero => exact h
  | succ n ih =>
    rw [fwTagsAfter_succ]
    exact fwTouch_warm c T _ _ (hT n (Nat.lt_succ_self n)).1 (hT n (Nat.lt_succ_self n)).2
      (ih (fun i hi => hT i (Nat.lt_succ_of_lt hi)))

theorem fwRequest_tags (c : FWConfig) (s : FWState) (r : Request) :
    fwTags (fwRequest c s r).1
      = if r.we = true then fwTagsAfter c (fun i => u32 (u32 r.addr + i)) (fwTags s) 4
        else fwTagsAfter c (fun j => u32 (u32 r.addr + (3 - j))) (fwTags s) 4 := by
  unfold fwRequest
  by_cases hw : r.we = true
  · simp only [hw, if_true, fwWrite_eq]
    exact fwWriteBytes_tags c
      (fwStore { s with d := u32 r.data, a := u32 r.addr, foundInCache := true }) 4
  · simp only [if_neg hw, fwRead_eq]
    exact fwReadBytes_tags c { s with a := u32 r.addr, foundInCache := true } 4

theorem fwRequest_warm (c : FWConfig) (T : Nat → Prop) (s : FWState) (r : Request)
    (h : FWWarm c T (fwTags s)) :
    FWWarm c (fun l => T l ∨ reqTouches c.cacheLineSize r l) (fwTags (fwRequest c s r).1) := by
  have h' := fwWarm_mono c T (fun l => T l ∨ reqTouches c.cacheLineSize r l) _
    (fun l hl => Or.inl hl) h
  rw [fwRequest_tags]
  split
  · apply fwTagsAfter_warm c _ _ _ h'
    intro i hi
    exact ⟨u32_lt _, Or.inr ⟨i, hi, by rw [u32_u32_add]⟩⟩
  · apply fwTagsAfter_warm c _ _ _ h'
    intro i hi
    exact ⟨u32_lt _, Or.inr ⟨3 - i, by omega, by rw [u32_u32_add]⟩⟩

theorem fwRun_warm (c : FWConfig) (trace : List Request) :
    ∀ (s : FWState) (T : Nat → Prop), FWWarm c T (fwTags s) →
      FWWarm c (fun l => T l ∨ ∃ r ∈ trace, reqTouches c.cacheLineSize r l)
        (fwTags (fwRun c s trace).1) := by
  induction trace with
  | nil => intro s T h; exact fwWarm_mono c _ _ _ (fun l hl => Or.inl hl) h
  | cons r rs ih =>
    intro s T h
    rw [fwRun_cons]
    refine fwWarm_mono c _ _ _ ?_ (ih _ _ (fwRequest_warm c T s r h))
    rintro l ((hl | hl) | ⟨r', hr', hl⟩)
    · exact Or.inl hl
    · exact Or.inr ⟨r, List.mem_cons_self _ _, hl⟩
    · exact Or.inr ⟨r', List.mem_cons_of_mem _ hr', hl⟩

theorem fwInit_warm (c : FWConfig) (T : Nat → Prop) : FWWarm c T (fwTags FWState.init) := by
  intro set t h
  simp [fwTags, FWState.init] at h

/-- A four-way request that is served as a hit finds the tags of all its bytes resident
before it starts. -/
theorem fwRequest_hit_resident (c : FWConfig) (s : FWState) (r : Request)
    (h : ¬ ((fwRequest c s r).1.hits = s.hits ∧ (fwRequest c s r).1.misses = s.misses + 1)) :
    ∀ i < 4, fwTag c (u32 (r.addr + i)) ∈ fwTags s (fwSetIndex c (u32 (r.addr + i))) := by
  by_contra hn
  apply h
  unfold fwRequest
  by_cases hw : r.we = true
  · simp only [hw, if_true, fwWrite_eq]
    have hf := fwWriteBytes_found_tags c
      (fwStore { s with d := u32 r.data, a := u32 r.addr, foundInCache := true }) rfl 4
    have hfl := fwWriteBytes_fields c
      (fwStore { s with d := u32 r.data, a := u32 r.addr, foundInCache := true }) 4
    have hnf : (fwWriteBytes c
        (fwStore { s with d := u32 r.data, a := u32 r.addr, foundInCache := true }) 4).foundInCache
        = false := by
      rw [Bool.eq_false_iff]
      intro hfound
      apply hn
      intro i hi
      have h1 : fwTag c (u32 (u32 r.addr + i))
          ∈ fwTags s (fwSetIndex c (u32 (u32 r.addr + i))) :=
        (fwTagsAfter_all_found c _ _ 4 (hf.mp hfound)).2 i hi
      rwa [u32_u32_add] at h1
    simp only [fwCount, hnf, Bool.false_eq_true, if_false, hfl.2.1, hfl.2.2]
    exact ⟨rfl, rfl⟩
  · simp only [if_neg hw, fwRead_eq]
    have hf := fwReadBytes_found_tags c { s with a := u32 r.addr, foundInCache := true } rfl 4
    have hfl := fwReadBytes_fields c { s with a := u32 r.addr, foundInCache := true } 4
    have hnf : (fwReadBytes c { s with a := u32 r.addr, foundInCache := true } 4).foundInCache
        = false := by
      rw [Bool.eq_false_iff]
      intro hfound
      apply hn
      intro i hi
      have h1 : fwTag c (u32 (u32 r.addr + (3 - (3 - i))))
          ∈ fwTags s (fwSetIndex c (u32 (u32 r.addr + (3 - (3 - i))))) :=
        (fwTagsAfter_all_found c _ _ 4 (hf.mp hfound)).2 (3 - i) (by omega)
      have e : 3 - (3 - i) = i := by omega
      rwa [e, u32_u32_add] at h1
    simp only [fwCount, hnf, Bool.false_eq_true, if_false, hfl.2.1, hfl.2.2]
    exact ⟨trivial, trivial⟩

/-- A four-way request that touches a memory line no earlier request touched is a miss. -/
theorem fw_cold_line_misses (c : FWConfig) (k sb : Nat) (hp : FWPow2 c k sb)
    (trace : List Request) (r : Request)
    (hcold : ∃ l, reqTouches c.cacheLineSize r l ∧ ∀ r' ∈ trace, ¬ reqTouches c.cacheLineSize r' l) :
    (fwRequest c (fwRun c FWState.init trace).1 r).1.hits = (fwRun c FWState.init trace).1.hits ∧
    (fwRequest c (fwRun c FWState.init trace).1 r).1.misses
      = (fwRun c FWState.init trace).1.misses + 1 := by
  by_contra hn
  have hres := fwRequest_hit_resident c _ r hn
  obtain ⟨l, ⟨i, hi, hl⟩, hcold⟩ := hcold
  have hw := fwRun_warm c trace FWState.init (fun _ => False) (fwInit_warm c _)
  obtain ⟨x, hx, hT, hX1, hX2⟩ := hw _ _ (hres i hi)
  rcases hT with hT | ⟨r', hr', j, hj, hT⟩
  · exact hT
  · apply hcold r' hr'
    refine ⟨j, hj, ?_⟩
    rw [hT, ← hl, hp.2.1]
    exact fw_line_inj c k sb hp x _ hx (u32_lt _) hX1 hX2

/-- C8: in either organisation, with the parameters `run_simulation` derives from `2 ^ m`
lines of `2 ^ k` bytes, a request one of whose four bytes lies in a memory line (block of
`2 ^ k` bytes) that no earlier request of the run has touched is counted as a miss:
`misses` grows by 1 and `hits` is unchanged.  This covers a misaligned request that
straddles two lines of which at least one is cold. -/
theorem cold_line_request_is_miss (m k cl ml : Nat) (hk : k < 32) (hm' : m < 32)
    (trace : List Request) (r : Request)
    (hcold : ∃ l, reqTouches (2 ^ k) r l ∧ ∀ r' ∈ trace, ¬ reqTouches (2 ^ k) r' l) :
    ((dmRequest (dmConfig (2 ^ m) (2 ^ k) cl ml)
          (dmRun (dmConfig (2 ^ m) (2 ^ k) cl ml) DMState.init trace).1 r).1.hits
        = (dmRun (dmConfig (2 ^ m) (2 ^ k) cl ml) DMState.init trace).1.hits ∧
      (dmRequest (dmConfig (2 ^ m) (2 ^ k) cl ml)
          (dmRun (dmConfig (2 ^ m) (2 ^ k) cl ml) DMState.init trace).1 r).1.misses
        = (dmRun (dmConfig (2 ^ m) (2 ^ k) cl ml) DMState.init trace).1.misses + 1) ∧
    (2 ≤ m →
      (fwRequest (fwConfig (2 ^ m) (2 ^ k) cl ml)
          (fwRun (fwConfig (2 ^ m) (2 ^ k) cl ml) FWState.init trace).1 r).1.hits
        = (fwRun (fwConfig (2 ^ m) (2 ^ k) cl ml) FWState.init trace).1.hits ∧
      (fwRequest (fwConfig (2 ^ m) (2 ^ k) cl ml)
          (fwRun (fwConfig (2 ^ m) (2 ^ k) cl ml) FWState.init trace).1 r).1.misses
        = (fwRun (fwConfig (2 ^ m) (2 ^ k) cl ml) FWState.init trace).1.misses + 1) :=
  ⟨dm_cold_line_misses _ k m (dmConfig_pow2 m k cl ml hk hm') trace r hcold,
   fun hm => fw_cold_line_misses _ k (m - 2) (fwConfig_pow2 m k cl ml hk hm hm') trace r hcold⟩

/-- C8, instance: 4 lines of 16 bytes; after a read of address 0 the read of address
14 straddles the warm line 0 and the cold line 1 and is a miss. -/
theorem cold_line_request_is_miss_witness :
    ((dmRequest (dmConfig (2 ^ 2) (2 ^ 4) 1 10)
          (dmRun (dmConfig (2 ^ 2) (2 ^ 4) 1 10) DMState.init [readReq 0]).1 (readReq 14)).1.hits
        = (dmRun (dmConfig (2 ^ 2) (2 ^ 4) 1 10) DMState.init [readReq 0]).1.hits ∧
      (dmRequest (dmConfig (2 ^ 2) (2 ^ 4) 1 10)
          (dmRun (dmConfig (2 ^ 2) (2 ^ 4) 1 10) DMState.init [readReq 0]).1 (readReq 14)).1.misses
        = (dmRun (dmConfig (2 ^ 2) (2 ^ 4) 1 10) DMState.init [readReq 0]).1.misses + 1) ∧
    (2 ≤ 2 →
      (fwRequest (fwConfig (2 ^ 2) (2 ^ 4) 1 10)
          (fwRun (fwConfig (2 ^ 2) (2 ^ 4) 1 10) FWState.init [readReq 0]).1 (readReq 14)).1.hits
        = (fwRun (fwConfig (2 ^ 2) (2 ^ 4) 1 10) FWState.init [readReq 0]).1.hits ∧
      (fwRequest (fwConfig (2 ^ 2) (2 ^ 4) 1 10)
          (fwRun (fwConfig (2 ^ 2) (2 ^ 4) 1 10) FWState.init [readReq 0]).1 (readReq 14)).1.misses
        = (fwRun (fwConfig (2 ^ 2) (2 ^ 4) 1 10) FWState.init [readReq 0]).1.misses + 1) :=
  cold_line_request_is_miss 2 4 1 10 (by decide) (by decide) [readReq 0] (readReq 14)
    ⟨1, ⟨2, by decide, by decide⟩, by unfold reqTouches; decide⟩

/-! ## Claims settled by evaluation -/

/-- C1 (failing input): four-way cache with 4 lines of 16 bytes from its initial state.
After a read of address 0 has brought the line in, the write of `0xDEADBEEF` to address 0
hits and leaves the stored line untouched, so the read of address 0 that follows
immediately returns 0 while main memory holds the written word. -/
theorem fourway_read_after_write_hit_is_stale :
    (fwRun (fwConfig 4 16 1 10) FWState.init
      [readReq 0, writeReq 0 0xDEADBEEF, readReq 0]).2 = [0, 0xDEADBEEF, 0] := by
  decide

/-- C2 (failing input): direct-mapped cache with one line of one byte from its initial
state.  The read that immediately follows the write of `0x01020304` to address 0 misses on
every byte and each miss refetches `mainMemory[addr]`, the first byte of the word, so the
read returns `0x01010101`. -/
theorem directmapped_read_after_write_one_byte_line :
    (dmRun (dmConfig 1 1 1 10) DMState.init
      [writeReq 0 0x01020304, readReq 0]).2 = [0x01020304, 0x01010101] := by
  decide

/-- C3 (failing input): direct-mapped cache with 4 lines of 16 bytes from its initial
state.  After a write of `0x01020304` to address `0x1C` the first read of the never-written
address 0 misses on its first byte and fetches `mainMemory[(0 ^ 15) + 15]`, the byte at
address 30, so the read returns `0x03000000`. -/
theorem directmapped_read_of_unwritten_address :
    (dmRun (dmConfig 4 16 1 10) DMState.init
      [writeReq 0x1C 0x01020304, readReq 0]).2 = [0x01020304, 0x03000000] := by
  decide

/-- C9 (as stated): direct-mapped cache with one line of one byte from its initial state.
The four bytes of a read of address 0 evict one another, so the second of two consecutive
reads of address 0 is again a miss. -/
theorem directmapped_repeat_counterexample :
    ¬ ((dmRequest (dmConfig 1 1 1 10) (dmRequest (dmConfig 1 1 1 10) DMState.init (readReq 0)).1
          (readReq 0)).1.hits
        = (dmRequest (dmConfig 1 1 1 10) DMState.init (readReq 0)).1.hits + 1 ∧
      (dmRequest (dmConfig 1 1 1 10) (dmRequest (dmConfig 1 1 1 10) DMState.init (readReq 0)).1
          (readReq 0)).1.misses
        = (dmRequest (dmConfig 1 1 1 10) DMState.init (readReq 0)).1.misses) := by
  decide

/-- C9 (amended): for every configuration, prior state and request, when the request is
issued twice in a row the second occurrence increases `hits` by exactly 1 and leaves
`misses` unchanged if and only if no two of the four bytes of the request decode to the
same line index with different tags. -/
theorem directmapped_repeat_hits_iff_conflict_free (c : DMConfig) (s : DMState) (r : Request) :
    ((dmRequest c (dmRequest c s r).1 r).1.hits = (dmRequest c s r).1.hits + 1 ∧
      (dmRequest c (dmRequest c s r).1 r).1.misses = (dmRequest c s r).1.misses) ↔
    dmConflictFree c (u32 r.addr) :=
  dmRequest_repeat c s r

/-! ## Words assembled from bytes -/

theorem setRange_chain_low_first (w b0 b1 b2 b3 : Nat) :
    setRange (setRange (setRange (setRange w 7 0 b3) 15 8 b2) 23 16 b1) 31 24 b0
      = b0 % 256 * 2 ^ 24 + b1 % 256 * 2 ^ 16 + b2 % 256 * 2 ^ 8 + b3 % 256 := by
  simp only [setRange, u32, Nat.shiftRight_eq_div_pow, Nat.shiftLeft_eq]
  norm_num
  omega

theorem setRange_chain_high_first (b0 b1 b2 b3 : Nat) :
    setRange (setRange (setRange (setRange 0 31 24 b0) 23 16 b1) 15 8 b2) 7 0 b3
      = b0 % 256 * 2 ^ 24 + b1 % 256 * 2 ^ 16 + b2 % 256 * 2 ^ 8 + b3 % 256 := by
  simp only [setRange, u32, Nat.shiftRight_eq_div_pow, Nat.shiftLeft_eq]
  norm_num
  omega

theorem bytes_of_word (d : Nat) (hd : d < 2 ^ 32) :
    (d / 2 ^ 24 % 256) % 256 * 2 ^ 24 + (d / 2 ^ 16 % 256) % 256 * 2 ^ 16
      + (d / 2 ^ 8 % 256) % 256 * 2 ^ 8 + (d % 256) % 256 = d := by
  norm_num at hd ⊢
  omega

/-! ## Line contents of the four-way cache -/

theorem fwLookup_congr (c : FWConfig) (s s' : FWState) (x y : Nat)
    (hm : s.cacheMem = s'.cacheMem) (hs : fwSetIndex c x = fwSetIndex c y)
    (ht : fwTag c x = fwTag c y) : fwLookup c s x = fwLookup c s' y := by
  unfold fwLookup; rw [hm, hs, ht]

theorem fwLookup_some_of_mem (c : FWConfig) (s : FWState) (x : Nat)
    (h : fwTag c x ∈ fwTags s (fwSetIndex c x)) : ∃ r, fwLookup c s x = some r := by
  have := (fwLookup_isSome_iff_mem c s x).mpr h
  exact Option.isSome_iff_exists.mp this

theorem writeByte_hit (c : FWConfig) (s : FWState) (x v : Nat) (r : CacheLine)
    (h : fwLookup c s x = some r) :
    (writeByte c s x v).cacheMem = s.cacheMem ∧ (writeByte c s x v).mainMem = s.mainMem := by
  unfold writeByte; rw [h]; exact ⟨rfl, rfl⟩

theorem writeByte_miss (c : FWConfig) (s : FWState) (x v : Nat) (h : fwLookup c s x = none) :
    (writeByte c s x v).cacheMem = (addToCache c s (fwLineBase c x)).cacheMem := by
  unfold writeByte; rw [h]

theorem readByte_hit (c : FWConfig) (s : FWState) (x : Nat) (r : CacheLine)
    (h : fwLookup c s x = some r) :
    (readByte c s x).1.cacheMem = s.cacheMem ∧ (readByte c s x).2 = r.data (fwOffset c x) := by
  unfold readByte; rw [h]; exact ⟨rfl, rfl⟩

theorem readByte_mainMem (c : FWConfig) (s : FWState) (x : Nat) :
    (readByte c s x).1.mainMem = s.mainMem := by
  unfold readByte; split <;> rfl

/-- After the first byte of an aligned write the other three bytes hit and leave the lines
as they are. -/
theorem fwWriteBytes_aligned_cacheMem (c : FWConfig) (hob : 2 ≤ c.offsetBitsCount)
    (s0 : FWState) (hx : s0.a < 2 ^ 32) (hal : s0.a % 4 = 0) (n : Nat) (hn : n < 4) :
    (fwWriteBytes c s0 (n + 1)).cacheMem
      = (writeByte c s0 (u32 s0.a) (range s0.d 31 24)).cacheMem := by
  induction n with
  | zero => rfl
  | succ n ih =>
    have ht := (fwWriteBytes_aligned c hob s0 hx hal n (by omega)).1
    have ha := (fwWriteBytes_fields c s0 (n + 1)).1
    obtain ⟨h1, h2, h3⟩ := aligned_decode c hob s0.a (n + 1) hx hal hn
    have hmem : fwTag c (u32 (s0.a + (n + 1)))
        ∈ fwTags (fwWriteBytes c s0 (n + 1)) (fwSetIndex c (u32 (s0.a + (n + 1)))) := by
      rw [ht, h2, h3]; exact fwTouch_mem _ _ _
    obtain ⟨r, hr⟩ := fwLookup_some_of_mem c _ _ hmem
    rw [fwWriteBytes_succ, ha, (writeByte_hit c _ _ _ r hr).1]
    exact ih (by omega)

theorem fwReadBytes_hit_step (c : FWConfig) (hob : 2 ≤ c.offsetBitsCount) (s : FWState)
    (a : Nat) (hx : a < 2 ^ 32) (hal : a % 4 = 0) (r : CacheLine)
    (hl : fwLookup c s a = some r) (s0 : FWState) (n : Nat) (hn : n < 4)
    (hm : (fwReadBytes c s0 n).cacheMem = s.cacheMem) (ha : (fwReadBytes c s0 n).a = a) :
    (fwReadBytes c s0 (n + 1)).cacheMem = s.cacheMem ∧
    (fwReadBytes c s0 (n + 1)).a = a ∧
    (fwReadBytes c s0 (n + 1)).mainMem = (fwReadBytes c s0 n).mainMem ∧
    (fwReadBytes c s0 (n + 1)).d
      = setRange (fwReadBytes c s0 n).d (8 * n + 7) (8 * n) (r.data (fwOffset c (a + (3 - n)))) := by
  obtain ⟨_, h2, h3⟩ := aligned_decode c hob a (3 - n) hx hal (by omega)
  have hl' : fwLookup c (fwReadBytes c s0 n) (u32 ((fwReadBytes c s0 n).a + (3 - n))) = some r := by
    rw [ha, ← hl]; exact fwLookup_congr c _ s _ _ hm h2 h3
  have hh := readByte_hit c _ _ r hl'
  rw [fwReadBytes_succ]
  refine ⟨hh.1.trans hm, ?_, ?_, ?_⟩
  · show (readByte c _ _).1.a = a
    rw [readByte_a]; exact ha
  · show (readByte c _ _).1.mainMem = _
    rw [readByte_mainMem]
  · show setRange (readByte c _ _).1.d _ _ (readByte c _ _).2 = _
    rw [readByte_d, hh.2, ha, aligned_u32 a (3 - n) hx hal (by omega)]

/-- An aligned read whose line is resident returns the four bytes of that line and leaves
lines and main memory as they are. -/
theorem fwRead_hit_value (c : FWConfig) (hob : 2 ≤ c.offsetBitsCount) (s : FWState) (a : Nat)
    (hx : a < 2 ^ 32) (hal : a % 4 = 0) (r : CacheLine) (hl : fwLookup c s a = some r) :
    (fwRead c s a).d
      = r.data (fwOffset c a) % 256 * 2 ^ 24 + r.data (fwOffset c (a + 1)) % 256 * 2 ^ 16
        + r.data (fwOffset c (a + 2)) % 256 * 2 ^ 8 + r.data (fwOffset c (a + 3)) % 256 ∧
    (fwRead c s a).cacheMem = s.cacheMem ∧ (fwRead c s a).mainMem = s.mainMem := by
  have hu : u32 a = a := u32_of_lt hx
  rw [fwRead_eq]
  show (fwReadBytes c { s with a := u32 a, foundInCache := true } 4).d = _ ∧
    (fwReadBytes c { s with a := u32 a, foundInCache := true } 4).cacheMem = _ ∧
    (fwReadBytes c { s with a := u32 a, foundInCache := true } 4).mainMem = _
  generalize hs0 : ({ s with a := u32 a, foundInCache := true } : FWState) = s0
  have h0m : (fwReadBytes c s0 0).cacheMem = s.cacheMem := by rw [← hs0]; rfl
  have h0a : (fwReadBytes c s0 0).a = a := by rw [← hs0]; exact hu
  have h0M : (fwReadBytes c s0 0).mainMem = s.mainMem := by rw [← hs0]; rfl
  obtain ⟨m1, a1, M1, d1⟩ := fwReadBytes_hit_step c hob s a hx hal r hl s0 0 (by decide) h0m h0a
  obtain ⟨m2, a2, M2, d2⟩ := fwReadBytes_hit_step c hob s a hx hal r hl s0 1 (by decide) m1 a1
  obtain ⟨m3, a3, M3, d3⟩ := fwReadBytes_hit_step c hob s a hx hal r hl s0 2 (by decide) m2 a2
  obtain ⟨m4, _, M4, d4⟩ := fwReadBytes_hit_step c hob s a hx hal r hl s0 3 (by decide) m3 a3
  refine ⟨?_, m4, ?_⟩
  · rw [d4, d3, d2, d1]
    exact setRange_chain_low_first _ _ _ _ _
  · rw [M4, M3, M2, M1, h0M]

/-! ## Contents of a freshly filled four-way line -/

theorem fwFill_fold_copy (c : FWConfig) (k : Nat) (hmask : c.offsetBitMask = 2 ^ k - 1)
    (m : Nat → Nat) (base : Nat) (hb : base % 2 ^ k = 0) (line : CacheLine) (n : Nat)
    (hn : n ≤ 2 ^ k) (o : Nat) :
    ((List.range' base n).foldl (fun (l : CacheLine) add =>
        { l with data := mapSet l.data (add &&& c.offsetBitMask) (m add) }) line).data o
      = if o < n then m (base + o) else line.data o := by
  induction n with
  | zero => simp
  | succ n ih =>
    rw [List.range'_1_concat, List.foldl_append, List.foldl_cons, List.foldl_nil]
    show mapSet _ _ _ o = _
    have hoff : (base + n) &&& c.offsetBitMask = n := by
      rw [hmask, Nat.and_pow_two_sub_one_eq_mod, Nat.add_mod, hb, Nat.zero_add,
        Nat.mod_mod, Nat.mod_eq_of_lt (by omega)]
    rw [hoff]
    have e : ∀ (f : Nat → Nat) (v : Nat), mapSet f n v o = if o = n then v else f o :=
      fun _ _ => rfl
    rw [e]
    by_cases h : o = n
    · subst h; simp
    · rw [if_neg h, ih (by omega)]
      by_cases h' : o < n
      · rw [if_pos h', if_pos (by omega)]
      · rw [if_neg h', if_neg (by omega)]

/-- A line filled from a line-aligned base below the last line of the address space holds
a copy of the `2 ^ k` main-memory bytes that start at the base. -/
theorem fwFillLine_copy (c : FWConfig) (k sb : Nat) (h : FWPow2 c k sb) (m : Nat → Nat)
    (base : Nat) (hb : base % 2 ^ k = 0) (hlt : base + 2 ^ k < 2 ^ 32) (line : CacheLine)
    (o : Nat) (ho : o < 2 ^ k) : (fwFillLine c m base line).data o = m (base + o) := by
  unfold fwFillLine
  have hcount : u32 (base + c.cacheLineSize) - base = 2 ^ k := by
    rw [h.2.1, u32_of_lt hlt]; omega
  rw [hcount, fwFill_fold_copy c k h.2.2.2.1 m base hb line (2 ^ k) (Nat.le_refl _) o, if_pos ho]

/-! ## Aligned writes in the four-way cache -/

theorem find?_fifo_none {α : Type} (p : α → Bool) (q : List α) (h : q.find? p = none) :
    (if q.length ≥ 4 then q.tail else q).find? p = none := by
  rw [List.find?_eq_none] at h ⊢
  intro x hx
  exact h x (mem_of_mem_fifo q x hx)

/-- After a miss the lookup of the same address finds the freshly filled line. -/
theorem addToCache_lookup (c : FWConfig) (s : FWState) (x : Nat) (hx : x < 2 ^ 32)
    (h : fwLookup c s x = none) :
    fwLookup c (addToCache c s (fwLineBase c x)) x
      = some (fwFillLine c s.mainMem (fwLineBase c x)
          ⟨fwTag c (fwLineBase c x), true, fun _ => 0⟩) := by
  unfold fwLookup at h ⊢
  unfold addToCache
  simp only [mapSet, fwSetIndex_lineBase c x hx, if_true]
  rw [List.find?_append, find?_fifo_none _ _ h]
  simp [fwFillLine_tag, fwTag_lineBase c x hx]

/-- An aligned write whose line is not resident leaves the line freshly filled from the
main memory that already holds the written word. -/
theorem fwWrite_miss_lookup (c : FWConfig) (hob : 2 ≤ c.offsetBitsCount) (s : FWState)
    (a d : Nat) (hx : a < 2 ^ 32) (hal : a % 4 = 0) (h : fwLookup c s a = none) :
    fwLookup c (fwWrite c s a d) a
      = some (fwFillLine c (fwWrite c s a d).mainMem (fwLineBase c a)
          ⟨fwTag c (fwLineBase c a), true, fun _ => 0⟩) := by
  have hu : u32 a = a := u32_of_lt hx
  generalize hs0 : fwStore { s with d := u32 d, a := u32 a, foundInCache := true } = s0
  have h0a : s0.a = a := by rw [← hs0]; exact hu
  have h0m : s0.cacheMem = s.cacheMem := by rw [← hs0]; rfl
  have hl0 : fwLookup c s0 a = none := by
    rw [← h]; exact fwLookup_congr c s0 s a a h0m rfl rfl
  have hcm : (fwWrite c s a d).cacheMem = (addToCache c s0 (fwLineBase c a)).cacheMem := by
    rw [fwWrite_eq, hs0]
    show (fwWriteBytes c s0 (3 + 1)).cacheMem = _
    rw [fwWriteBytes_aligned_cacheMem c hob s0 (by rw [h0a]; exact hx) (by rw [h0a]; exact hal) 3
      (by decide), h0a, hu, writeByte_miss c s0 a _ hl0]
  have hM : (fwWrite c s a d).mainMem = s0.mainMem := by
    rw [fwWrite_eq, hs0]
    show (fwWriteBytes c s0 4).mainMem = _
    have : ∀ n, (fwWriteBytes c s0 n).mainMem = s0.mainMem := by
      intro n
      induction n with
      | zero => rfl
      | succ n ih => rw [fwWriteBytes_succ, writeByte_mainMem, ih]
    exact this 4
  rw [hM, ← addToCache_lookup c s0 a hx hl0]
  exact fwLookup_congr c _ _ a a hcm rfl rfl

/-- An aligned write whose line is resident leaves every line as it is. -/
theorem fwWrite_hit_cacheMem (c : FWConfig) (hob : 2 ≤ c.offsetBitsCount) (s : FWState)
    (a d : Nat) (hx : a < 2 ^ 32) (hal : a % 4 = 0) (r : CacheLine)
    (h : fwLookup c s a = some r) : (fwWrite c s a d).cacheMem = s.cacheMem := by
  have hu : u32 a = a := u32_of_lt hx
  generalize hs0 : fwStore { s with d := u32 d, a := u32 a, foundInCache := true } = s0
  have h0a : s0.a = a := by rw [← hs0]; exact hu
  have h0m : s0.cacheMem = s.cacheMem := by rw [← hs0]; rfl
  have hl0 : fwLookup c s0 a = some r := by
    rw [← h]; exact fwLookup_congr c s0 s a a h0m rfl rfl
  rw [fwWrite_eq, hs0]
  show (fwWriteBytes c s0 (3 + 1)).cacheMem = _
  rw [fwWriteBytes_aligned_cacheMem c hob s0 (by rw [h0a]; exact hx) (by rw [h0a]; exact hal) 3
    (by decide), h0a, hu, (writeByte_hit c s0 a _ r hl0).1, h0m]

/-! ## Aligned traces within one set of the four-way cache -/

/-- Aligned requests to one set of a four-way cache whose lines have at least four bytes
act on the tags of the set and on the counters as `fifoStep` does. -/
theorem fwRun_aligned_fifo (c : FWConfig) (hob : 2 ≤ c.offsetBitsCount) (set : Nat)
    (trace : List Request) :
    ∀ s : FWState,
      (∀ r ∈ trace, r.addr < 2 ^ 32 ∧ r.addr % 4 = 0 ∧ fwSetIndex c r.addr = set) →
      (fwTags (fwRun c s trace).1 set, (fwRun c s trace).1.hits, (fwRun c s trace).1.misses)
        = (trace.map (fun r => fwTag c r.addr)).foldl fifoStep (fwTags s set, s.hits, s.misses) := by
  induction trace with
  | nil => intro s _; rfl
  | cons r rs ih =>
    intro s h
    obtain ⟨hx, hal, hset⟩ := h r (List.mem_cons_self _ _)
    rw [fwRun_cons, ih _ (fun r' hr' => h r' (List.mem_cons_of_mem _ hr')), List.map_cons,
      List.foldl_cons]
    congr 1
    obtain ⟨ht, hhit, hmiss⟩ := fwRequest_aligned c hob s r hx hal
    rw [hset] at ht hhit hmiss
    unfold fifoStep
    by_cases hm : fwTag c r.addr ∈ fwTags s set
    · rw [if_pos hm, ht, fwTouch_of_mem _ _ _ hm, (hhit hm).1, (hhit hm).2]
    · rw [if_neg hm, ht, fwTouch_at, if_neg hm, (hmiss hm).1, (hmiss hm).2]

/-! ## Four-way scenarios -/

theorem fwInit_lookup (c : FWConfig) (x : Nat) : fwLookup c FWState.init x = none := rfl

theorem fwRequest_write (c : FWConfig) (s : FWState) (a d : Nat) :
    fwRequest c s (writeReq a d) = (fwWrite c s a d, u32 d) := rfl

theorem fwRequest_read (c : FWConfig) (s : FWState) (a : Nat) :
    fwRequest c s (readReq a) = (fwRead c s a, (fwRead c s a).d) := rfl

/-- C12: four-way scenario 5.  With 4 lines of 16 bytes, any latencies and a cold cache,
the trace `[W 0x000 v1, W 0x004 v2, R 0x000]` ends with `misses = 1` and `hits = 2`, and
the read returns `v1`, for all 32-bit words `v1` and `v2`. -/
theorem fourway_scenario5 (cl ml v1 v2 : Nat) (h1 : v1 < 2 ^ 32) (h2 : v2 < 2 ^ 32) :
    (fwRun (fwConfig 4 16 cl ml) FWState.init
        [writeReq 0x000 v1, writeReq 0x004 v2, readReq 0x000]).1.misses = 1 ∧
    (fwRun (fwConfig 4 16 cl ml) FWState.init
        [writeReq 0x000 v1, writeReq 0x004 v2, readReq 0x000]).1.hits = 2 ∧
    (fwRun (fwConfig 4 16 cl ml) FWState.init
        [writeReq 0x000 v1, writeReq 0x004 v2, readReq 0x000]).2 = [v1, v2, v1] := by
  have hp : FWPow2 (fwConfig 4 16 cl ml) 4 0 := fwConfig_pow2 2 4 cl ml (by decide) (by decide) (by decide)
  generalize fwConfig 4 16 cl ml = c at hp ⊢
  have hob : 2 ≤ c.offsetBitsCount := by rw [hp.2.2.1]; decide
  have hset : ∀ x, fwSetIndex c x = 0 := by
    intro x; rw [fwSetIndex_eq c 4 0 hp]; simp [Nat.mod_one]
  have htag0 : fwTag c 0 = 0 := by rw [fwTag_eq c 4 0 hp]; norm_num
  have htag4 : fwTag c 4 = 0 := by rw [fwTag_eq c 4 0 hp]; norm_num
  have hbase : fwLineBase c 0 = 0 := by
    rw [fwLineBase_eq c 0 (by decide)]; simp
  -- first request
  have l1 := fwWrite_miss_lookup c hob FWState.init 0 v1 (by decide) (by decide) (fwInit_lookup c 0)
  have c1 := (fwRequest_aligned c hob FWState.init (writeReq 0 v1)
    (show (0 : Nat) < 2 ^ 32 by decide) (show (0 : Nat) % 4 = 0 by decide)).2.2
    (by simp [fwTags, FWState.init])
  rw [fwRequest_write] at c1
  -- second request
  have l2 : fwLookup c (fwWrite c FWState.init 0 v1) 4 = _ :=
    (fwLookup_congr c _ _ 4 0 rfl ((hset 4).trans (hset 0).symm) (htag4.trans htag0.symm)).trans l1
  have m2 := fwWrite_hit_cacheMem c hob _ 4 v2 (by decide) (by decide) _ l2
  have c2 := (fwRequest_aligned c hob (fwWrite c FWState.init 0 v1) (writeReq 4 v2)
    (show (4 : Nat) < 2 ^ 32 by decide) (show (4 : Nat) % 4 = 0 by decide)).2.1
    ((fwLookup_isSome_iff_mem c _ 4).mp (by rw [l2]; rfl))
  rw [fwRequest_write] at c2
  -- third request
  have l3 : fwLookup c (fwWrite c (fwWrite c FWState.init 0 v1) 4 v2) 0 = _ :=
    (fwLookup_congr c _ _ 0 0 m2 rfl rfl).trans l1
  have v3 := (fwRead_hit_value c hob _ 0 (by decide) (by decide) _ l3).1
  have c3 := (fwRequest_aligned c hob (fwWrite c (fwWrite c FWState.init 0 v1) 4 v2) (readReq 0)
    (show (0 : Nat) < 2 ^ 32 by decide) (show (0 : Nat) % 4 = 0 by decide)).2.1
    ((fwLookup_isSome_iff_mem c _ 0).mp (by rw [l3]; rfl))
  rw [fwRequest_read] at c3
  -- the bytes of the line
  have hfill : ∀ o, o < 16 →
      (fwFillLine c (fwWrite c FWState.init 0 v1).mainMem (fwLineBase c 0)
        ⟨fwTag c (fwLineBase c 0), true, fun _ => 0⟩).data o
      = (fwWrite c FWState.init 0 v1).mainMem o := by
    intro o ho
    rw [hbase, fwFillLine_copy c 4 0 hp _ 0 (by decide) (by decide) _ o ho, Nat.zero_add]
  have hmem := (write_request_reaches_main_memory 0 v1).2 c FWState.init
  obtain ⟨b0, b1, b2, b3, _⟩ := hmem
  have hoff : ∀ x, x < 16 → fwOffset c x = x := by
    intro x hx
    rw [fwOffset_eq c 4 0 hp]; exact Nat.mod_eq_of_lt hx
  rw [hoff 0 (by decide), hoff (0 + 1) (by decide), hoff (0 + 2) (by decide),
    hoff (0 + 3) (by decide), hfill 0 (by decide), hfill (0 + 1) (by decide),
    hfill (0 + 2) (by decide), hfill (0 + 3) (by decide)] at v3
  norm_num at b0 b1 b2 b3 v3
  rw [b0, b1, b2, b3] at v3
  have hv : (fwRead c (fwWrite c (fwWrite c FWState.init 0 v1) 4 v2) 0).d = v1 := by
    rw [v3]; norm_num at h1; omega
  simp only [fwRun, fwRequest_write, fwRequest_read, hv, u32_of_lt h1, u32_of_lt h2]
  refine ⟨?_, ?_, trivial⟩
  · rw [c3.2, c2.2, c1.2]; rfl
  · rw [c3.1, c2.1, c1.1]; rfl


/-- C12, instance: the words `0x11223344` and `0x55667788` with latencies 1 and 10. -/
theorem fourway_scenario5_witness :
    (fwRun (fwConfig 4 16 1 10) FWState.init
        [writeReq 0x000 0x11223344, writeReq 0x004 0x55667788, readReq 0x000]).1.misses = 1 ∧
    (fwRun (fwConfig 4 16 1 10) FWState.init
        [writeReq 0x000 0x11223344, writeReq 0x004 0x55667788, readReq 0x000]).1.hits = 2 ∧
    (fwRun (fwConfig 4 16 1 10) FWState.init
        [writeReq 0x000 0x11223344, writeReq 0x004 0x55667788, readReq 0x000]).2
      = [0x11223344, 0x55667788, 0x11223344] :=
  fourway_scenario5 1 10 0x11223344 0x55667788 (by decide) (by decide)

/-- C11 (as stated): four-way cache with 4 lines of 16 bytes from its initial state.  The
trace of reads 0x000, 0x100, 0x200, 0x300, 0x400, 0x000, 0x100 does not end with
`hits = 1` and `misses = 6`. -/
theorem fourway_scenario4_counterexample :
    ¬ ((fwRun (fwConfig 4 16 1 10) FWState.init
          [readReq 0x000, readReq 0x100, readReq 0x200, readReq 0x300, readReq 0x400,
            readReq 0x000, readReq 0x100]).1.hits = 1 ∧
       (fwRun (fwConfig 4 16 1 10) FWState.init
          [readReq 0x000, readReq 0x100, readReq 0x200, readReq 0x300, readReq 0x400,
            readReq 0x000, readReq 0x100]).1.misses = 6) := by
  decide

/-- C11 (amended): four-way cache with 4 lines of 16 bytes and any latencies, from its
initial state.  The five reads 0x000 .. 0x400 are misses; the re-read of 0x000 is a miss
and, being a fill, evicts the line of 0x100 (the set then holds the tags of 0x200, 0x300,
0x400, 0x000), so the re-read of 0x100 that follows is a miss as well and the run ends with
`hits = 0` and `misses = 7`.  Re-reading 0x100 directly after the five fills is a hit. -/
theorem fourway_scenario4 (cl ml : Nat) :
    (fwRun (fwConfig 4 16 cl ml) FWState.init
        [readReq 0x000, readReq 0x100, readReq 0x200, readReq 0x300, readReq 0x400]).1.hits = 0 ∧
    (fwRun (fwConfig 4 16 cl ml) FWState.init
        [readReq 0x000, readReq 0x100, readReq 0x200, readReq 0x300, readReq 0x400]).1.misses = 5 ∧
    fwTags (fwRun (fwConfig 4 16 cl ml) FWState.init
        [readReq 0x000, readReq 0x100, readReq 0x200, readReq 0x300, readReq 0x400,
          readReq 0x000]).1 0 = [0x20, 0x30, 0x40, 0x00] ∧
    (fwRun (fwConfig 4 16 cl ml) FWState.init
        [readReq 0x000, readReq 0x100, readReq 0x200, readReq 0x300, readReq 0x400,
          readReq 0x000]).1.hits = 0 ∧
    (fwRun (fwConfig 4 16 cl ml) FWState.init
        [readReq 0x000, readReq 0x100, readReq 0x200, readReq 0x300, readReq 0x400,
          readReq 0x000]).1.misses = 6 ∧
    (fwRun (fwConfig 4 16 cl ml) FWState.init
        [readReq 0x000, readReq 0x100, readReq 0x200, readReq 0x300, readReq 0x400,
          readReq 0x000, readReq 0x100]).1.hits = 0 ∧
    (fwRun (fwConfig 4 16 cl ml) FWState.init
        [readReq 0x000, readReq 0x100, readReq 0x200, readReq 0x300, readReq 0x400,
          readReq 0x000, readReq 0x100]).1.misses = 7 ∧
    (fwRun (fwConfig 4 16 cl ml) FWState.init
        [readReq 0x000, readReq 0x100, readReq 0x200, readReq 0x300, readReq 0x400,
          readReq 0x100]).1.hits = 1 ∧
    (fwRun (fwConfig 4 16 cl ml) FWState.init
        [readReq 0x000, readReq 0x100, readReq 0x200, readReq 0x300, readReq 0x400,
          readReq 0x100]).1.misses = 5 := by
  have hp : FWPow2 (fwConfig 4 16 cl ml) 4 0 :=
    fwConfig_pow2 2 4 cl ml (by decide) (by decide) (by decide)
  generalize fwConfig 4 16 cl ml = c at hp ⊢
  have hob : 2 ≤ c.offsetBitsCount := by rw [hp.2.2.1]; decide
  have hset : ∀ x, fwSetIndex c x = 0 := by
    intro x; rw [fwSetIndex_eq c 4 0 hp]; simp [Nat.mod_one]
  have key : ∀ T : List Request, (∀ r ∈ T, r.addr < 2 ^ 32 ∧ r.addr % 4 = 0) →
      (fwTags (fwRun c FWState.init T).1 0, (fwRun c FWState.init T).1.hits,
        (fwRun c FWState.init T).1.misses)
      = (T.map (fun r => r.addr / 2 ^ 4 / 2 ^ 0)).foldl fifoStep ([], 0, 0) := by
    intro T hT
    rw [fwRun_aligned_fifo c hob 0 T FWState.init
      (fun r hr => ⟨(hT r hr).1, (hT r hr).2, hset _⟩)]
    simp only [fwTag_eq c 4 0 hp]
    rfl
  have k5 := key [readReq 0x000, readReq 0x100, readReq 0x200, readReq 0x300, readReq 0x400]
    (by decide)
  have k6 := key [readReq 0x000, readReq 0x100, readReq 0x200, readReq 0x300, readReq 0x400,
    readReq 0x000] (by decide)
  have k7 := key [readReq 0x000, readReq 0x100, readReq 0x200, readReq 0x300, readReq 0x400,
    readReq 0x000, readReq 0x100] (by decide)
  have k6' := key [readReq 0x000, readReq 0x100, readReq 0x200, readReq 0x300, readReq 0x400,
    readReq 0x100] (by decide)
  have e5 : ([readReq 0x000, readReq 0x100, readReq 0x200, readReq 0x300, readReq 0x400].map
      (fun r => r.addr / 2 ^ 4 / 2 ^ 0)).foldl fifoStep ([], 0, 0)
      = ([0x10, 0x20, 0x30, 0x40], 0, 5) := by decide
  have e6 : ([readReq 0x000, readReq 0x100, readReq 0x200, readReq 0x300, readReq 0x400,
      readReq 0x000].map (fun r => r.addr / 2 ^ 4 / 2 ^ 0)).foldl fifoStep ([], 0, 0)
      = ([0x20, 0x30, 0x40, 0x00], 0, 6) := by decide
  have e7 : ([readReq 0x000, readReq 0x100, readReq 0x200, readReq 0x300, readReq 0x400,
      readReq 0x000, readReq 0x100].map (fun r => r.addr / 2 ^ 4 / 2 ^ 0)).foldl fifoStep
      ([], 0, 0) = ([0x30, 0x40, 0x00, 0x10], 0, 7) := by decide
  have e6' : ([readReq 0x000, readReq 0x100, readReq 0x200, readReq 0x300, readReq 0x400,
      readReq 0x100].map (fun r => r.addr / 2 ^ 4 / 2 ^ 0)).foldl fifoStep ([], 0, 0)
      = ([0x10, 0x20, 0x30, 0x40], 1, 5) := by decide
  rw [e5] at k5
  rw [e6] at k6
  rw [e7] at k7
  rw [e6'] at k6'
  simp only [Prod.mk.injEq] at k5 k6 k7 k6'
  exact ⟨k5.2.1, k5.2.2, k6.1, k6.2.1, k6.2.2, k7.2.1, k7.2.2, k6'.2.1, k6'.2.2⟩

/-! ## Aligned requests in the direct-mapped cache -/

theorem dmConfig_offset (cacheLines k cl ml : Nat) (hk : k < 32) :
    (dmConfig cacheLines (2 ^ k) cl ml).offsetBitsCount = k ∧
    (dmConfig cacheLines (2 ^ k) cl ml).offsetBitsMask = 2 ^ k - 1 := by
  constructor
  · exact log2_two_pow k
  · show u32 ((1 <<< log2 (2 ^ k)) + 2 ^ 32 - 1) = 2 ^ k - 1
    rw [log2_two_pow, offsetMask_eq k hk]

theorem dmIndex_eq_of_line (c : DMConfig) (x y i j : Nat)
    (h : (x + i) >>> c.offsetBitsCount = (y + j) >>> c.offsetBitsCount) :
    dmIndex c x i = dmIndex c y j := by
  unfold dmIndex
  congr 1
  apply Nat.eq_of_testBit_eq
  intro b
  have hx : (x + i).testBit (c.offsetBitsCount + b) = (y + j).testBit (c.offsetBitsCount + b) := by
    rw [← Nat.testBit_shiftRight, ← Nat.testBit_shiftRight, h]
  rw [Nat.testBit_shiftRight, Nat.testBit_shiftRight, Nat.testBit_and, Nat.testBit_and, hx]

theorem dmTag_eq_of_line (c : DMConfig) (x y i j : Nat)
    (h : (x + i) >>> c.offsetBitsCount = (y + j) >>> c.offsetBitsCount) :
    dmTag c x i = dmTag c y j := by
  unfold dmTag
  congr 1
  rw [← Nat.shiftRight_add, ← Nat.shiftRight_add, Nat.add_comm c.indexBitsCount,
    Nat.shiftRight_add, Nat.shiftRight_add, h]

/-- The four bytes of an aligned request lie in one line when a line has at least four
bytes: same index, same tag, consecutive offsets. -/
theorem dm_aligned_decode (c : DMConfig) (k : Nat) (hk : 2 ≤ k) (hk' : k < 32)
    (hob : c.offsetBitsCount = k) (hmask : c.offsetBitsMask = 2 ^ k - 1) (a i : Nat)
    (hal : a % 4 = 0) (hi : i < 4) :
    dmIndex c a i = dmIndex c a 0 ∧ dmTag c a i = dmTag c a 0 ∧
      dmOffset c a i = dmOffset c a 0 + i := by
  have hline : (a + i) >>> c.offsetBitsCount = (a + 0) >>> c.offsetBitsCount := by
    rw [hob, Nat.add_zero]; exact aligned_line k a i hk hal hi
  refine ⟨dmIndex_eq_of_line c a a i 0 hline, dmTag_eq_of_line c a a i 0 hline, ?_⟩
  unfold dmOffset
  rw [hmask, Nat.and_pow_two_sub_one_eq_mod, Nat.and_pow_two_sub_one_eq_mod, Nat.add_zero]
  have hle : 2 ^ k ≤ 2 ^ 32 := Nat.pow_le_pow_right (by norm_num) (by omega)
  have hpos : 0 < 2 ^ k := Nat.two_pow_pos k
  have hmod : (a + i) % 2 ^ k = a % 2 ^ k + i := by
    obtain ⟨p, rfl⟩ : ∃ p, k = 2 + p := ⟨k - 2, by omega⟩
    have h4 : (2 : Nat) ^ (2 + p) = 4 * 2 ^ p := by rw [pow_add]; norm_num
    have hp : 0 < 2 ^ p := Nat.two_pow_pos p
    rw [h4, Nat.mod_mul, Nat.mod_mul]
    have e1 : (a + i) % 4 = i := by omega
    have e2 : (a + i) / 4 = a / 4 := by omega
    rw [e1, e2, hal]; omega
  have h1 : (a + i) % 2 ^ k < 2 ^ k := Nat.mod_lt _ hpos
  have h2 : a % 2 ^ k < 2 ^ k := Nat.mod_lt _ hpos
  rw [u32_of_lt (by omega), u32_of_lt (by omega), hmod]

/-! ## Line contents of the direct-mapped cache -/

theorem dmFill_fold_data (m : Nat → Nat) (cla o o' : Nat) (h : o' ≠ o) (l : List Nat) :
    ∀ line : CacheLine,
      (l.foldl (fun (l : CacheLine) j =>
        { l with data := mapSet l.data o (m (u32 (cla + j))) }) line).data o' = line.data o' := by
  induction l with
  | nil => intro line; rfl
  | cons x l ih =>
    intro line
    rw [List.foldl_cons, ih]
    simp [mapSet, h]

/-- The miss fill touches the line's byte at the accessed offset only. -/
theorem dmFill_data (c : DMConfig) (m : Nat → Nat) (line : CacheLine) (a o t o' : Nat)
    (h : o' ≠ o) : (dmFill c m line a o t).data o' = line.data o' := by
  unfold dmFill
  exact dmFill_fold_data m _ o o' h _ line

theorem mapSet_apply {α : Type} (m : Nat → α) (k : Nat) (v : α) (x : Nat) :
    mapSet m k v x = if x = k then v else m x := rfl

/-- A byte of a write stores its block at its index and offset and changes no other byte
of any line. -/
theorem dmWriteByte_data (c : DMConfig) (a d : Nat) (st : DMState × Bool) (i idx o : Nat) :
    ((dmWriteByte c a d st i).1.cache idx).data o
      = if idx = dmIndex c a i ∧ o = dmOffset c a i
        then range d (32 - 8 * i - 1) (32 - 8 * (i + 1)) else (st.1.cache idx).data o := by
  unfold dmWriteByte
  by_cases hidx : idx = dmIndex c a i
  · by_cases ho : o = dmOffset c a i
    · simp [hidx, ho, mapSet_apply]
    · simp only [hidx, ho, mapSet_apply, if_true, and_false, if_false]
      split
      · exact dmFill_data c _ _ _ _ _ _ ho
      · rfl
  · simp [hidx, mapSet_apply]

theorem dmWrite_cache (c : DMConfig) (s : DMState) (a d : Nat) :
    (dmWrite c s a d).cache = (dmWriteBefore c s a d 4).cache ∧
    (dmWrite c s a d).hits + (dmWrite c s a d).misses = s.hits + s.misses + 1 := by
  constructor
  · unfold dmWrite dmWriteBefore
    dsimp only
    split_ifs <;> rfl
  · by_cases h : ∀ i < 4, dmResident c (dmWriteBefore c s a d i) a i
    · have := (dmWrite_counters c s a d).1 h; omega
    · have := (dmWrite_counters c s a d).2 h; omega

/-- After an aligned write into a line of at least four bytes the line holds the four
blocks of the word at the four offsets. -/
theorem dmWriteBefore_data (c : DMConfig) (s : DMState) (a d : Nat)
    (hI : ∀ i < 4, dmIndex c a i = dmIndex c a 0)
    (hO : ∀ i < 4, dmOffset c a i = dmOffset c a 0 + i) (n : Nat) (hn : n ≤ 4) :
    ∀ i < n, ((dmWriteBefore c s a d n).cache (dmIndex c a 0)).data (dmOffset c a 0 + i)
      = range d (32 - 8 * i - 1) (32 - 8 * (i + 1)) := by
  induction n with
  | zero => intro i hi; omega
  | succ n ih =>
    intro i hi
    rw [dmWriteBefore_succ, dmWriteByte_data, hI n (by omega), hO n (by omega)]
    by_cases h : i = n
    · subst h; simp
    · have hne : ¬ (dmOffset c a 0 + i = dmOffset c a 0 + n) := by omega
      simp only [hne, and_false, if_false]
      exact ih (by omega) i (by omega)

/-- A byte of a read that finds its line resident leaves the cache as it is and delivers
the line's byte at its offset. -/
theorem dmReadByte_hit (c : DMConfig) (a : Nat) (st : DMState × Bool × Nat) (i : Nat)
    (h : dmResident c st.1 a i) :
    (dmReadByte c a st i).1.cache = st.1.cache ∧
    (dmReadByte c a st i).2.2
      = setRange st.2.2 (32 - 8 * i - 1) (32 - 8 * (i + 1))
          ((st.1.cache (dmIndex c a i)).data (dmOffset c a i)) := by
  have hm : dmMiss c st.1 a i = false := (dmMiss_eq_false_iff c st.1 a i).mpr h
  unfold dmReadByte
  simp only [hm, Bool.false_eq_true, if_false]
  exact ⟨mapSet_self _ _ _ rfl, trivial⟩

theorem dmRead_word (c : DMConfig) (s : DMState) (a : Nat) :
    (dmRead c s a).2 = ((List.range 4).foldl (dmReadByte c a) (s, true, 0)).2.2 := rfl

theorem dmRead_fold_succ (c : DMConfig) (s : DMState) (a n : Nat) :
    (List.range (n + 1)).foldl (dmReadByte c a) (s, true, 0)
      = dmReadByte c a ((List.range n).foldl (dmReadByte c a) (s, true, 0)) n := by
  rw [List.range_succ, List.foldl_append, List.foldl_cons, List.foldl_nil]

theorem dmRead_hit_step (c : DMConfig) (s : DMState) (a n : Nat)
    (hres : dmResident c s a n)
    (hc : ((List.range n).foldl (dmReadByte c a) (s, true, 0)).1.cache = s.cache) :
    ((List.range (n + 1)).foldl (dmReadByte c a) (s, true, 0)).1.cache = s.cache ∧
    ((List.range (n + 1)).foldl (dmReadByte c a) (s, true, 0)).2.2
      = setRange ((List.range n).foldl (dmReadByte c a) (s, true, 0)).2.2
          (32 - 8 * n - 1) (32 - 8 * (n + 1)) ((s.cache (dmIndex c a n)).data (dmOffset c a n)) := by
  have hres' : dmResident c ((List.range n).foldl (dmReadByte c a) (s, true, 0)).1 a n := by
    unfold dmResident at hres ⊢
    rw [hc]; exact hres
  have := dmReadByte_hit c a _ n hres'
  rw [dmRead_fold_succ]
  rw [hc] at this
  exact this

/-- A read all of whose bytes are resident returns the four bytes found in their lines. -/
theorem dmRead_hit_value (c : DMConfig) (s : DMState) (a : Nat)
    (hres : ∀ i < 4, dmResident c s a i) :
    (dmRead c s a).2
      = (s.cache (dmIndex c a 0)).data (dmOffset c a 0) % 256 * 2 ^ 24
        + (s.cache (dmIndex c a 1)).data (dmOffset c a 1) % 256 * 2 ^ 16
        + (s.cache (dmIndex c a 2)).data (dmOffset c a 2) % 256 * 2 ^ 8
        + (s.cache (dmIndex c a 3)).data (dmOffset c a 3) % 256 := by
  obtain ⟨c1, w1⟩ := dmRead_hit_step c s a 0 (hres 0 (by decide)) rfl
  obtain ⟨c2, w2⟩ := dmRead_hit_step c s a 1 (hres 1 (by decide)) c1
  obtain ⟨c3, w3⟩ := dmRead_hit_step c s a 2 (hres 2 (by decide)) c2
  obtain ⟨_, w4⟩ := dmRead_hit_step c s a 3 (hres 3 (by decide)) c3
  rw [dmRead_word, w4, w3, w2, w1]
  exact setRange_chain_high_first _ _ _ _

/-! ## Direct-mapped scenarios -/

theorem dm_aligned_conflictFree (c : DMConfig) (k : Nat) (hk : 2 ≤ k) (hk' : k < 32)
    (hob : c.offsetBitsCount = k) (hmask : c.offsetBitsMask = 2 ^ k - 1) (a : Nat)
    (hal : a % 4 = 0) : dmConflictFree c a := by
  intro i hi j hj _
  rw [(dm_aligned_decode c k hk hk' hob hmask a i hal hi).2.1,
    (dm_aligned_decode c k hk hk' hob hmask a j hal hj).2.1]

/-- An aligned write into a cache whose lines have at least four bytes, followed by a read
of the same address: the read hits and returns the written word. -/
theorem dmWrite_then_read (c : DMConfig) (k : Nat) (hk : 2 ≤ k) (hk' : k < 32)
    (hob : c.offsetBitsCount = k) (hmask : c.offsetBitsMask = 2 ^ k - 1) (s : DMState)
    (a d : Nat) (hal : a % 4 = 0) (hd : d < 2 ^ 32) :
    (dmRead c (dmWrite c s a d) a).2 = d ∧
    (dmRead c (dmWrite c s a d) a).1.hits = (dmWrite c s a d).hits + 1 ∧
    (dmRead c (dmWrite c s a d) a).1.misses = (dmWrite c s a d).misses := by
  have hres : ∀ i < 4, dmResident c (dmWrite c s a d) a i := by
    intro i hi
    rw [dmResident_iff_tagState, dmWrite_tagState]
    exact (dmTagsAfter_resident_iff c a _).mpr
      (dm_aligned_conflictFree c k hk hk' hob hmask a hal) i hi
  have hmom : ∀ i < 4, dmResident c (dmReadBefore c (dmWrite c s a d) a i) a i := by
    have h := (dmTagsAfter_all_resident c a (dmTagState (dmWrite c s a d)) 4).mpr
      (fun i hi => (dmResident_iff_tagState c _ a i).mp (hres i hi))
    intro i hi
    rw [dmResident_iff_tagState, dmReadBefore_tagState]
    exact h i hi
  refine ⟨?_, (dmRead_counters c _ a).1 hmom⟩
  have hI : ∀ i < 4, dmIndex c a i = dmIndex c a 0 :=
    fun i hi => (dm_aligned_decode c k hk hk' hob hmask a i hal hi).1
  have hO : ∀ i < 4, dmOffset c a i = dmOffset c a 0 + i :=
    fun i hi => (dm_aligned_decode c k hk hk' hob hmask a i hal hi).2.2
  have hdata := dmWriteBefore_data c s a d hI hO 4 (Nat.le_refl 4)
  rw [dmRead_hit_value c _ a hres, (dmWrite_cache c s a d).1, hI 1 (by decide), hI 2 (by decide),
    hI 3 (by decide), hO 1 (by decide), hO 2 (by decide), hO 3 (by decide)]
  have h0 := hdata 0 (by decide)
  rw [Nat.add_zero] at h0
  rw [h0, hdata 1 (by decide), hdata 2 (by decide), hdata 3 (by decide)]
  obtain ⟨r0, r1, r2, r3⟩ := range_bytes d
  norm_num at r0 r1 r2 r3 ⊢
  rw [r0, r1, r2, r3]
  norm_num at hd
  omega

/-- C13: direct-mapped cache with lines of `2 ^ k >= 4` bytes and any number of lines, for
every prior state, aligned 32-bit address `a` and 32-bit word `d`: the read of `a` that
immediately follows the write `(a, d)` is a hit (`hits + 1`, `misses` unchanged) and
returns `d`.  On the cold cache with 4 lines of 16 bytes the trace
`[W 0x00 0xDEADBEEF, R 0x00]` ends with `hits = 1`, `misses = 1` and read data
`0xDEADBEEF`. -/
theorem directmapped_write_then_read_hits :
    (∀ (cacheLines k cl ml : Nat) (s : DMState) (a d : Nat),
      2 ≤ k → k < 32 → a < 2 ^ 32 → a % 4 = 0 → d < 2 ^ 32 →
      (dmRequest (dmConfig cacheLines (2 ^ k) cl ml)
          (dmRequest (dmConfig cacheLines (2 ^ k) cl ml) s (writeReq a d)).1 (readReq a)).2 = d ∧
      (dmRequest (dmConfig cacheLines (2 ^ k) cl ml)
          (dmRequest (dmConfig cacheLines (2 ^ k) cl ml) s (writeReq a d)).1 (readReq a)).1.hits
        = (dmRequest (dmConfig cacheLines (2 ^ k) cl ml) s (writeReq a d)).1.hits + 1 ∧
      (dmRequest (dmConfig cacheLines (2 ^ k) cl ml)
          (dmRequest (dmConfig cacheLines (2 ^ k) cl ml) s (writeReq a d)).1 (readReq a)).1.misses
        = (dmRequest (dmConfig cacheLines (2 ^ k) cl ml) s (writeReq a d)).1.misses) ∧
    ((dmRun (dmConfig 4 16 1 10) DMState.init [writeReq 0x00 0xDEADBEEF, readReq 0x00]).1.hits = 1 ∧
      (dmRun (dmConfig 4 16 1 10) DMState.init [writeReq 0x00 0xDEADBEEF, readReq 0x00]).1.misses = 1 ∧
      (dmRun (dmConfig 4 16 1 10) DMState.init [writeReq 0x00 0xDEADBEEF, readReq 0x00]).2
        = [0xDEADBEEF, 0xDEADBEEF]) := by
  constructor
  · intro cacheLines k cl ml s a d hk hk' ha hal hd
    obtain ⟨hob, hmask⟩ := dmConfig_offset cacheLines k cl ml hk'
    have h := dmWrite_then_read _ k hk hk' hob hmask s a d hal hd
    have e1 : ∀ s', dmRequest (dmConfig cacheLines (2 ^ k) cl ml) s' (writeReq a d)
        = (dmWrite (dmConfig cacheLines (2 ^ k) cl ml) s' a d, d) := by
      intro s'
      show (dmWrite _ s' (u32 a) (u32 d), u32 d) = _
      rw [u32_of_lt ha, u32_of_lt hd]
    have e2 : ∀ s', dmRequest (dmConfig cacheLines (2 ^ k) cl ml) s' (readReq a)
        = dmRead (dmConfig cacheLines (2 ^ k) cl ml) s' a := by
      intro s'
      show dmRead _ s' (u32 a) = _
      rw [u32_of_lt ha]
    rw [e1, e2]
    exact h
  · decide

/-! ## Conflicting lines in the direct-mapped cache -/

/-- A request whose first byte does not find its line resident is a miss. -/
theorem dmRequest_first_byte_miss (c : DMConfig) (s : DMState) (r : Request)
    (h : dmTagState s (dmIndex c (u32 r.addr) 0) ≠ (true, dmTag c (u32 r.addr) 0)) :
    (dmRequest c s r).1.hits = s.hits ∧ (dmRequest c s r).1.misses = s.misses + 1 := by
  by_contra hn
  exact h (dmRequest_hit_resident c s r hn 0 (by decide))

/-- After an aligned request the line of its address is valid and carries its tag. -/
theorem dmRequest_aligned_tag (c : DMConfig) (k : Nat) (hk : 2 ≤ k) (hk' : k < 32)
    (hob : c.offsetBitsCount = k) (hmask : c.offsetBitsMask = 2 ^ k - 1) (s : DMState)
    (r : Request) (hal : u32 r.addr % 4 = 0) :
    dmTagState (dmRequest c s r).1 (dmIndex c (u32 r.addr) 0) = (true, dmTag c (u32 r.addr) 0) := by
  rw [dmRequest_tagState]
  exact (dmTagsAfter_resident_iff c (u32 r.addr) _).mpr
    (dm_aligned_conflictFree c k hk hk' hob hmask _ hal) 0 (by decide)

/-- C14: direct-mapped cache with lines of `2 ^ k >= 4` bytes from its initial state.  For
aligned addresses `A` and `B` that decode to the same index and to different tags the
trace `[R A, R B, R A]` is three misses; the instance with 4 lines of 16 bytes, `A = 0x00`
and `B = 0x40` (index 0, tags 0 and 1) ends with `hits = 0` and `misses = 3`. -/
theorem directmapped_conflicting_reads_miss :
    (∀ (cacheLines k cl ml A B : Nat), 2 ≤ k → k < 32 →
      A < 2 ^ 32 → A % 4 = 0 → B < 2 ^ 32 → B % 4 = 0 →
      dmIndex (dmConfig cacheLines (2 ^ k) cl ml) A 0
        = dmIndex (dmConfig cacheLines (2 ^ k) cl ml) B 0 →
      dmTag (dmConfig cacheLines (2 ^ k) cl ml) A 0
        ≠ dmTag (dmConfig cacheLines (2 ^ k) cl ml) B 0 →
      (dmRun (dmConfig cacheLines (2 ^ k) cl ml) DMState.init
          [readReq A, readReq B, readReq A]).1.hits = 0 ∧
      (dmRun (dmConfig cacheLines (2 ^ k) cl ml) DMState.init
          [readReq A, readReq B, readReq A]).1.misses = 3) ∧
    (dmIndex (dmConfig 4 16 1 10) 0x00 0 = 0 ∧ dmIndex (dmConfig 4 16 1 10) 0x40 0 = 0 ∧
      dmTag (dmConfig 4 16 1 10) 0x00 0 = 0 ∧ dmTag (dmConfig 4 16 1 10) 0x40 0 = 1 ∧
      (dmRun (dmConfig 4 16 1 10) DMState.init
          [readReq 0x00, readReq 0x40, readReq 0x00]).1.hits = 0 ∧
      (dmRun (dmConfig 4 16 1 10) DMState.init
          [readReq 0x00, readReq 0x40, readReq 0x00]).1.misses = 3) := by
  constructor
  · intro cacheLines k cl ml A B hk hk' hA hAal hB hBal hidx htag
    obtain ⟨hob, hmask⟩ := dmConfig_offset cacheLines k cl ml hk'
    generalize dmConfig cacheLines (2 ^ k) cl ml = c at hob hmask hidx htag ⊢
    have uA : u32 (readReq A).addr = A := u32_of_lt hA
    have uB : u32 (readReq B).addr = B := u32_of_lt hB
    -- first read of A
    have m1 := dmRequest_first_byte_miss c DMState.init (readReq A)
      (by simp [dmTagState, DMState.init, CacheLine.empty])
    have t1 := dmRequest_aligned_tag c k hk hk' hob hmask DMState.init (readReq A)
      (by rw [uA]; exact hAal)
    rw [uA] at t1
    -- read of B
    have m2 := dmRequest_first_byte_miss c (dmRequest c DMState.init (readReq A)).1 (readReq B)
      (by
        rw [uB, ← hidx, t1]
        intro h
        exact htag ((Prod.mk.injEq _ _ _ _).mp h).2)
    have t2 := dmRequest_aligned_tag c k hk hk' hob hmask
      (dmRequest c DMState.init (readReq A)).1 (readReq B) (by rw [uB]; exact hBal)
    rw [uB] at t2
    -- second read of A
    have m3 := dmRequest_first_byte_miss c
      (dmRequest c (dmRequest c DMState.init (readReq A)).1 (readReq B)).1 (readReq A)
      (by
        rw [uA, hidx, t2]
        intro h
        exact htag ((Prod.mk.injEq _ _ _ _).mp h).2.symm)
    simp only [dmRun]
    rw [m3.1, m3.2, m2.1, m2.2, m1.1, m1.2]
    exact ⟨rfl, rfl⟩
  · decide

/-! ## The loop of the CPU -/

theorem storedAfter_self (c0 : Cache) (reqs : Nat → Request) (k : Nat) :
    storedAfter c0 reqs k k = reqs k := by
  simp [storedAfter]

theorem storedAfter_succ (c0 : Cache) (reqs : Nat → Request) (k : Nat) :
    storedAfter c0 reqs (k + 1) =
      if (reqs k).we = false then
        mapSet (storedAfter c0 reqs k) k { reqs k with data := published c0 reqs k }
      else storedAfter c0 reqs k := by
  funext j
  by_cases hw : (reqs k).we = false
  · rw [if_pos hw]
    simp only [mapSet_apply, storedAfter]
    by_cases hj : j = k
    · subst hj; simp [hw]
    · have : (j < k + 1) ↔ (j < k) := by omega
      simp [hj, this]
  · rw [if_neg hw]
    simp only [storedAfter]
    by_cases hj : j = k
    · subst hj; simp [hw]
    · have : (j < k + 1) ↔ (j < k) := by omega
      simp [this]

theorem occupancy_pos (c : Cache) (r : Request) : 1 ≤ c.occupancy r := by
  unfold Cache.occupancy; omega

/-- The hand-over block: a ready cache with a request left receives request `k`. -/
theorem cpuDispatch_core (c0 : Cache) (reqs : Nat → Request) (n B : Nat) (st : Sim) (k : Nat)
    (h : SimCore c0 reqs n B st k) (hk : st.ready = true → k < n) :
    ∃ st2, cpuDispatch { st with elapsedCycles := st.elapsedCycles + 1,
                                 cycles := st.elapsedCycles + 1 } = some st2 ∧
      SimFlight c0 reqs n B st2 k ∧ st2.now = st.now := by
  obtain ⟨h1, h2, h3, h4, h6, h7, h8⟩ := h
  have hpos := occupancy_pos (cacheAfter c0 reqs k) (reqs k)
  rcases h8 with ⟨r1, r2, r3, r4, r5⟩ | ⟨r1, r2, r3, r4, r5, r6, r7⟩
  · have hkn := hk r1
    refine ⟨{ st with elapsedCycles := st.elapsedCycles + 1, cycles := st.elapsedCycles + 1,
                      data := u32 (st.requests st.currentRequest).data, ready := false,
                      currentRequest := st.currentRequest + 1,
                      inFlight := some (st.now + st.cache.latency (st.requests st.currentRequest),
                        st.now + st.cache.readyAfter (st.requests st.currentRequest),
                        (st.cache.serve (st.requests st.currentRequest)).1,
                        (st.cache.serve (st.requests st.currentRequest)).2) }, ?_, ?_, rfl⟩
    · simp only [cpuDispatch, r1, r3, h1, hkn, if_true]
    · simp only [SimFlight, h1, h2, h3, r5, h6, r3, r4, storedAfter_self, startEdge, published,
        cacheAfter, hkn, true_and, and_true, le_refl, lt_irrefl, and_false, if_false]
      omega
  · refine ⟨{ st with elapsedCycles := st.elapsedCycles + 1, cycles := st.elapsedCycles + 1 },
      ?_, ?_, rfl⟩
    · simp [cpuDispatch, r1]
    · refine ⟨h1, h2, by simp [h3], rfl, h6, r2, r1, r3, r4, le_of_lt r5, r6, ?_⟩
      show st.cache = _
      rw [r7]
      simp [r5]

theorem exitTest (s : Sim) (p q : Prop) [Decidable p] [Decidable q] :
    (if p then some (s, true) else some (s, decide q)) = some (s, decide (p ∨ q)) := by
  by_cases hp : p <;> simp [hp]

/-- From `wait()` to the exit tests while request `k` is in flight: the request is completed
at this edge or stays in flight. -/
theorem cpuResume_flight (c0 : Cache) (reqs : Nat → Request) (n B : Nat) (st2 : Sim) (k : Nat)
    (h : SimFlight c0 reqs n B st2 k) :
    ∃ st1 k1 b, cpuResume st2 = some (st1, b) ∧ SimCore c0 reqs n B st1 k1 ∧
      st1.now = st2.now + 1 ∧
      (b = true ↔ ((st1.ready = true ∧ n ≤ st1.currentRequest) ∨ B ≤ st1.elapsedCycles)) := by
  obtain ⟨h1, h2, h3, h4, h6, h7, h8, h9, h10, h11, h12, h13⟩ := h
  by_cases hd : startEdge c0 reqs k + (cacheAfter c0 reqs k).readyAfter (reqs k) ≤ st2.now + 1
  · have hnow : st2.now + 1 = startEdge c0 reqs (k + 1) := by
      simp only [startEdge, Cache.occupancy] at h12 ⊢
      omega
    by_cases hw : (reqs k).we = false
    · refine ⟨{ st2 with now := st2.now + 1, ready := true, data := published c0 reqs k,
                         cache := cacheAfter c0 reqs (k + 1), inFlight := none,
                         requests := mapSet st2.requests k
                           { reqs k with data := published c0 reqs k } },
        k + 1, decide (n ≤ k + 1 ∨ B ≤ st2.elapsedCycles), ?_, ?_, rfl, ?_⟩
      · simp [cpuResume, cacheAdvance, h10, hd, cpuStore, h9, h1, h2, h7, h6, storedAfter_self, hw,
          exitTest]
      · refine ⟨h1, h2, h3, h4, ?_, h7, Or.inl ⟨rfl, rfl, h9, hnow, rfl⟩⟩
        show mapSet st2.requests k _ = _
        rw [storedAfter_succ, if_pos hw, h6]
      · simp [h9]
    · refine ⟨{ st2 with now := st2.now + 1, ready := true, data := published c0 reqs k,
                         cache := cacheAfter c0 reqs (k + 1), inFlight := none },
        k + 1, decide (n ≤ k + 1 ∨ B ≤ st2.elapsedCycles), ?_, ?_, rfl, ?_⟩
      · simp [cpuResume, cacheAdvance, h10, hd, cpuStore, h9, h1, h2, h7, h6, storedAfter_self, hw,
          exitTest]
      · refine ⟨h1, h2, h3, h4, ?_, h7, Or.inl ⟨rfl, rfl, h9, hnow, rfl⟩⟩
        show st2.requests = _
        rw [storedAfter_succ, if_neg hw, h6]
      · simp [h9]
  · have hlt : st2.now + 1 < startEdge c0 reqs (k + 1) := by
      simp only [startEdge, Cache.occupancy] at h12 ⊢
      omega
    by_cases hp : startEdge c0 reqs k + (cacheAfter c0 reqs k).latency (reqs k) ≤ st2.now + 1
    · refine ⟨{ st2 with now := st2.now + 1, cache := cacheAfter c0 reqs (k + 1) }, k,
        decide (B ≤ st2.elapsedCycles), ?_, ?_, rfl, ?_⟩
      · simp [cpuResume, cacheAdvance, h10, hd, hp, h8, h2]
      · refine ⟨h1, h2, h3, h4, h6, le_of_lt h7, Or.inr ⟨h8, h7, h9, h10, ?_, hlt, ?_⟩⟩
        · show startEdge c0 reqs k < st2.now + 1
          omega
        · show cacheAfter c0 reqs (k + 1) = cacheAfter c0 reqs (if _ ≤ st2.now + 1 then _ else _)
          rw [if_pos hp]
      · simp [h8]
    · refine ⟨{ st2 with now := st2.now + 1 }, k, decide (B ≤ st2.elapsedCycles), ?_, ?_, rfl, ?_⟩
      · simp [cpuResume, cacheAdvance, h10, hd, hp, h8, h2]
      · refine ⟨h1, h2, h3, h4, h6, le_of_lt h7, Or.inr ⟨h8, h7, h9, h10, ?_, hlt, ?_⟩⟩
        · show startEdge c0 reqs k < st2.now + 1
          omega
        · show st2.cache = cacheAfter c0 reqs (if _ ≤ st2.now + 1 then _ else _)
          rw [if_neg hp, h13, if_neg]
          intro hx
          omega
      · simp [h8]

/-- One pass of the loop keeps the state related to the trace and moves to the next edge;
the loop is left exactly when all requests are completed or the budget is used. -/
theorem cpuPass_core (c0 : Cache) (reqs : Nat → Request) (n B : Nat) (st : Sim) (k : Nat)
    (h : SimCore c0 reqs n B st k) (hk : st.ready = true → k < n) :
    ∃ st1 k1 b, cpuPass st = some (st1, b) ∧ SimCore c0 reqs n B st1 k1 ∧
      st1.now = st.now + 1 ∧
      (b = true ↔ ((st1.ready = true ∧ n ≤ st1.currentRequest) ∨ B ≤ st1.elapsedCycles)) := by
  obtain ⟨st2, e2, f2, n2⟩ := cpuDispatch_core c0 reqs n B st k h hk
  obtain ⟨st1, k1, b, e1, c1, n1, hb⟩ := cpuResume_flight c0 reqs n B st2 k f2
  refine ⟨st1, k1, b, ?_, c1, by rw [n1, n2], hb⟩
  simp only [cpuPass, e2]
  exact e1

/-- The loop of the CPU ends: started at an edge before the budget is used, with a request
left, it stops in a state related to the trace in which all requests are completed or the
budget is used, not later than the budget allows. -/
theorem cpuLoop_core (c0 : Cache) (reqs : Nat → Request) (n B : Nat) :
    ∀ (fuel : Nat) (st : Sim) (k : Nat), SimCore c0 reqs n B st k →
      (st.ready = true → k < n) → max B 1 ≤ st.now + fuel → st.now < max B 1 →
      ∃ st1 k1, cpuLoop fuel st = some st1 ∧ SimCore c0 reqs n B st1 k1 ∧
        ((st1.ready = true ∧ n ≤ st1.currentRequest) ∨ B ≤ st1.elapsedCycles) ∧
        st.now < st1.now ∧ st1.now ≤ max B 1 := by
  intro fuel
  induction fuel with
  | zero => intro st k _ _ h1 h2; omega
  | succ fuel ih =>
    intro st k h hk hf hlt
    obtain ⟨st1, k1, b, e1, c1, n1, hb⟩ := cpuPass_core c0 reqs n B st k h hk
    cases b with
    | true =>
      refine ⟨st1, k1, ?_, c1, hb.1 rfl, by omega, by omega⟩
      simp only [cpuLoop, e1]
    | false =>
      have hnb : ¬((st1.ready = true ∧ n ≤ st1.currentRequest) ∨ B ≤ st1.elapsedCycles) :=
        fun hx => Bool.noConfusion (hb.2 hx)
      have hel : st1.elapsedCycles = st1.now := c1.2.2.1
      have hB : st1.now < B := by
        have : ¬ B ≤ st1.elapsedCycles := fun hx => hnb (Or.inr hx)
        omega
      have hk1 : st1.ready = true → k1 < n := by
        intro hr
        have hcur : ¬ n ≤ st1.currentRequest := fun hx => hnb (Or.inl ⟨hr, hx⟩)
        rcases c1.2.2.2.2.2.2 with ⟨_, _, r3, _⟩ | ⟨r1, _⟩
        · omega
        · rw [hr] at r1; exact Bool.noConfusion r1
      obtain ⟨st3, k3, e3, c3, x3, l3, u3⟩ := ih st1 k1 c1 hk1 (by omega) (by omega)
      refine ⟨st3, k3, ?_, c3, x3, by omega, u3⟩
      simp only [cpuLoop, e1]
      exact e3

/-! ## Time spent in `wait` -/

theorem dmWriteBefore_time (c : DMConfig) (s : DMState) (a d n : Nat) :
    (dmWriteBefore c s a d n).time = s.time + c.memoryLatency *
      countBelow (fun i => dmMiss c (dmWriteBefore c s a d i) a i) n := by
  induction n with
  | zero => simp [dmWriteBefore, countBelow]
  | succ n ih =>
    rw [dmWriteBefore_succ]
    have e : ((List.range n).foldl (dmWriteByte c a d) (s, true)).1 = dmWriteBefore c s a d n := rfl
    simp only [dmWriteByte, countBelow, e]
    by_cases hm : dmMiss c (dmWriteBefore c s a d n) a n = true
    · simp only [hm, if_true, ih]; ring
    · simp only [hm, if_false, ih]; simp

theorem dmReadBefore_time (c : DMConfig) (s : DMState) (a n : Nat) :
    (dmReadBefore c s a n).time = s.time + c.memoryLatency *
      countBelow (fun i => dmMiss c (dmReadBefore c s a i) a i) n := by
  induction n with
  | zero => simp [dmReadBefore, countBelow]
  | succ n ih =>
    rw [dmReadBefore_succ]
    have e : ((List.range n).foldl (dmReadByte c a) (s, true, 0)).1 = dmReadBefore c s a n := rfl
    simp only [dmReadByte, countBelow, e]
    by_cases hm : dmMiss c (dmReadBefore c s a n) a n = true
    · simp only [hm, if_true, ih]; ring
    · simp only [hm, if_false, ih]; simp

theorem dmWrite_time (c : DMConfig) (s : DMState) (a d : Nat) :
    (dmWrite c s a d).time = (dmWriteBefore c s a d 4).time + c.cacheLatency := by
  unfold dmWrite dmWriteBefore
  dsimp only
  split_ifs <;> rfl

theorem dmRead_time (c : DMConfig) (s : DMState) (a : Nat) :
    (dmRead c s a).1.time = (dmReadBefore c s a 4).time + c.cacheLatency := by
  unfold dmRead dmReadBefore
  dsimp only
  split_ifs <;> rfl

/-- A request of the direct-mapped cache waits `cacheLatency` once and `memoryLatency` for
every byte that misses. -/
theorem dmRequest_time (c : DMConfig) (s : DMState) (r : Request) :
    (dmRequest c s r).1.time = s.time + (c.cacheLatency + c.memoryLatency * dmMissBytes c s r) := by
  unfold dmRequest dmMissBytes
  by_cases hw : r.we = true
  · simp only [hw, if_true, dmWrite_time, dmWriteBefore_time]; ring
  · simp only [hw, if_false, Bool.false_eq_true, dmRead_time, dmReadBefore_time]; ring

theorem writeByte_time (c : FWConfig) (s : FWState) (x v : Nat) :
    (writeByte c s x v).time = s.time + (if (fwLookup c s x).isNone then c.memoryLatency else 0) := by
  unfold writeByte
  cases h : fwLookup c s x with
  | none => simp [addToCache]
  | some l => simp

theorem readByte_time (c : FWConfig) (s : FWState) (x : Nat) :
    (readByte c s x).1.time = s.time + (if (fwLookup c s x).isNone then c.memoryLatency else 0) := by
  unfold readByte
  cases h : fwLookup c s x with
  | none => simp [addToCache]
  | some l => simp

theorem fwWriteBytes_time (c : FWConfig) (s0 : FWState) (n : Nat) :
    (fwWriteBytes c s0 n).time = s0.time + c.memoryLatency *
      countBelow (fun i => (fwLookup c (fwWriteBytes c s0 i) (u32 (s0.a + i))).isNone) n := by
  induction n with
  | zero => simp [fwWriteBytes, countBelow]
  | succ n ih =>
    rw [fwWriteBytes_succ, writeByte_time, ih, (fwWriteBytes_fields c s0 n).1]
    simp only [countBelow]
    split_ifs <;> ring

theorem fwReadBytes_time (c : FWConfig) (s0 : FWState) (n : Nat) :
    (fwReadBytes c s0 n).time = s0.time + c.memoryLatency *
      countBelow (fun i => (fwLookup c (fwReadBytes c s0 i) (u32 (s0.a + (3 - i)))).isNone) n := by
  induction n with
  | zero => simp [fwReadBytes, countBelow]
  | succ n ih =>
    rw [fwReadBytes_succ]
    show (readByte c (fwReadBytes c s0 n) (u32 ((fwReadBytes c s0 n).a + (3 - n)))).1.time = _
    rw [readByte_time, ih, (fwReadBytes_fields c s0 n).1]
    simp only [countBelow]
    split_ifs <;> ring

/-- A request of the four-way cache waits `cacheLatency` once and `memoryLatency` for
every byte that misses. -/
theorem fwRequest_time (c : FWConfig) (s : FWState) (r : Request) :
    (fwRequest c s r).1.time = s.time + (c.cacheLatency + c.memoryLatency * fwMissBytes c s r) := by
  unfold fwRequest fwMissBytes
  by_cases hw : r.we = true
  · simp only [hw, if_true, fwWrite_eq]
    show (fwWriteBytes c _ 4).time + c.cacheLatency = _
    rw [fwWriteBytes_time]
    dsimp only [fwStore]
    ring
  · simp only [hw, if_false, fwRead_eq]
    show (fwReadBytes c _ 4).time + c.cacheLatency = _
    rw [fwReadBytes_time]
    simp only [Bool.false_eq_true, if_false]
    show s.time + _ + _ = _
    ring

/-- The time a module waits for a request is `cacheLatency + memoryLatency * m` with `m`
the number of bytes that miss. -/
theorem latency_eq (c : Cache) (r : Request) :
    c.latency r = c.cacheLatency + c.memoryLatency * c.missBytes r := by
  cases c with
  | direct c s =>
    simp only [Cache.latency, Cache.serve, Cache.time, dmRequest_time, Cache.cacheLatency,
      Cache.memoryLatency, Cache.missBytes]
    omega
  | fourway c s =>
    simp only [Cache.latency, Cache.serve, Cache.time, fwRequest_time, Cache.cacheLatency,
      Cache.memoryLatency, Cache.missBytes]
    omega

theorem serve_config (c : Cache) (r : Request) :
    (c.serve r).1.cacheLatency = c.cacheLatency ∧
      (c.serve r).1.memoryLatency = c.memoryLatency := by
  cases c <;> exact ⟨rfl, rfl⟩

theorem cacheAfter_config (c0 : Cache) (reqs : Nat → Request) (k : Nat) :
    (cacheAfter c0 reqs k).cacheLatency = c0.cacheLatency ∧
      (cacheAfter c0 reqs k).memoryLatency = c0.memoryLatency := by
  induction k with
  | zero => exact ⟨rfl, rfl⟩
  | succ k ih =>
    have h := serve_config (cacheAfter c0 reqs k) (reqs k)
    exact ⟨h.1.trans ih.1, h.2.trans ih.2⟩

/-- With a cache latency of at least one cycle the requests are handed over back to back:
request `k` starts when the service times of the requests before it have passed. -/
theorem startEdge_eq_serviceTime (c0 : Cache) (reqs : Nat → Request)
    (hcl : 1 ≤ c0.cacheLatency) (k : Nat) : startEdge c0 reqs k = serviceTime c0 reqs k := by
  induction k with
  | zero => rfl
  | succ k ih =>
    have hc := cacheAfter_config c0 reqs k
    simp only [startEdge, serviceTime, ih, Cache.occupancy, Cache.readyAfter, latency_eq, hc.1,
      hc.2]
    have : ¬ c0.cacheLatency = 0 := by omega
    rw [if_neg this]
    omega

theorem serve_counters (c : Cache) (r : Request) :
    (c.serve r).1.hits + (c.serve r).1.misses = c.hits + c.misses + 1 := by
  cases c with
  | direct c s =>
    have h := dmRequest_counters c s r
    simp only [Cache.serve, Cache.hits, Cache.misses]
    omega
  | fourway c s =>
    have h := fwRequest_counters c s r
    simp only [Cache.serve, Cache.hits, Cache.misses]
    omega

/-- The counters of the module count the requests it has completed. -/
theorem cacheAfter_counters (c0 : Cache) (reqs : Nat → Request) (k : Nat) :
    (cacheAfter c0 reqs k).hits + (cacheAfter c0 reqs k).misses = c0.hits + c0.misses + k := by
  induction k with
  | zero => rfl
  | succ k ih =>
    have h := serve_counters (cacheAfter c0 reqs k) (reqs k)
    simp only [cacheAfter]
    omega

theorem startEdge_mono (c0 : Cache) (reqs : Nat → Request) (k : Nat) :
    ∀ m, k ≤ m → startEdge c0 reqs k + (m - k) ≤ startEdge c0 reqs m := by
  intro m
  induction m with
  | zero =>
    intro h
    have h0 : k = 0 := by omega
    subst h0
    simp
  | succ m ih =>
    intro h
    rcases Nat.eq_or_lt_of_le h with h1 | h1
    · rw [h1]; simp
    · have h2 := ih (by omega)
      have h3 := occupancy_pos (cacheAfter c0 reqs m) (reqs m)
      simp only [startEdge]
      omega

/-! ## The run of `run_simulation` -/

theorem simCache_fields (dm : Int) (N S cl ml : Nat) :
    (simCache dm N S cl ml).cacheLatency = cl ∧ (simCache dm N S cl ml).memoryLatency = ml ∧
      (simCache dm N S cl ml).hits = 0 ∧ (simCache dm N S cl ml).misses = 0 := by
  unfold simCache
  split_ifs <;> exact ⟨rfl, rfl, rfl, rfl⟩

theorem simInit_core (cycles dm : Int) (N S cl ml n : Nat) (reqs : Nat → Request) :
    SimCore (simCache dm N S cl ml) reqs n (toSizeT cycles)
      (simInit cycles dm N S cl ml n reqs) 0 := by
  refine ⟨rfl, rfl, rfl, rfl, ?_, Nat.zero_le _, Or.inl ⟨rfl, rfl, rfl, rfl, rfl⟩⟩
  funext j
  simp [simInit, storedAfter]

/-- The loop of the CPU, started by `run_simulation` on a trace of at least one request,
stops; the state in which it stops is related to the trace, all requests are completed
exactly when the budget (or one cycle, for a budget of 0) covers the time they occupy, and
the result is read off that state. -/
theorem runSimulation_core (cycles dm : Int) (N S cl ml n : Nat) (reqs : Nat → Request)
    (hn : 1 ≤ n) :
    ∃ st k res, cpuLoop (toSizeT cycles + 1) (simInit cycles dm N S cl ml n reqs) = some st ∧
      SimCore (simCache dm N S cl ml) reqs n (toSizeT cycles) st k ∧
      ((st.ready = true ∧ n ≤ st.currentRequest) ↔
        startEdge (simCache dm N S cl ml) reqs n ≤ max (toSizeT cycles) 1) ∧
      ((st.ready = true ∧ n ≤ st.currentRequest) → k = n) ∧
      k = (if st.ready then st.currentRequest else st.currentRequest - 1) ∧
      runSimulation cycles dm N S cl ml n reqs = some (res, st.requests) ∧
      res.cycles = (if st.currentRequest < n ∨ st.ready = false then sizeMax else st.cycles) ∧
      res.hits = st.cache.hits ∧ res.misses = st.cache.misses := by
  have h0 := simInit_core cycles dm N S cl ml n reqs
  obtain ⟨st, k, e, c, x, l, u⟩ := cpuLoop_core (simCache dm N S cl ml) reqs n (toSizeT cycles)
    (toSizeT cycles + 1) (simInit cycles dm N S cl ml n reqs) 0 h0 (fun _ => hn)
    (by show max _ 1 ≤ 0 + _; omega) (by show 0 < max _ 1; omega)
  obtain ⟨c1, c2, c3, c4, c6, c7, c8⟩ := c
  have hmono := startEdge_mono (simCache dm N S cl ml) reqs
  have hf : (cpuFinish st).cache = st.cache ∧ (cpuFinish st).requests = st.requests := by
    unfold cpuFinish
    split_ifs <;> exact ⟨rfl, rfl⟩
  refine ⟨st, k,
    ⟨(cpuFinish st).cycles, st.cache.misses, st.cache.hits,
      (if dm ≠ 0 then gateCountDirect N S else gateCountFourway N S) +
        (100 - (if dm ≠ 0 then gateCountDirect N S else gateCountFourway N S) % 100)⟩,
    e, ⟨c1, c2, c3, c4, c6, c7, c8⟩, ?_, ?_, ?_, ?_, ?_, rfl, rfl⟩
  · constructor
    · rintro ⟨hr, hc⟩
      rcases c8 with ⟨_, _, r3, r4, _⟩ | ⟨r1, _⟩
      · have : k = n := by omega
        rw [← this, ← r4]; exact u
      · rw [hr] at r1; exact Bool.noConfusion r1
    · intro hs
      by_contra hnc
      have hB : toSizeT cycles ≤ st.now := by
        rcases x with hx | hx
        · exact absurd hx hnc
        · omega
      have h1 : 1 ≤ st.now := l
      rcases c8 with ⟨r1, _, r3, r4, _⟩ | ⟨_, r2, _, _, _, r6, _⟩
      · have hk : k < n := by
          by_contra hk
          exact hnc ⟨r1, by omega⟩
        have := hmono k n (le_of_lt hk)
        omega
      · have := hmono (k + 1) n r2
        omega
  · rintro ⟨hr, hc⟩
    rcases c8 with ⟨_, _, r3, _⟩ | ⟨r1, _⟩
    · omega
    · rw [hr] at r1; exact Bool.noConfusion r1
  · rcases c8 with ⟨r1, _, r3, _⟩ | ⟨r1, _, r3, _⟩
    · simp [r1, r3]
    · simp [r1, r3]
  · have e1 : cpuRun (simInit cycles dm N S cl ml n reqs) = some (cpuFinish st) := by
      show Option.map cpuFinish
        (cpuLoop (toSizeT cycles + 1) (simInit cycles dm N S cl ml n reqs)) = _
      rw [e]
      rfl
    simp only [runSimulation, e1, hf.1, hf.2]
  · show (cpuFinish st).cycles = _
    unfold cpuFinish
    rw [c1]
    by_cases hc : st.currentRequest < n <;> cases hr : st.ready <;> simp [hc, hr]

/-! ## Results of `run_simulation` -/

/-- The result of `run_simulation` on a trace of at least one request, in terms of the
state in which the CPU stops.  The counters are those of the module after the `j` requests
whose service the cache has finished: all requests handed over when `ready` is seen
raised, and otherwise all but the last or, when the final wait of 0 ns of the last ends
in the delta cycle in which the CPU stops, all of them. -/
theorem runSimulation_result (cycles dm : Int) (N S cl ml n : Nat) (reqs : Nat → Request)
    (hn : 1 ≤ n) :
    ∃ st res j, cpuLoop (toSizeT cycles + 1) (simInit cycles dm N S cl ml n reqs) = some st ∧
      runSimulation cycles dm N S cl ml n reqs = some (res, st.requests) ∧
      ((st.ready = true ∧ n ≤ st.currentRequest) ↔
        startEdge (simCache dm N S cl ml) reqs n ≤ max (toSizeT cycles) 1) ∧
      ((st.ready = true ∧ n ≤ st.currentRequest) →
        res.cycles = startEdge (simCache dm N S cl ml) reqs n ∧
        st.requests = storedAfter (simCache dm N S cl ml) reqs n ∧ st.currentRequest = n) ∧
      (¬(st.ready = true ∧ n ≤ st.currentRequest) → res.cycles = sizeMax) ∧
      st.cache = cacheAfter (simCache dm N S cl ml) reqs j ∧
      res.hits + res.misses = j ∧
      (st.ready = true → j = st.currentRequest) ∧
      (st.ready = false → 1 ≤ st.currentRequest ∧
        (j = st.currentRequest - 1 ∨ (j = st.currentRequest ∧ cl = 0))) := by
  obtain ⟨st, k, res, e, c, hiff, hk, hkv, hrun, hcyc, hh, hm⟩ :=
    runSimulation_core cycles dm N S cl ml n reqs hn
  obtain ⟨c1, c2, c3, c4, c6, c7, c8⟩ := c
  have hs := simCache_fields dm N S cl ml
  have hj : ∃ j, st.cache = cacheAfter (simCache dm N S cl ml) reqs j ∧
      (st.ready = true → j = st.currentRequest) ∧
      (st.ready = false → 1 ≤ st.currentRequest ∧
        (j = st.currentRequest - 1 ∨ (j = st.currentRequest ∧ cl = 0))) := by
    rcases c8 with ⟨r1, _, r3, _, r5⟩ | ⟨r1, _, r3, _, r5, r6, r7⟩
    · exact ⟨k, r5, fun _ => r3.symm, fun hr => by rw [r1] at hr; exact Bool.noConfusion hr⟩
    · refine ⟨_, r7, fun hr => by rw [r1] at hr; exact Bool.noConfusion hr, fun _ => ⟨by omega, ?_⟩⟩
      by_cases hp : startEdge (simCache dm N S cl ml) reqs k +
          (cacheAfter (simCache dm N S cl ml) reqs k).latency (reqs k) ≤ st.now
      · rw [if_pos hp]
        refine Or.inr ⟨r3.symm, ?_⟩
        by_contra hcl
        have hc := (cacheAfter_config (simCache dm N S cl ml) reqs k).1
        rw [hs.1] at hc
        simp only [startEdge, Cache.occupancy, Cache.readyAfter, hc, if_neg hcl] at r6
        omega
      · rw [if_neg hp]
        exact Or.inl (by omega)
  obtain ⟨j, hj1, hj2, hj3⟩ := hj
  refine ⟨st, res, j, e, hrun, hiff, ?_, ?_, hj1, ?_, hj2, hj3⟩
  · intro hc
    have hkn := hk hc
    rcases c8 with ⟨r1, _, r3, r4, _⟩ | ⟨r1, _⟩
    · refine ⟨?_, ?_, ?_⟩
      · rw [hcyc, if_neg (by rw [r1]; simp; omega), c4, c3, r4, hkn]
      · rw [c6, hkn]
      · omega
    · rw [hc.1] at r1; exact Bool.noConfusion r1
  · intro hc
    rw [hcyc, if_pos]
    by_contra hx
    apply hc
    cases hr : st.ready
    · exact absurd (Or.inr hr) hx
    · exact ⟨rfl, by
        by_contra hlt
        exact hx (Or.inl (by omega))⟩
  · have hcnt := cacheAfter_counters (simCache dm N S cl ml) reqs j
    rw [hh, hm, hj1, hcnt, hs.2.2.1, hs.2.2.2]
    omega

/-! ## Cycle counts -/

theorem serviceTime_succ_sim (dm : Int) (N S cl ml : Nat) (reqs : Nat → Request) (k : Nat) :
    serviceTime (simCache dm N S cl ml) reqs (k + 1) =
      serviceTime (simCache dm N S cl ml) reqs k +
        (cl + ml * (cacheAfter (simCache dm N S cl ml) reqs k).missBytes (reqs k)) := by
  have hs := simCache_fields dm N S cl ml
  simp only [serviceTime, hs.1, hs.2.1]

/-- C15: with a cache latency of at least 1 and a trace of at least one request, the CPU
stops with all requests completed exactly when the sum over the requests of
`cacheLatency + memoryLatency * m` (`m` the number of bytes of the request that miss) is
within the budget, and then `Result.cycles` is this sum; in scenario 1 one byte misses and
the result is 11. -/
theorem cycles_are_sum_of_service_times :
    (∀ (cycles dm : Int) (N S cl ml n : Nat) (reqs : Nat → Request), 1 ≤ cl → 1 ≤ n →
      (serviceTime (simCache dm N S cl ml) reqs 0 = 0 ∧
        ∀ k, serviceTime (simCache dm N S cl ml) reqs (k + 1) =
          serviceTime (simCache dm N S cl ml) reqs k +
            (cl + ml * (cacheAfter (simCache dm N S cl ml) reqs k).missBytes (reqs k))) ∧
      ∃ st res reqs1,
        cpuLoop (toSizeT cycles + 1) (simInit cycles dm N S cl ml n reqs) = some st ∧
        runSimulation cycles dm N S cl ml n reqs = some (res, reqs1) ∧
        ((st.ready = true ∧ n ≤ st.currentRequest) ↔
          serviceTime (simCache dm N S cl ml) reqs n ≤ max (toSizeT cycles) 1) ∧
        ((st.ready = true ∧ n ≤ st.currentRequest) →
          res.cycles = serviceTime (simCache dm N S cl ml) reqs n)) ∧
    ((simCache 1 4 16 1 10).missBytes (writeReq 0 0xDEADBEEF) = 1 ∧
      serviceTime (simCache 1 4 16 1 10) (arrayOf [writeReq 0 0xDEADBEEF]) 1 = 11 ∧
      (runSimulation 10000 1 4 16 1 10 1 (arrayOf [writeReq 0 0xDEADBEEF])).map
        (fun p => p.1.cycles) = some 11) := by
  refine ⟨?_, by decide, by decide, by decide⟩
  intro cycles dm N S cl ml n reqs hcl hn
  refine ⟨⟨rfl, serviceTime_succ_sim dm N S cl ml reqs⟩, ?_⟩
  obtain ⟨st, res, _, e, hrun, hiff, hdone, _⟩ :=
    runSimulation_result cycles dm N S cl ml n reqs hn
  have hs := startEdge_eq_serviceTime (simCache dm N S cl ml) reqs
    (by rw [(simCache_fields dm N S cl ml).1]; exact hcl) n
  rw [hs] at hiff hdone
  exact ⟨st, res, st.requests, e, hrun, hiff, fun hc => (hdone hc).1⟩

/-- C16: on a trace of at least one request that does not occupy exactly `SIZE_MAX` cycles
(no run within the 64-bit picosecond time of the simulator does), `Result.cycles` is
`SIZE_MAX` if and only if the CPU stops with a request not handed over or with `ready`
false.  The counters add up to the number `j` of requests whose service the cache has
finished: the requests handed over when `ready` is raised, and otherwise those before the
request in flight, or these and the request in flight when the cache latency is 0 and the
cache publishes its counters in the delta cycle in which the CPU stops. -/
theorem sentinel_iff_request_left (cycles dm : Int) (N S cl ml n : Nat) (reqs : Nat → Request)
    (hn : 1 ≤ n) (hT : startEdge (simCache dm N S cl ml) reqs n ≠ sizeMax) :
    ∃ st res reqs1 j,
      cpuLoop (toSizeT cycles + 1) (simInit cycles dm N S cl ml n reqs) = some st ∧
      runSimulation cycles dm N S cl ml n reqs = some (res, reqs1) ∧
      (res.cycles = sizeMax ↔ (st.currentRequest < n ∨ st.ready = false)) ∧
      st.cache = cacheAfter (simCache dm N S cl ml) reqs j ∧
      res.hits + res.misses = j ∧
      (st.ready = true → j = st.currentRequest) ∧
      (st.ready = false → 1 ≤ st.currentRequest ∧
        (j = st.currentRequest - 1 ∨ (j = st.currentRequest ∧ cl = 0))) := by
  obtain ⟨st, res, j, e, hrun, _, hdone, hleft, hcache, hcnt, hj1, hj2⟩ :=
    runSimulation_result cycles dm N S cl ml n reqs hn
  refine ⟨st, res, st.requests, j, e, hrun, ?_, hcache, hcnt, hj1, hj2⟩
  constructor
  · intro hc
    by_contra hx
    have hcomp : st.ready = true ∧ n ≤ st.currentRequest := by
      constructor
      · cases hr : st.ready
        · exact absurd (Or.inr hr) hx
        · rfl
      · by_contra hlt
        exact hx (Or.inl (by omega))
    exact hT ((hdone hcomp).1.symm.trans hc)
  · intro hx
    apply hleft
    rintro ⟨hr, hc⟩
    rcases hx with hx | hx
    · omega
    · rw [hr] at hx; exact Bool.noConfusion hx

theorem sentinel_iff_request_left_witness :
    1 ≤ 1 ∧ startEdge (simCache 1 4 16 1 10) (arrayOf [readReq 0]) 1 ≠ sizeMax ∧
    ∃ st res reqs1 j,
      cpuLoop (toSizeT 1 + 1) (simInit 1 1 4 16 1 10 1 (arrayOf [readReq 0])) = some st ∧
      runSimulation 1 1 4 16 1 10 1 (arrayOf [readReq 0]) = some (res, reqs1) ∧
      (res.cycles = sizeMax ↔ (st.currentRequest < 1 ∨ st.ready = false)) ∧
      st.cache = cacheAfter (simCache 1 4 16 1 10) (arrayOf [readReq 0]) j ∧
      res.hits + res.misses = j ∧
      (st.ready = true → j = st.currentRequest) ∧
      (st.ready = false → 1 ≤ st.currentRequest ∧
        (j = st.currentRequest - 1 ∨ (j = st.currentRequest ∧ 1 = 0))) :=
  ⟨by decide, by decide,
    sentinel_iff_request_left 1 1 4 16 1 10 1 (arrayOf [readReq 0]) (by decide) (by decide)⟩

/-! ## A budget of one cycle -/

theorem countBelow_pos (p : Nat → Bool) (h : p 0 = true) : ∀ n, 1 ≤ countBelow p (n + 1) := by
  intro n
  induction n with
  | zero => simp [countBelow, h]
  | succ n ih =>
    have e : countBelow p (n + 1 + 1) = countBelow p (n + 1) + (if p (n + 1) then 1 else 0) := rfl
    omega

/-- The first byte of the first request misses: no line of a new cache is resident. -/
theorem missBytes_init_pos (dm : Int) (N S cl ml : Nat) (r : Request) :
    1 ≤ (simCache dm N S cl ml).missBytes r := by
  unfold simCache
  split_ifs
  · apply countBelow_pos
    cases hw : r.we <;> simp [dmWriteBefore, dmReadBefore, dmMiss, DMState.init, CacheLine.empty]
  · apply countBelow_pos
    cases hw : r.we <;>
      simp [fwWriteBytes, fwReadBytes, fwLookup, fwStore, FWState.init]

/-- C17 (counterexample): a direct-mapped cache of 4 lines of 16 bytes with cache latency 1
and memory latency 0 completes the trace of one read within a budget of 1; the result is 1
cycle, not the sentinel. -/
theorem budget_one_counterexample :
    (runSimulation 1 1 4 16 1 0 1 (arrayOf [readReq 0])).map (fun p => p.1.cycles) = some 1 ∧
    ¬ (runSimulation 1 1 4 16 1 0 1 (arrayOf [readReq 0])).map (fun p => p.1.cycles)
        = some sizeMax := by
  decide

/-- C17 (amended): with a budget of 1 and a trace of at least one request, `Result.cycles`
is the sentinel if and only if the trace has a second request, the cache latency is at
least 2, or the memory latency is at least 1; otherwise it is 1. -/
theorem budget_one_sentinel_iff (dm : Int) (N S cl ml n : Nat) (reqs : Nat → Request)
    (hn : 1 ≤ n) :
    ∃ res reqs1, runSimulation 1 dm N S cl ml n reqs = some (res, reqs1) ∧
      (res.cycles = sizeMax ↔ (2 ≤ n ∨ 2 ≤ cl ∨ 1 ≤ ml)) ∧
      (res.cycles ≠ sizeMax → res.cycles = 1) := by
  obtain ⟨st, res, _, e, hrun, hiff, hdone, hleft, _⟩ :=
    runSimulation_result 1 dm N S cl ml n reqs hn
  have hB : max (toSizeT 1) 1 = 1 := by decide
  rw [hB] at hiff
  have hs := simCache_fields dm N S cl ml
  have hm := missBytes_init_pos dm N S cl ml (reqs 0)
  have hmono := startEdge_mono (simCache dm N S cl ml) reqs 1 n hn
  have hpos := occupancy_pos (simCache dm N S cl ml) (reqs 0)
  have h1 : startEdge (simCache dm N S cl ml) reqs 1 =
      (simCache dm N S cl ml).occupancy (reqs 0) := by
    simp [startEdge, cacheAfter]
  have hocc : (simCache dm N S cl ml).occupancy (reqs 0) ≤ 1 ↔ (cl ≤ 1 ∧ ml = 0) := by
    simp only [Cache.occupancy, Cache.readyAfter, latency_eq, hs.1, hs.2.1]
    constructor
    · intro h
      have hml : ml = 0 := by
        by_contra hne
        have : 1 * 1 ≤ ml * (simCache dm N S cl ml).missBytes (reqs 0) :=
          Nat.mul_le_mul (by omega) hm
        split_ifs at h <;> omega
      refine ⟨?_, hml⟩
      subst hml
      split_ifs at h <;> omega
    · rintro ⟨hc, hml⟩
      subst hml
      split_ifs <;> simp <;> omega
  have hcomp : (st.ready = true ∧ n ≤ st.currentRequest) ↔ (n = 1 ∧ cl ≤ 1 ∧ ml = 0) := by
    rw [hiff]
    constructor
    · intro h
      have hn1 : n = 1 := by omega
      refine ⟨hn1, hocc.1 ?_⟩
      rw [← h1]
      rw [hn1] at h
      exact h
    · rintro ⟨hn1, hc⟩
      rw [hn1, h1]
      exact hocc.2 hc
  have hone : (1 : Nat) ≠ sizeMax := by decide
  refine ⟨res, st.requests, hrun, ?_, ?_⟩
  · constructor
    · intro hc
      by_contra hx
      have hfin : st.ready = true ∧ n ≤ st.currentRequest := hcomp.2 (by omega)
      have hcy := (hdone hfin).1
      have : startEdge (simCache dm N S cl ml) reqs n ≤ 1 := hiff.1 hfin
      rw [hcy] at hc
      rw [hc] at this
      exact absurd this (by decide)
    · intro hx
      apply hleft
      intro hfin
      have := hcomp.1 hfin
      omega
  · intro hne
    have hfin : st.ready = true ∧ n ≤ st.currentRequest := by
      by_contra hx
      exact hne (hleft hx)
    have hcy := (hdone hfin).1
    have hle : startEdge (simCache dm N S cl ml) reqs n ≤ 1 := hiff.1 hfin
    omega

theorem budget_one_sentinel_iff_witness :
    1 ≤ 2 ∧
    ∃ res reqs1, runSimulation 1 0 4 16 0 0 2 (arrayOf [readReq 0, readReq 4]) = some (res, reqs1) ∧
      (res.cycles = sizeMax ↔ (2 ≤ 2 ∨ 2 ≤ 0 ∨ 1 ≤ 0)) ∧
      (res.cycles ≠ sizeMax → res.cycles = 1) :=
  ⟨by decide, budget_one_sentinel_iff 0 4 16 0 0 2 (arrayOf [readReq 0, readReq 4]) (by decide)⟩

/-! ## The request array after a run -/

/-- C18: on a trace of at least one request the CPU stops with all requests completed
exactly when the budget covers the cycles they occupy; then the array returned holds, for
every read request, the word the cache published for it in its `data` field, and is
otherwise unchanged: `addr` and `we` of every request and `data` of every write request
are as before the run. -/
theorem completed_run_stores_read_data (cycles dm : Int) (N S cl ml n : Nat)
    (reqs : Nat → Request) (hn : 1 ≤ n) :
    ∃ st res reqs1,
      cpuLoop (toSizeT cycles + 1) (simInit cycles dm N S cl ml n reqs) = some st ∧
      runSimulation cycles dm N S cl ml n reqs = some (res, reqs1) ∧
      ((st.ready = true ∧ n ≤ st.currentRequest) ↔
        startEdge (simCache dm N S cl ml) reqs n ≤ max (toSizeT cycles) 1) ∧
      ((st.ready = true ∧ n ≤ st.currentRequest) →
        ∀ j, (reqs1 j).addr = (reqs j).addr ∧ (reqs1 j).we = (reqs j).we ∧
          ((reqs j).we = true → (reqs1 j).data = (reqs j).data) ∧
          (j < n → (reqs j).we = false →
            (reqs1 j).data = published (simCache dm N S cl ml) reqs j) ∧
          (n ≤ j → reqs1 j = reqs j)) := by
  obtain ⟨st, res, _, e, hrun, hiff, hdone, _⟩ :=
    runSimulation_result cycles dm N S cl ml n reqs hn
  refine ⟨st, res, st.requests, e, hrun, hiff, ?_⟩
  intro hc j
  rw [(hdone hc).2.1]
  simp only [storedAfter]
  by_cases hj : j < n ∧ (reqs j).we = false
  · rw [if_pos hj]
    refine ⟨rfl, rfl, ?_, fun _ _ => rfl, ?_⟩
    · intro hw; rw [hj.2] at hw; exact Bool.noConfusion hw
    · intro hle; omega
  · rw [if_neg hj]
    refine ⟨rfl, rfl, fun _ => rfl, ?_, fun _ => rfl⟩
    intro h1 h2
    exact absurd ⟨h1, h2⟩ hj

theorem completed_run_stores_read_data_witness :
    1 ≤ 2 ∧
    (∃ st res reqs1,
      cpuLoop (toSizeT 10000 + 1)
        (simInit 10000 1 4 16 1 10 2 (arrayOf [writeReq 0 0xDEADBEEF, readReq 0])) = some st ∧
      runSimulation 10000 1 4 16 1 10 2 (arrayOf [writeReq 0 0xDEADBEEF, readReq 0])
        = some (res, reqs1) ∧
      ((st.ready = true ∧ 2 ≤ st.currentRequest) ↔
        startEdge (simCache 1 4 16 1 10) (arrayOf [writeReq 0 0xDEADBEEF, readReq 0]) 2
          ≤ max (toSizeT 10000) 1) ∧
      ((st.ready = true ∧ 2 ≤ st.currentRequest) →
        ∀ j, (reqs1 j).addr = (arrayOf [writeReq 0 0xDEADBEEF, readReq 0] j).addr ∧
          (reqs1 j).we = (arrayOf [writeReq 0 0xDEADBEEF, readReq 0] j).we ∧
          ((arrayOf [writeReq 0 0xDEADBEEF, readReq 0] j).we = true →
            (reqs1 j).data = (arrayOf [writeReq 0 0xDEADBEEF, readReq 0] j).data) ∧
          (j < 2 → (arrayOf [writeReq 0 0xDEADBEEF, readReq 0] j).we = false →
            (reqs1 j).data = published (simCache 1 4 16 1 10)
              (arrayOf [writeReq 0 0xDEADBEEF, readReq 0]) j) ∧
          (2 ≤ j → reqs1 j = arrayOf [writeReq 0 0xDEADBEEF, readReq 0] j))) ∧
    startEdge (simCache 1 4 16 1 10) (arrayOf [writeReq 0 0xDEADBEEF, readReq 0]) 2
      ≤ max (toSizeT 10000) 1 ∧
    published (simCache 1 4 16 1 10) (arrayOf [writeReq 0 0xDEADBEEF, readReq 0]) 1
      = 0xDEADBEEF :=
  ⟨by decide,
    completed_run_stores_read_data 10000 1 4 16 1 10 2
      (arrayOf [writeReq 0 0xDEADBEEF, readReq 0]) (by decide),
    by decide, by decide⟩

/-! ## The last line of the address space -/

theorem fwFillLine_last (c : FWConfig) (k : Nat) (hk : k < 32) (hS : c.cacheLineSize = 2 ^ k)
    (ho : c.offsetBitsCount = k) (m : Nat → Nat) (line : CacheLine) :
    fwLineBase c 0xFFFFFFFF = 2 ^ 32 - 2 ^ k ∧
      u32 (fwLineBase c 0xFFFFFFFF + c.cacheLineSize) = 0 ∧
      fwFillLine c m (fwLineBase c 0xFFFFFFFF) line = line := by
  have hb : fwLineBase c 0xFFFFFFFF = 2 ^ 32 - 2 ^ k := by
    unfold fwLineBase
    rw [ho]
    interval_cases k <;> decide
  have hz : u32 (fwLineBase c 0xFFFFFFFF + c.cacheLineSize) = 0 := by
    rw [hb, hS]
    interval_cases k <;> decide
  refine ⟨hb, hz, ?_⟩
  unfold fwFillLine
  rw [hz]
  simp

/-- C19: the fill of the last line of the address space wraps modulo `2 ^ 32`.  In the
four-way cache the bound `address + cacheLineSize` of the copy loop of `addToCache` is 0
for the line that holds 0xFFFFFFFF, whatever the line size, so the loop copies no byte: a
word written to 0xFFFFFFFC reads back as 0, while a word written to 0xFFFFFFEC reads back
as written.  In the direct-mapped cache the fill for the request at 0xFFFFFFFC visits the
main-memory addresses 0xFFFFFFF3 to 0xFFFFFFFF and then 0, 1 and 2. -/
theorem last_line_fill_wraps :
    (∀ (c : FWConfig) (k : Nat), k < 32 → c.cacheLineSize = 2 ^ k → c.offsetBitsCount = k →
      ∀ (m : Nat → Nat) (line : CacheLine),
        fwLineBase c 0xFFFFFFFF = 2 ^ 32 - 2 ^ k ∧
        u32 (fwLineBase c 0xFFFFFFFF + c.cacheLineSize) = 0 ∧
        fwFillLine c m (fwLineBase c 0xFFFFFFFF) line = line) ∧
    (fwRun (fwConfig 4 16 1 10) FWState.init
      [writeReq 0xFFFFFFFC 0xDEADBEEF, readReq 0xFFFFFFFC]).2 = [0xDEADBEEF, 0] ∧
    (fwRun (fwConfig 4 16 1 10) FWState.init
      [writeReq 0xFFFFFFEC 0xDEADBEEF, readReq 0xFFFFFFEC]).2 = [0xDEADBEEF, 0xDEADBEEF] ∧
    List.map (fun j => u32 (u32 (0xFFFFFFFC ^^^ (dmConfig 4 16 1 10).offsetBitsMask) + j))
      (List.range 16) =
      [0xFFFFFFF3, 0xFFFFFFF4, 0xFFFFFFF5, 0xFFFFFFF6, 0xFFFFFFF7, 0xFFFFFFF8, 0xFFFFFFF9,
        0xFFFFFFFA, 0xFFFFFFFB, 0xFFFFFFFC, 0xFFFFFFFD, 0xFFFFFFFE, 0xFFFFFFFF, 0, 1, 2] := by
  refine ⟨fun c k hk hS ho m line => fwFillLine_last c k hk hS ho m line, ?_, ?_, ?_⟩
  · decide
  · decide
  · decide

/-! ## Gate count -/

theorem umul_of_lt {a b : Nat} (h : a * b < 2 ^ 32) : umul a b = a * b := u32_of_lt h

theorem uadd_of_lt {a b : Nat} (h : a + b < 2 ^ 32) : uadd a b = a + b := u32_of_lt h

theorem usub_of_le {a b : Nat} (hb : b ≤ a) (ha : a < 2 ^ 32) : usub a b = a - b := by
  unfold usub u32
  have hb2 : b % 2 ^ 32 = b := Nat.mod_eq_of_lt (by omega)
  rw [hb2]
  omega

/-- The storage term of the gate count is the exact product when the product of the
extremes fits 32 bits. -/
theorem storageTerm_exact (N S m k : Nat) (hN : 1 ≤ N) (hmk : m + k ≤ 32)
    (hfit : N * 2 * (S * 8 + 32) < 2 ^ 32) :
    umul (umul N 2) (usub (usub (uadd (umul S 8) 32) m) k) = 2 * N * (8 * S + (32 - m - k)) := by
  have h1 : S * 8 + 32 ≤ N * 2 * (S * 8 + 32) := Nat.le_mul_of_pos_left _ (by omega)
  have h2 : N * 2 ≤ N * 2 * (S * 8 + 32) := Nat.le_mul_of_pos_right _ (by omega)
  have e1 : usub (S * 8 + 32) m = S * 8 + 32 - m := usub_of_le (by omega) (by omega)
  have e2 : usub (S * 8 + 32 - m) k = S * 8 + 32 - m - k := usub_of_le (by omega) (by omega)
  rw [umul_of_lt (show S * 8 < 2 ^ 32 by omega), uadd_of_lt (show S * 8 + 32 < 2 ^ 32 by omega),
    e1, e2, umul_of_lt (show N * 2 < 2 ^ 32 by omega)]
  have h3 : N * 2 * (S * 8 + 32 - m - k) ≤ N * 2 * (S * 8 + 32) :=
    Nat.mul_le_mul_left _ (by omega)
  rw [umul_of_lt (by omega)]
  have h4 : S * 8 + 32 - m - k = 8 * S + (32 - m - k) := by omega
  rw [h4, Nat.mul_comm N 2]

/-- For `2 ^ m` lines of `2 ^ k` bytes whose storage term fits 32 bits the direct-mapped
gate total is that of the formula. -/
theorem gateCountDirect_exact (m k : Nat) (hmk : m + k ≤ 32)
    (hfit : 2 ^ m * 2 * (2 ^ k * 8 + 32) < 2 ^ 32) :
    gateCountDirect (2 ^ m) (2 ^ k) = specGateCountDirect (2 ^ m) (2 ^ k) := by
  have e1 : usub 32 m = 32 - m := usub_of_le (by omega) (by norm_num)
  have e2 : usub (32 - m) k = 32 - m - k := usub_of_le (by omega) (by omega)
  unfold gateCountDirect specGateCountDirect
  simp only [log2_two_pow]
  rw [storageTerm_exact (2 ^ m) (2 ^ k) m k Nat.one_le_two_pow hmk hfit,
    umul_of_lt (show m * 4 < 2 ^ 32 by omega), umul_of_lt (show m * 4 * 2 < 2 ^ 32 by omega),
    e1, e2, umul_of_lt (show (32 - m - k) * 2 < 2 ^ 32 by omega)]
  omega

/-- For `2 ^ (s + 2)` lines of `2 ^ k` bytes, in `2 ^ s` sets, whose storage term fits 32
bits the four-way gate total is that of the formula. -/
theorem gateCountFourway_exact (s k : Nat) (hsk : s + k ≤ 32)
    (hfit : 2 ^ (s + 2) * 2 * (2 ^ k * 8 + 32) < 2 ^ 32) :
    gateCountFourway (2 ^ (s + 2)) (2 ^ k) = specGateCountFourway (2 ^ (s + 2)) (2 ^ k) := by
  have hsets : 2 ^ (s + 2) / 4 = 2 ^ s := by
    rw [pow_add]; norm_num
  have e1 : usub 32 s = 32 - s := usub_of_le (by omega) (by norm_num)
  have e2 : usub (32 - s) k = 32 - s - k := usub_of_le (by omega) (by omega)
  unfold gateCountFourway specGateCountFourway
  simp only [hsets, log2_two_pow]
  have hle : 2 ^ s ≤ 2 ^ (s + 2) := Nat.pow_le_pow_right (by norm_num) (by omega)
  have h2 : 2 ^ (s + 2) * 2 ≤ 2 ^ (s + 2) * 2 * (2 ^ k * 8 + 32) :=
    Nat.le_mul_of_pos_right _ (by omega)
  have h110 : 2 ^ s * 110 < 2 ^ 32 := by
    have : 2 ^ (s + 2) = 4 * 2 ^ s := by rw [pow_add]; ring
    have h5 : 2 ^ (s + 2) * 2 * 32 ≤ 2 ^ (s + 2) * 2 * (2 ^ k * 8 + 32) :=
      Nat.mul_le_mul_left _ (by omega)
    omega
  rw [storageTerm_exact (2 ^ (s + 2)) (2 ^ k) s k Nat.one_le_two_pow hsk hfit,
    umul_of_lt (show s * 4 < 2 ^ 32 by omega), umul_of_lt (show s * 4 * 2 < 2 ^ 32 by omega),
    e1, e2, umul_of_lt (show 2 * (32 - s - k) < 2 ^ 32 by omega),
    umul_of_lt (show 2 * (32 - s - k) * 4 < 2 ^ 32 by omega), umul_of_lt h110]
  omega

/-- C20: the gate total of `run_simulation` is computed term by term in 32-bit `unsigned`
arithmetic.  For 16384 lines of 16384 bytes the term of the storage cells exceeds `2 ^ 32`
and wraps: the direct-mapped total is 131192 where the formula gives 4295098488, the
four-way total is 647696 where the formula gives 4295614992.  For 4 lines of 16 bytes the
totals are those of the formula, 1300 and 1966, and so are the totals of every
configuration of power-of-two sizes for which `2 * N * (8 * S + 32)` is below `2 ^ 32`. -/
theorem gate_count_wraps_for_large_caches :
    (gateCountDirect 16384 16384 = 131192 ∧ specGateCountDirect 16384 16384 = 4295098488 ∧
      gateCountFourway 16384 16384 = 647696 ∧ specGateCountFourway 16384 16384 = 4295614992 ∧
      gateCountDirect 4 16 = 1300 ∧ specGateCountDirect 4 16 = 1300 ∧
      gateCountFourway 4 16 = 1966 ∧ specGateCountFourway 4 16 = 1966) ∧
    (∀ m k : Nat, m + k ≤ 32 → 2 ^ m * 2 * (2 ^ k * 8 + 32) < 2 ^ 32 →
      gateCountDirect (2 ^ m) (2 ^ k) = specGateCountDirect (2 ^ m) (2 ^ k)) ∧
    (∀ s k : Nat, s + k ≤ 32 → 2 ^ (s + 2) * 2 * (2 ^ k * 8 + 32) < 2 ^ 32 →
      gateCountFourway (2 ^ (s + 2)) (2 ^ k) = specGateCountFourway (2 ^ (s + 2)) (2 ^ k)) :=
  ⟨by decide, gateCountDirect_exact, gateCountFourway_exact⟩

/-! ## Rounding of the gate count -/

/-- The gate count `run_simulation` reports on a trace of at least one request is
`g + (100 - g % 100)` for the gate total `g` of the organisation and the sizes. -/
theorem runSimulation_gates (cycles dm : Int) (N S cl ml n : Nat) (reqs : Nat → Request)
    (hn : 1 ≤ n) :
    ∃ res reqs1, runSimulation cycles dm N S cl ml n reqs = some (res, reqs1) ∧
      res.primitiveGateCount = gateTotal dm N S + (100 - gateTotal dm N S % 100) := by
  obtain ⟨st, k, res, e, _, _, _, _, _, _, _, _⟩ :=
    runSimulation_core cycles dm N S cl ml n reqs hn
  have e1 : cpuRun (simInit cycles dm N S cl ml n reqs) = some (cpuFinish st) := by
    show Option.map cpuFinish
      (cpuLoop (toSizeT cycles + 1) (simInit cycles dm N S cl ml n reqs)) = _
    rw [e]
    rfl
  refine ⟨_, _, by simp only [runSimulation, e1]; rfl, rfl⟩

theorem roundExpr_eq (g : Nat) : g + (100 - g % 100) = (g / 100 + 1) * 100 := by
  omega

/-- C21: the reported gate count is `g + (100 - g % 100)`, the least multiple of 100 that
is greater than the gate total `g`.  A total that is a multiple of 100 is reported 100
higher: 4 direct-mapped lines of 16 bytes have the total 1300 and are reported as 1400. -/
theorem gate_count_rounding_skips_exact_multiples :
    (∀ (cycles dm : Int) (N S cl ml n : Nat) (reqs : Nat → Request), 1 ≤ n →
      ∃ res reqs1, runSimulation cycles dm N S cl ml n reqs = some (res, reqs1) ∧
        res.primitiveGateCount = (gateTotal dm N S / 100 + 1) * 100 ∧
        gateTotal dm N S < res.primitiveGateCount ∧
        (gateTotal dm N S % 100 = 0 → res.primitiveGateCount = gateTotal dm N S + 100)) ∧
    gateTotal 1 4 16 = 1300 ∧
    (runSimulation 10000 1 4 16 1 10 1 (arrayOf [readReq 0])).map
      (fun p => p.1.primitiveGateCount) = some 1400 := by
  refine ⟨?_, by decide, by decide⟩
  intro cycles dm N S cl ml n reqs hn
  obtain ⟨res, reqs1, hrun, hg⟩ := runSimulation_gates cycles dm N S cl ml n reqs hn
  refine ⟨res, reqs1, hrun, ?_, ?_, ?_⟩
  · rw [hg]; omega
  · rw [hg]; omega
  · intro h; rw [hg, h]

/-- C22: the gate count `run_simulation` reports is divisible by 100, for both
organisations and all sizes, latencies, budgets and traces of at least one request. -/
theorem gate_count_divisible_by_100 (cycles dm : Int) (N S cl ml n : Nat)
    (reqs : Nat → Request) (hn : 1 ≤ n) :
    ∃ res reqs1, runSimulation cycles dm N S cl ml n reqs = some (res, reqs1) ∧
      100 ∣ res.primitiveGateCount := by
  obtain ⟨res, reqs1, hrun, hg⟩ := runSimulation_gates cycles dm N S cl ml n reqs hn
  refine ⟨res, reqs1, hrun, ?_⟩
  rw [hg, roundExpr_eq]
  exact Dvd.intro_left _ rfl

theorem gate_count_divisible_by_100_witness :
    1 ≤ 1 ∧
    ∃ res reqs1, runSimulation 10000 0 8 32 2 20 1 (arrayOf [writeReq 4 7]) = some (res, reqs1) ∧
      100 ∣ res.primitiveGateCount :=
  ⟨by decide, gate_count_divisible_by_100 10000 0 8 32 2 20 1 (arrayOf [writeReq 4 7]) (by decide)⟩

/-- C23: for 512 direct-mapped lines of 64 bytes the terms of the gate total are 72, 34
and 541696, the total is 541802, and the reported gate count is 541900 on every trace of
at least one request, whatever the latencies and the budget. -/
theorem directmapped_512x64_gate_count :
    umul (umul (log2 512) 4) 2 = 72 ∧
    umul (usub (usub 32 (log2 512)) (log2 64)) 2 = 34 ∧
    umul (umul 512 2) (usub (usub (uadd (umul 64 8) 32) (log2 512)) (log2 64)) = 541696 ∧
    gateCountDirect 512 64 = 541802 ∧ specGateCountDirect 512 64 = 541802 ∧
    (∀ (cycles : Int) (cl ml n : Nat) (reqs : Nat → Request), 1 ≤ n →
      ∃ res reqs1, runSimulation cycles 1 512 64 cl ml n reqs = some (res, reqs1) ∧
        res.primitiveGateCount = 541900) ∧
    (runSimulation 10000 1 512 64 1 10 1 (arrayOf [readReq 0])).map
      (fun p => p.1.primitiveGateCount) = some 541900 := by
  refine ⟨by decide, by decide, by decide, by decide, by decide, ?_, by decide⟩
  intro cycles cl ml n reqs hn
  obtain ⟨res, reqs1, hrun, hg⟩ := runSimulation_gates cycles 1 512 64 cl ml n reqs hn
  refine ⟨res, reqs1, hrun, ?_⟩
  rw [hg]
  decide

/-! ## The miss fill of the direct-mapped cache -/

theorem dmFill_fold_last (m : Nat → Nat) (cla o : Nat) (n : Nat) (line : CacheLine) :
    ((List.range (n + 1)).foldl (fun (l : CacheLine) j =>
        { l with data := mapSet l.data o (m (u32 (cla + j))) }) line).data o
      = m (u32 (cla + n)) := by
  rw [List.range_succ, List.foldl_append]
  simp [mapSet]

/-- The fill loop of the direct-mapped cache writes the single byte `data[offset]`, which
ends as the main-memory byte at `(addr ^ offsetBitsMask) + cacheLineSize - 1`; every other
byte of the line is left as it was. -/
theorem dmFill_spec (c : DMConfig) (m : Nat → Nat) (line : CacheLine) (addr offset tag : Nat) :
    (dmFill c m line addr offset tag).valid = true ∧
    (dmFill c m line addr offset tag).tag = tag ∧
    (∀ o, o ≠ offset → (dmFill c m line addr offset tag).data o = line.data o) ∧
    (1 ≤ c.cacheLineSize →
      (dmFill c m line addr offset tag).data offset
        = m (u32 (u32 (addr ^^^ c.offsetBitsMask) + (c.cacheLineSize - 1)))) := by
  refine ⟨rfl, rfl, fun o ho => dmFill_data c m line addr offset tag o ho, ?_⟩
  intro hS
  obtain ⟨n, hn⟩ : ∃ n, c.cacheLineSize = n + 1 := ⟨c.cacheLineSize - 1, by omega⟩
  unfold dmFill
  simp only [hn, Nat.add_sub_cancel]
  exact dmFill_fold_last m _ offset n line

/-- C26: after the miss handling of a byte the line is valid and carries the byte's tag,
but the fill loop has stored every fetched byte at the one offset of the byte: that byte
ends as main memory at `(addr ^ offsetBitsMask) + cacheLineSize - 1` and no other byte of
the line is written.  With 4 lines of 16 bytes, after the write of 0x11223344 to 0x00 the
miss of the byte at 0x40 leaves 0x22 at offset 1 of the line where main memory holds 0 at
0x41, and the read of 0x40 returns 0x00223344. -/
theorem directmapped_fill_writes_one_byte :
    (∀ (c : DMConfig) (m : Nat → Nat) (line : CacheLine) (addr offset tag : Nat),
      (dmFill c m line addr offset tag).valid = true ∧
      (dmFill c m line addr offset tag).tag = tag ∧
      (∀ o, o ≠ offset → (dmFill c m line addr offset tag).data o = line.data o) ∧
      (1 ≤ c.cacheLineSize →
        (dmFill c m line addr offset tag).data offset
          = m (u32 (u32 (addr ^^^ c.offsetBitsMask) + (c.cacheLineSize - 1))))) ∧
    dmMiss (dmConfig 4 16 1 10)
      (dmRun (dmConfig 4 16 1 10) DMState.init [writeReq 0x00 0x11223344]).1 0x40 0 = true ∧
    ((dmReadByte (dmConfig 4 16 1 10) 0x40
        ((dmRun (dmConfig 4 16 1 10) DMState.init [writeReq 0x00 0x11223344]).1, true, 0)
        0).1.cache 0).data 1 = 0x22 ∧
    (dmRun (dmConfig 4 16 1 10) DMState.init [writeReq 0x00 0x11223344]).1.mainMemory 0x41 = 0 ∧
    (dmRun (dmConfig 4 16 1 10) DMState.init [writeReq 0x00 0x11223344, readReq 0x40]).2
      = [0x11223344, 0x00223344] := by
  refine ⟨dmFill_spec, ?_, ?_, ?_, ?_⟩ <;> decide

/-! ## A byte hit of `writeByte` -/

/-- C27: a byte hit of `writeByte` leaves the stored lines as they were, because the
assignment `r.data[offset] = val` goes to the loop variable, a copy of the line.  After
the read of 0x00 has filled the line with zeros, `writeByte(0x00, 0xAB)` finds the line and
the stored line still holds 0 at offset 0. -/
theorem fourway_writeByte_hit_changes_no_line :
    (∀ (c : FWConfig) (s : FWState) (x v : Nat) (r : CacheLine), fwLookup c s x = some r →
      (writeByte c s x v).cacheMem = s.cacheMem) ∧
    (fwLookup (fwConfig 4 16 1 10)
      (fwRun (fwConfig 4 16 1 10) FWState.init [readReq 0x00]).1 0x00).isSome = true ∧
    ((writeByte (fwConfig 4 16 1 10)
        (fwRun (fwConfig 4 16 1 10) FWState.init [readReq 0x00]).1 0x00 0xAB).cacheMem 0).map
      (fun l => (l.tag, l.valid, l.data 0)) = [(0, true, 0)] := by
  refine ⟨fun c s x v r h => (writeByte_hit c s x v r h).1, ?_, ?_⟩ <;> decide

/-! ## The line appended by `addToCache` -/

theorem fwFillLine_wrap (c : FWConfig) (m : Nat → Nat) (base : Nat) (line : CacheLine)
    (h : base + c.cacheLineSize = 2 ^ 32) : fwFillLine c m base line = line := by
  unfold fwFillLine
  have hz : u32 (base + c.cacheLineSize) = 0 := by rw [h]; decide
  rw [hz]
  simp

/-- C28: the line `addToCache` appends for the line base of a 32-bit address `a` is the last
of the set of `a`, is valid and carries the tag of `a`.  It holds the bytes of main memory
from the line base on when the line ends below `2 ^ 32`; for the last line of the address
space the bound `address + cacheLineSize` of the copy loop is 0 and the line holds zeros,
whatever main memory holds.  After the write of 0xDEADBEEF to 0xFFFFFFFC with 4 lines of
16 bytes main memory holds 0xDE at 0xFFFFFFFC and the appended line holds 0 at offset 12. -/
theorem fourway_fill_of_last_line_copies_nothing :
    (∀ (c : FWConfig) (k sb : Nat), FWPow2 c k sb → ∀ (s : FWState) (a : Nat), a < 2 ^ 32 →
      ∃ line, ((addToCache c s (fwLineBase c a)).cacheMem (fwSetIndex c a)).getLast? = some line ∧
        line.tag = fwTag c a ∧ line.valid = true ∧
        (fwLineBase c a + 2 ^ k < 2 ^ 32 →
          ∀ j < 2 ^ k, line.data j = s.mainMem (fwLineBase c a + j)) ∧
        (fwLineBase c a + 2 ^ k = 2 ^ 32 → ∀ j, line.data j = 0)) ∧
    (fwRun (fwConfig 4 16 1 10) FWState.init
      [writeReq 0xFFFFFFFC 0xDEADBEEF]).1.mainMem 0xFFFFFFFC = 0xDE ∧
    ((fwRun (fwConfig 4 16 1 10) FWState.init
      [writeReq 0xFFFFFFFC 0xDEADBEEF]).1.cacheMem 0).map
        (fun l => (l.tag, l.valid, l.data 12)) = [(0xFFFFFFF, true, 0)] := by
  refine ⟨?_, by decide, by decide⟩
  intro c k sb hp s a ha
  have hset := fwSetIndex_lineBase c a ha
  have htag := fwTag_lineBase c a ha
  refine ⟨fwFillLine c s.mainMem (fwLineBase c a) ⟨fwTag c (fwLineBase c a), true, fun _ => 0⟩,
    ?_, ?_, ?_, ?_, ?_⟩
  · simp only [addToCache, hset, mapSet_apply, if_true]
    exact List.getLast?_concat _
  · rw [fwFillLine_tag, htag]
  · rw [fwFillLine_valid]
  · intro hlt j hj
    have hb : fwLineBase c a % 2 ^ k = 0 := by
      rw [fwLineBase_eq c a ha, hp.2.2.1, Nat.shiftLeft_eq]
      exact Nat.mul_mod_left _ _
    exact fwFillLine_copy c k sb hp s.mainMem _ hb hlt _ j hj
  · intro heq j
    rw [fwFillLine_wrap c s.mainMem _ _ (by rw [hp.2.1]; exact heq)]

/-! ## Hits leave the sets as they are -/

theorem fwTagsAfter_of_mem (c : FWConfig) (addr : Nat → Nat) (T : Nat → List Nat) (n : Nat)
    (h : ∀ i < n, fwTag c (addr i) ∈ T (fwSetIndex c (addr i))) :
    fwTagsAfter c addr T n = T := by
  induction n with
  | zero => rfl
  | succ n ih =>
    rw [fwTagsAfter_succ, ih (fun i hi => h i (by omega))]
    exact fwTouch_of_mem T _ _ (h n (by omega))

/-- A request whose four bytes find their tags resident leaves the tags of every set, and
their order, as they were. -/
theorem fwRequest_tags_of_resident (c : FWConfig) (s : FWState) (r : Request)
    (h : ∀ i < 4, fwTag c (u32 (r.addr + i)) ∈ fwTags s (fwSetIndex c (u32 (r.addr + i)))) :
    fwTags (fwRequest c s r).1 = fwTags s := by
  rw [fwRequest_tags]
  split_ifs
  · apply fwTagsAfter_of_mem
    intro i hi
    simp only [u32_u32_add]
    exact h i hi
  · apply fwTagsAfter_of_mem
    intro j hj
    simp only [u32_u32_add]
    exact h (3 - j) (by omega)

theorem fifoStep_distinct (A B C D E h m : Nat) (hd : [A, B, C, D, E].Nodup) :
    [A, B, C, D].foldl fifoStep ([], h, m) = ([A, B, C, D], h, m + 4) ∧
    [A, B, C, D, A].foldl fifoStep ([], h, m) = ([A, B, C, D], h + 1, m + 4) ∧
    [A, B, C, D, A, E].foldl fifoStep ([], h, m) = ([B, C, D, E], h + 1, m + 5) := by
  simp only [List.nodup_cons, List.mem_cons, List.mem_singleton, not_or, List.not_mem_nil,
    not_false_eq_true, List.nodup_nil, and_true] at hd
  obtain ⟨⟨h1, h2, h3, h4⟩, ⟨h5, h6, h7⟩, ⟨h8, h9⟩, h10⟩ := hd
  have e1 : ¬ B = A := fun e => h1 e.symm
  have e2 : ¬ C = A := fun e => h2 e.symm
  have e3 : ¬ C = B := fun e => h5 e.symm
  have e4 : ¬ D = A := fun e => h3 e.symm
  have e5 : ¬ D = B := fun e => h6 e.symm
  have e6 : ¬ D = C := fun e => h8 e.symm
  have e7 : ¬ E = A := fun e => h4 e.symm
  have e8 : ¬ E = B := fun e => h7 e.symm
  have e9 : ¬ E = C := fun e => h9 e.symm
  have e10 : ¬ E = D := fun e => h10 e.symm
  refine ⟨?_, ?_, ?_⟩ <;>
    simp [fifoStep, fifoPush, e1, e2, e3, e4, e5, e6, e7, e8, e9, e10]

/-- C29: a four-way request counted as a hit, or whose four bytes find their tags
resident, leaves the tags of every set and their order unchanged.  Consequently, in a cache
whose lines have at least four bytes, after aligned requests with the pairwise distinct
tags A, B, C, D, E of one set, served from a state in which the set is empty in the order
A, B, C, D, A, E: the set holds A, B, C, D after the first four and still after the
repeated A, which is a hit, and the request with tag E evicts A and leaves B, C, D, E. -/
theorem fourway_hit_keeps_fifo_order :
    (∀ (c : FWConfig) (s : FWState) (r : Request),
      (fwRequest c s r).1.hits = s.hits + 1 → fwTags (fwRequest c s r).1 = fwTags s) ∧
    (∀ (c : FWConfig) (s : FWState) (r : Request),
      (∀ i < 4, fwTag c (u32 (r.addr + i)) ∈ fwTags s (fwSetIndex c (u32 (r.addr + i)))) →
      fwTags (fwRequest c s r).1 = fwTags s) ∧
    (∀ (c : FWConfig) (s : FWState) (rA rB rC rD rE : Request) (set : Nat),
      2 ≤ c.offsetBitsCount →
      (∀ r ∈ [rA, rB, rC, rD, rE], r.addr < 2 ^ 32 ∧ r.addr % 4 = 0 ∧
        fwSetIndex c r.addr = set) →
      ([rA, rB, rC, rD, rE].map (fun r => fwTag c r.addr)).Nodup →
      s.cacheMem set = [] →
      fwTags (fwRun c s [rA, rB, rC, rD]).1 set
        = [fwTag c rA.addr, fwTag c rB.addr, fwTag c rC.addr, fwTag c rD.addr] ∧
      fwTags (fwRun c s [rA, rB, rC, rD, rA]).1 set
        = [fwTag c rA.addr, fwTag c rB.addr, fwTag c rC.addr, fwTag c rD.addr] ∧
      (fwRun c s [rA, rB, rC, rD, rA]).1.hits = (fwRun c s [rA, rB, rC, rD]).1.hits + 1 ∧
      fwTags (fwRun c s [rA, rB, rC, rD, rA, rE]).1 set
        = [fwTag c rB.addr, fwTag c rC.addr, fwTag c rD.addr, fwTag c rE.addr]) ∧
    fwTags (fwRun (fwConfig 4 16 1 10) FWState.init
      [readReq 0x100, readReq 0x200, readReq 0x300, readReq 0x400, readReq 0x100,
        readReq 0x500]).1 0 = [0x20, 0x30, 0x40, 0x50] := by
  refine ⟨?_, fwRequest_tags_of_resident, ?_, by decide⟩
  · intro c s r hh
    apply fwRequest_tags_of_resident
    apply fwRequest_hit_resident
    intro hx
    omega
  · intro c s rA rB rC rD rE set hob haddr hd hempty
    have hT : fwTags s set = [] := by simp [fwTags, hempty]
    have hA := haddr rA (by simp)
    have hB := haddr rB (by simp)
    have hC := haddr rC (by simp)
    have hD := haddr rD (by simp)
    have hE := haddr rE (by simp)
    have hfs := fifoStep_distinct (fwTag c rA.addr) (fwTag c rB.addr) (fwTag c rC.addr)
      (fwTag c rD.addr) (fwTag c rE.addr) s.hits s.misses (by simpa using hd)
    have h4 := fwRun_aligned_fifo c hob set [rA, rB, rC, rD] s (by
      intro r hr
      simp only [List.mem_cons, List.mem_singleton, List.not_mem_nil, or_false] at hr
      rcases hr with rfl | rfl | rfl | rfl <;> assumption)
    have h5 := fwRun_aligned_fifo c hob set [rA, rB, rC, rD, rA] s (by
      intro r hr
      simp only [List.mem_cons, List.mem_singleton, List.not_mem_nil, or_false] at hr
      rcases hr with rfl | rfl | rfl | rfl | rfl <;> assumption)
    have h6 := fwRun_aligned_fifo c hob set [rA, rB, rC, rD, rA, rE] s (by
      intro r hr
      simp only [List.mem_cons, List.mem_singleton, List.not_mem_nil, or_false] at hr
      rcases hr with rfl | rfl | rfl | rfl | rfl | rfl <;> assumption)
    simp only [List.map, hT] at h4 h5 h6
    rw [hfs.1] at h4
    rw [hfs.2.1] at h5
    rw [hfs.2.2] at h6
    have a4 := congrArg Prod.fst h4
    have b4 := congrArg (fun p => p.2.1) h4
    have a5 := congrArg Prod.fst h5
    have b5 := congrArg (fun p => p.2.1) h5
    have a6 := congrArg Prod.fst h6
    simp only at a4 b4 a5 b5 a6
    exact ⟨a4, a5, by rw [b5, b4], a6⟩

/-! ## Size, validity and distinct tags of the sets -/

theorem fifoPush_ok (q : List Nat) (t : Nat) (hl : q.length ≤ 4) (hn : q.Nodup) (ht : t ∉ q) :
    (fifoPush q t).length ≤ 4 ∧ (fifoPush q t).Nodup := by
  unfold fifoPush
  split_ifs with h
  · refine ⟨by simp; omega, ?_⟩
    have hs : q.tail.Nodup := hn.sublist (List.tail_sublist q)
    have hm : t ∉ q.tail := fun hx => ht (List.mem_of_mem_tail hx)
    rw [List.nodup_append]
    refine ⟨hs, List.nodup_singleton t, ?_⟩
    intro a ha hb
    simp only [List.mem_singleton] at hb
    rw [hb] at ha
    exact hm ha
  · refine ⟨by simp; omega, ?_⟩
    rw [List.nodup_append]
    refine ⟨hn, List.nodup_singleton t, ?_⟩
    intro a ha hb
    simp only [List.mem_singleton] at hb
    rw [hb] at ha
    exact ht ha

theorem fwTouch_ok (T : Nat → List Nat) (set t : Nat) (h : FWSetsOk T) :
    FWSetsOk (fwTouch T set t) := by
  unfold fwTouch
  split_ifs with hm
  · exact h
  · intro set1
    simp only [mapSet_apply]
    split_ifs with he
    · exact fifoPush_ok _ _ (h set).1 (h set).2 hm
    · exact h set1

theorem fwTagsAfter_ok (c : FWConfig) (addr : Nat → Nat) (T : Nat → List Nat) (n : Nat)
    (h : FWSetsOk T) : FWSetsOk (fwTagsAfter c addr T n) := by
  induction n with
  | zero => exact h
  | succ n ih =>
    rw [fwTagsAfter_succ]
    exact fwTouch_ok _ _ _ ih

theorem fwRequest_ok (c : FWConfig) (s : FWState) (r : Request) (h : FWSetsOk (fwTags s)) :
    FWSetsOk (fwTags (fwRequest c s r).1) := by
  rw [fwRequest_tags]
  split_ifs <;> exact fwTagsAfter_ok _ _ _ _ h

theorem fwRun_ok (c : FWConfig) (trace : List Request) :
    ∀ s, FWSetsOk (fwTags s) → FWSetsOk (fwTags (fwRun c s trace).1) := by
  induction trace with
  | nil => intro s h; exact h
  | cons r rs ih =>
    intro s h
    rw [fwRun_cons]
    exact ih _ (fwRequest_ok c s r h)

theorem filter_tag_length (l : List CacheLine) (t : Nat)
    (h : (l.map (fun r => r.tag)).Nodup) :
    (l.filter (fun r => r.tag == t)).length ≤ 1 := by
  have h1 := List.nodup_iff_count_le_one.1 h t
  rw [List.count, List.countP_map, List.countP_eq_length_filter] at h1
  exact h1

theorem fwTagMod32_eq (c : FWConfig) (h : c.offsetBitsCount + c.setIndexBitsCount < 32) :
    fwTagMod32 c = fwTag c := by
  funext a
  unfold fwTagMod32 fwTag
  rw [Nat.mod_eq_of_lt h]

theorem addToCacheMod32_eq (c : FWConfig) (h : c.offsetBitsCount + c.setIndexBitsCount < 32) :
    addToCacheMod32 c = addToCache c := by
  funext s a
  unfold addToCacheMod32 addToCache
  rw [fwTagMod32_eq c h]

theorem fwLookupMod32_eq (c : FWConfig) (h : c.offsetBitsCount + c.setIndexBitsCount < 32) :
    fwLookupMod32 c = fwLookup c := by
  funext s a
  unfold fwLookupMod32 fwLookup
  rw [fwTagMod32_eq c h]

theorem writeByteMod32_eq (c : FWConfig) (h : c.offsetBitsCount + c.setIndexBitsCount < 32) :
    writeByteMod32 c = writeByte c := by
  funext s a v
  unfold writeByteMod32 writeByte
  rw [fwLookupMod32_eq c h, addToCacheMod32_eq c h]

theorem readByteMod32_eq (c : FWConfig) (h : c.offsetBitsCount + c.setIndexBitsCount < 32) :
    readByteMod32 c = readByte c := by
  funext s a
  unfold readByteMod32 readByte
  rw [fwLookupMod32_eq c h, addToCacheMod32_eq c h]

theorem fwRequestMod32_eq (c : FWConfig) (h : c.offsetBitsCount + c.setIndexBitsCount < 32) :
    fwRequestMod32 c = fwRequest c := by
  funext s r
  unfold fwRequestMod32 fwRequest fwWriteMod32 fwWrite fwReadMod32 fwRead
  rw [writeByteMod32_eq c h, readByteMod32_eq c h]

theorem fwRunMod32_eq (c : FWConfig) (h : c.offsetBitsCount + c.setIndexBitsCount < 32)
    (trace : List Request) : ∀ s, fwRunMod32 c s trace = fwRun c s trace := by
  induction trace with
  | nil => intro s; rfl
  | cons r rs ih =>
    intro s
    simp only [fwRunMod32, fwRun, fwRequestMod32_eq c h, ih]

theorem addToCacheMod32_bounded (c : FWConfig) (s : FWState) (x : Nat) (h : FWBounded s) :
    FWBounded (addToCacheMod32 c s x) := by
  intro set
  simp only [addToCacheMod32, mapSet_apply]
  split_ifs with he hl
  · refine ⟨by simp only [List.length_append, List.length_tail, List.length_singleton]; have := (h (fwSetIndex c x)).1; omega, ?_⟩
    intro r hr
    rcases List.mem_append.1 hr with h1 | h1
    · exact (h _).2 r (List.mem_of_mem_tail h1)
    · rw [List.mem_singleton] at h1
      rw [h1, fwFillLine_valid]
  · refine ⟨by simp only [List.length_append, List.length_singleton]; omega, ?_⟩
    intro r hr
    rcases List.mem_append.1 hr with h1 | h1
    · exact (h _).2 r h1
    · rw [List.mem_singleton] at h1
      rw [h1, fwFillLine_valid]
  · exact h set

theorem writeByteMod32_bounded (c : FWConfig) (s : FWState) (x v : Nat) (h : FWBounded s) :
    FWBounded (writeByteMod32 c s x v) := by
  unfold writeByteMod32
  split
  · exact h
  · exact addToCacheMod32_bounded c s _ h

theorem readByteMod32_bounded (c : FWConfig) (s : FWState) (x : Nat) (h : FWBounded s) :
    FWBounded (readByteMod32 c s x).1 := by
  unfold readByteMod32
  split
  · exact h
  · exact addToCacheMod32_bounded c s _ h

theorem fwRequestMod32_bounded (c : FWConfig) (s : FWState) (r : Request) (h : FWBounded s) :
    FWBounded (fwRequestMod32 c s r).1 := by
  unfold fwRequestMod32
  split_ifs
  · show FWBounded (fwWriteMod32 c s r.addr r.data)
    unfold fwWriteMod32
    exact writeByteMod32_bounded c _ _ _ (writeByteMod32_bounded c _ _ _
      (writeByteMod32_bounded c _ _ _ (writeByteMod32_bounded c _ _ _ h)))
  · show FWBounded (fwReadMod32 c s r.addr)
    unfold fwReadMod32
    exact readByteMod32_bounded c _ _ (readByteMod32_bounded c _ _
      (readByteMod32_bounded c _ _ (readByteMod32_bounded c _ _ h)))

theorem fwRunMod32_bounded (c : FWConfig) (trace : List Request) :
    ∀ s, FWBounded s → FWBounded (fwRunMod32 c s trace).1 := by
  induction trace with
  | nil => intro s h; exact h
  | cons r rs ih =>
    intro s h
    exact ih _ (fwRequestMod32_bounded c s r h)

theorem fwInit_bounded : FWBounded FWState.init := by
  intro set
  simp [FWState.init]

/-- C30: with the tag as the compiled program computes it, in every state the four-way
cache reaches from its initial state, whatever the configuration and the trace, every set
holds at most 4 lines, every resident line is valid and the line the search loop finds is
valid.  When the shift count `offsetBitsCount + setIndexBitsCount` is below 32 the tags
within a set are pairwise distinct, so at most one line of a set carries a given tag; there
the compiled program and the source agree.  For `2 ^ 30` lines of 16 bytes `run_simulation`
derives the shift count 32, which C++ leaves undefined and the compiled program takes as 0:
the tag searched for is the whole byte address, the tag stored is the line base, and after
one read of address 0 the set 0 holds three valid lines with tag 0, after a further read of
address 4 four of them, all of which match the tag 0.  With 4 lines of 16 bytes the same two
reads leave one line. -/
theorem fourway_sets_distinct_tags_need_shift_below_32 :
    (∀ (c : FWConfig) (trace : List Request) (set : Nat),
      ((fwRunMod32 c FWState.init trace).1.cacheMem set).length ≤ 4 ∧
      (∀ r ∈ (fwRunMod32 c FWState.init trace).1.cacheMem set, r.valid = true) ∧
      (∀ x r, fwLookupMod32 c (fwRunMod32 c FWState.init trace).1 x = some r →
        r.valid = true)) ∧
    (∀ (c : FWConfig) (trace : List Request) (set : Nat),
      c.offsetBitsCount + c.setIndexBitsCount < 32 →
      (((fwRunMod32 c FWState.init trace).1.cacheMem set).map (fun r => r.tag)).Nodup ∧
      (∀ t, (((fwRunMod32 c FWState.init trace).1.cacheMem set).filter
        (fun r => r.tag == t)).length ≤ 1)) ∧
    (∀ (c : FWConfig) (s : FWState) (trace : List Request),
      c.offsetBitsCount + c.setIndexBitsCount < 32 →
      fwRunMod32 c s trace = fwRun c s trace) ∧
    (fwConfig (2 ^ 30) 16 1 10).offsetBitsCount
      + (fwConfig (2 ^ 30) 16 1 10).setIndexBitsCount = 32 ∧
    ((fwRunMod32 (fwConfig (2 ^ 30) 16 1 10) FWState.init [readReq 0]).1.cacheMem 0).map
      (fun r => (r.tag, r.valid)) = [(0, true), (0, true), (0, true)] ∧
    ((fwRunMod32 (fwConfig (2 ^ 30) 16 1 10) FWState.init [readReq 0, readReq 4]).1.cacheMem 0).map
      (fun r => (r.tag, r.valid)) = [(0, true), (0, true), (0, true), (0, true)] ∧
    (((fwRunMod32 (fwConfig (2 ^ 30) 16 1 10) FWState.init [readReq 0, readReq 4]).1.cacheMem
      0).filter (fun r => r.tag == 0)).length = 4 ∧
    ((fwRunMod32 (fwConfig (2 ^ 30) 16 1 10) FWState.init [readReq 0, readReq 4]).1.hits,
      (fwRunMod32 (fwConfig (2 ^ 30) 16 1 10) FWState.init [readReq 0, readReq 4]).1.misses)
      = (0, 2) ∧
    ((fwRunMod32 (fwConfig 4 16 1 10) FWState.init [readReq 0, readReq 4]).1.cacheMem 0).map
      (fun r => (r.tag, r.valid)) = [(0, true)] := by
  refine ⟨?_, ?_, fun c s trace h => fwRunMod32_eq c h trace s, by decide, by decide, by decide,
    by decide, by decide, by decide⟩
  · intro c trace set
    have hb := fwRunMod32_bounded c trace FWState.init fwInit_bounded
    refine ⟨(hb set).1, (hb set).2, ?_⟩
    intro x r hx
    exact (hb _).2 r (List.mem_of_find?_eq_some hx)
  · intro c trace set h
    rw [fwRunMod32_eq c h trace]
    have hok := fwRun_ok c trace FWState.init (fun _ => ⟨by simp [fwTags, FWState.init],
      by simp [fwTags, FWState.init]⟩)
    have h1 := hok set
    simp only [fwTags, List.length_map] at h1
    exact ⟨h1.2, fun t => filter_tag_length _ t h1.2⟩

/-! ## Normalisation of the number of cache lines -/

theorem ceilLog2From_spec (n : Nat) :
    ∀ fuel j, (∀ i < j, 2 ^ i < n) → n ≤ 2 ^ (j + fuel) →
      n ≤ 2 ^ ceilLog2From fuel j n ∧ ∀ i < ceilLog2From fuel j n, 2 ^ i < n := by
  intro fuel
  induction fuel with
  | zero => intro j hinv hf; exact ⟨hf, hinv⟩
  | succ fuel ih =>
    intro j hinv hf
    unfold ceilLog2From
    split_ifs with h
    · exact ⟨h, hinv⟩
    · apply ih (j + 1)
      · intro i hi
        rcases Nat.lt_succ_iff_lt_or_eq.1 hi with h1 | h1
        · exact hinv i h1
        · rw [h1]; omega
      · have : j + 1 + fuel = j + (fuel + 1) := by omega
        rw [this]; exact hf

theorem pow_ceilLog2_least (n : Nat) :
    n ≤ 2 ^ ceilLog2 n ∧ ∀ j, n ≤ 2 ^ j → 2 ^ ceilLog2 n ≤ 2 ^ j := by
  have h := ceilLog2From_spec n n 0 (fun i hi => absurd hi (Nat.not_lt_zero i))
    (by rw [Nat.zero_add]; exact Nat.le_of_lt (Nat.lt_two_pow n))
  refine ⟨h.1, fun j hj => Nat.pow_le_pow_right (by norm_num) ?_⟩
  by_contra hlt
  have hj2 : j < ceilLog2From n 0 n := Nat.lt_of_not_le hlt
  have := h.2 j hj2
  omega

theorem floorLog2From_spec (n : Nat) :
    ∀ fuel j, 2 ^ j ≤ n → n < 2 ^ (j + fuel + 1) →
      2 ^ floorLog2From fuel j n ≤ n ∧ n < 2 ^ (floorLog2From fuel j n + 1) := by
  intro fuel
  induction fuel with
  | zero => intro j h1 hf; exact ⟨h1, hf⟩
  | succ fuel ih =>
    intro j h1 hf
    unfold floorLog2From
    split_ifs with h
    · exact ⟨h1, h⟩
    · apply ih (j + 1) (by omega)
      have : j + 1 + fuel + 1 = j + (fuel + 1) + 1 := by omega
      rw [this]; exact hf

theorem floorLog2_spec (n : Nat) (hn : 1 ≤ n) :
    2 ^ floorLog2 n ≤ n ∧ n < 2 ^ (floorLog2 n + 1) := by
  apply floorLog2From_spec n n 0 (by simpa using hn)
  have h1 := Nat.lt_two_pow n
  have h2 : 2 ^ n ≤ 2 ^ (0 + n + 1) := Nat.pow_le_pow_right (by norm_num) (by omega)
  omega

theorem is_power_of_two_iff (n : Nat) (hn : 1 ≤ n) :
    is_power_of_two n = true ↔ ∃ j, n = 2 ^ j := by
  unfold is_power_of_two
  rw [beq_iff_eq]
  have hc := pow_ceilLog2_least n
  have hf := floorLog2_spec n hn
  constructor
  · intro h
    refine ⟨floorLog2 n, le_antisymm ?_ hf.1⟩
    rw [← h]
    exact hc.1
  · rintro ⟨j, rfl⟩
    have h1 : ceilLog2 (2 ^ j) ≤ j :=
      (Nat.pow_le_pow_iff_right (by norm_num)).1 (hc.2 j (le_refl _))
    have h2 : j ≤ ceilLog2 (2 ^ j) := (Nat.pow_le_pow_iff_right (by norm_num)).1 hc.1
    have h3 : floorLog2 (2 ^ j) ≤ j := (Nat.pow_le_pow_iff_right (by norm_num)).1 hf.1
    have h4 : j < floorLog2 (2 ^ j) + 1 := (Nat.pow_lt_pow_iff_right (by norm_num)).1 hf.2
    omega

theorem cachelinesPassed_of_le (direct_mapped : Int) (N : Nat) (h1 : 1 ≤ N) (h2 : N ≤ 2 ^ 31) :
    (∃ j, cachelinesPassed direct_mapped N = 2 ^ j) ∧
    (direct_mapped ≠ 0 → N ≤ cachelinesPassed direct_mapped N ∧
      ∀ j, N ≤ 2 ^ j → cachelinesPassed direct_mapped N ≤ 2 ^ j) ∧
    (direct_mapped = 0 → max N 4 ≤ cachelinesPassed direct_mapped N ∧
      ∀ j, max N 4 ≤ 2 ^ j → cachelinesPassed direct_mapped N ≤ 2 ^ j) := by
  have hleast := pow_ceilLog2_least N
  have hfit : 2 ^ ceilLog2 N < 2 ^ 32 := by
    have := hleast.2 31 h2
    omega
  by_cases hp : is_power_of_two N = true
  · obtain ⟨j, hj⟩ := (is_power_of_two_iff N h1).1 hp
    by_cases hd : direct_mapped ≠ 0
    · have hP : cachelinesPassed direct_mapped N = N := by simp [cachelinesPassed, hd, hp]
      rw [hP]
      exact ⟨⟨j, hj⟩, fun _ => ⟨le_refl _, fun _ h => h⟩, fun h0 => absurd h0 hd⟩
    · by_cases h4 : N < 4
      · have hP : cachelinesPassed direct_mapped N = 4 := by simp [cachelinesPassed, hd, hp, h4]
        rw [hP]
        exact ⟨⟨2, rfl⟩, fun h0 => absurd h0 hd, fun _ => ⟨by omega, fun i hi => by omega⟩⟩
      · have hP : cachelinesPassed direct_mapped N = N := by simp [cachelinesPassed, hd, hp, h4]
        rw [hP]
        exact ⟨⟨j, hj⟩, fun h0 => absurd h0 hd, fun _ => ⟨by omega, fun i hi => by omega⟩⟩
  · have hP : cachelinesPassed direct_mapped N = 2 ^ ceilLog2 N := by
      have hfit2 : 2 ^ ceilLog2 N < 4294967296 := hfit
      by_cases hd : direct_mapped ≠ 0 <;>
        simp [cachelinesPassed, hd, hp, toUnsigned, Nat.mod_eq_of_lt hfit2]
    rw [hP]
    refine ⟨⟨_, rfl⟩, fun _ => hleast, fun _ => ?_⟩
    have h3 : 3 ≤ N := by
      by_contra hlt
      have : N = 1 ∨ N = 2 := by omega
      rcases this with rfl | rfl
      · exact hp ((is_power_of_two_iff 1 (by norm_num)).2 ⟨0, rfl⟩)
      · exact hp ((is_power_of_two_iff 2 (by norm_num)).2 ⟨1, rfl⟩)
    have h4 : 4 ≤ 2 ^ ceilLog2 N := by
      have hc : 2 ≤ ceilLog2 N := by
        by_contra hlt
        have : 2 ^ ceilLog2 N ≤ 2 ^ 1 := Nat.pow_le_pow_right (by norm_num) (by omega)
        have := hleast.1
        omega
      have : 2 ^ 2 ≤ 2 ^ ceilLog2 N := Nat.pow_le_pow_right (by norm_num) hc
      omega
    refine ⟨by have := hleast.1; omega, fun j hj => hleast.2 j (by omega)⟩

theorem cachelinesPassed_of_gt (direct_mapped : Int) (N : Nat) (h1 : 2 ^ 31 < N)
    (h2 : N < 2 ^ 32) :
    is_power_of_two N = false ∧ 2 ^ ceilLog2 N = 2 ^ 32 ∧ cachelinesPassed direct_mapped N = 0 := by
  have hleast := pow_ceilLog2_least N
  have hp : is_power_of_two N = false := by
    rw [Bool.eq_false_iff]
    intro hp
    obtain ⟨j, hj⟩ := (is_power_of_two_iff N (by omega)).1 hp
    rw [hj] at h1 h2
    have a1 : 31 < j := (Nat.pow_lt_pow_iff_right (by norm_num)).1 h1
    have a2 : j < 32 := (Nat.pow_lt_pow_iff_right (by norm_num)).1 h2
    omega
  have hc : ceilLog2 N = 32 := by
    have a1 : 2 ^ ceilLog2 N ≤ 2 ^ 32 := hleast.2 32 (by omega)
    have a2 : ceilLog2 N ≤ 32 := (Nat.pow_le_pow_iff_right (by norm_num)).1 a1
    have a3 : 2 ^ 31 < 2 ^ ceilLog2 N := lt_of_lt_of_le h1 hleast.1
    have a4 : 31 < ceilLog2 N := (Nat.pow_lt_pow_iff_right (by norm_num)).1 a3
    omega
  refine ⟨hp, by rw [hc], ?_⟩
  by_cases hd : direct_mapped ≠ 0 <;> simp [cachelinesPassed, hd, hp, toUnsigned, hc]

/-- C24: for every parsed value `N` with `1 ≤ N ≤ 2 ^ 31` the value of `cachelines` passed
to `run_simulation` is the least power of two that is at least `N` in direct-mapped mode
and the least power of two that is at least `max N 4` in four-way mode.  For every parsed
value `N` with `2 ^ 31 < N < 2 ^ 32` the test `is_power_of_two` fails, the power computed by
`pow(2,ceil(log2(cachelines)))` is `2 ^ 32`, and its conversion to `unsigned` passes 0 cache
lines in either mode, although the option parser refuses the value 0.  Instances:
`2 ^ 31 + 1` and `2 ^ 32 - 1` give 0, while 5 gives 8 and 3 gives 4 in four-way mode. -/
theorem cachelines_above_two_pow_31_passed_as_zero :
    (∀ (direct_mapped : Int) (N : Nat), 1 ≤ N → N ≤ 2 ^ 31 →
      (∃ j, cachelinesPassed direct_mapped N = 2 ^ j) ∧
      (direct_mapped ≠ 0 → N ≤ cachelinesPassed direct_mapped N ∧
        ∀ j, N ≤ 2 ^ j → cachelinesPassed direct_mapped N ≤ 2 ^ j) ∧
      (direct_mapped = 0 → max N 4 ≤ cachelinesPassed direct_mapped N ∧
        ∀ j, max N 4 ≤ 2 ^ j → cachelinesPassed direct_mapped N ≤ 2 ^ j)) ∧
    (∀ (direct_mapped : Int) (N : Nat), 2 ^ 31 < N → N < 2 ^ 32 →
      is_power_of_two N = false ∧ 2 ^ ceilLog2 N = 2 ^ 32 ∧
      cachelinesPassed direct_mapped N = 0) ∧
    cachelinesPassed 1 (2 ^ 31 + 1) = 0 ∧ cachelinesPassed 0 (2 ^ 31 + 1) = 0 ∧
    cachelinesPassed 1 (2 ^ 32 - 1) = 0 ∧ cachelinesPassed 0 (2 ^ 32 - 1) = 0 ∧
    cachelinesPassed 1 5 = 8 ∧ cachelinesPassed 0 5 = 8 ∧ cachelinesPassed 0 3 = 4 ∧
    cachelinesPassed 1 (2 ^ 31) = 2 ^ 31 :=
  ⟨cachelinesPassed_of_le, cachelinesPassed_of_gt, by decide, by decide, by decide, by decide,
    by decide, by decide, by decide, by decide⟩

/-! ## Rows of the input file -/

theorem strtok_not_skipped (s tok saved : List Char) (h : strtok s = some (tok, saved, false)) :
    tok = s.takeWhile (fun x => x != ',') ∧
      saved = (s.dropWhile (fun x => x != ',')).tail ∧ s ≠ [] := by
  cases s with
  | nil => simp [strtok] at h
  | cons ch t =>
    by_cases hc : ch = ','
    · subst hc
      unfold strtok at h
      split at h
      · exact absurd h (by simp)
      · simp at h
    · have hd : (ch :: t).dropWhile (fun c => c == ',') = ch :: t := by simp [hc]
      unfold strtok at h
      rw [hd] at h
      simp only [Option.some.injEq, Prod.mk.injEq] at h
      exact ⟨h.1.symm, h.2.1.symm, by simp⟩

theorem strtok_none (s : List Char) (h : strtok s = none) :
    s.takeWhile (fun x => x != ',') = [] := by
  cases s with
  | nil => rfl
  | cons ch t =>
    by_cases hc : ch = ','
    · subst hc; simp
    · have hd : (ch :: t).dropWhile (fun c => c == ',') = ch :: t := by simp [hc]
      unfold strtok at h
      rw [hd] at h
      exact absurd h (by simp)

theorem mem_of_mem_dropWhile {p : Char → Bool} {l : List Char} {x : Char}
    (h : x ∈ l.dropWhile p) : x ∈ l :=
  (List.dropWhile_suffix p).subset h

theorem dropWhile_nil_iff (p : Char → Bool) (l : List Char) :
    l.dropWhile p = [] ↔ ∀ x ∈ l, p x = true := by
  induction l with
  | nil => simp
  | cons a t ih =>
    by_cases ha : p a = true
    · simp [List.dropWhile, ha, ih]
    · simp [List.dropWhile, ha]

theorem head_dropWhile_not (p : Char → Bool) (l : List Char) (a : Char) (t : List Char)
    (h : l.dropWhile p = a :: t) : p a = false := by
  induction l with
  | nil => simp at h
  | cons b u ih =>
    by_cases hb : p b = true
    · simp only [List.dropWhile, hb] at h
      exact ih h
    · simp only [List.dropWhile, hb] at h
      rw [List.cons.injEq] at h
      rw [← h.1]
      simpa using hb

theorem convertChecked_lt (c : List Char) (r : Nat × List Char × Bool) (d : Nat)
    (h : convertChecked c r = some d) : d < 2 ^ 32 := by
  unfold convertChecked at h
  split_ifs at h
  rw [Option.some.injEq] at h
  rw [← h]
  exact u32_lt _

theorem convertColumn_lt (col rest : List Char) (d : Nat) (h : convertColumn col rest = some d) :
    d < 2 ^ 32 := by
  unfold convertColumn at h
  split_ifs at h
  · exact convertChecked_lt _ _ _ h
  · exact convertChecked_lt _ _ _ h

/-- The third column as the calls of `strtok` see it: for an accepted read every column
text after the second comma is white space; for an accepted write the text up to the next
comma holds a character that is not white space, and its conversion gives the data. -/
theorem parseData_some (we : Bool) (saved : List Char) (data : Nat)
    (h : parseData we saved = some data) :
    (we = false ∧ data = 0 ∧ ∀ ch ∈ saved.takeWhile (fun x => x != ','), isspace ch = true) ∨
    (we = true ∧ saved ≠ [] ∧
      (saved.takeWhile (fun x => x != ',')).dropWhile isspace ≠ [] ∧
      convertColumn (saved.takeWhile (fun x => x != ','))
        ((saved.takeWhile (fun x => x != ',')).dropWhile isspace) = some data) := by
  unfold parseData at h
  cases hs : strtok saved with
  | none =>
    rw [hs] at h
    cases we with
    | true => simp at h
    | false =>
      simp only [Bool.false_eq_true, if_false, Option.some.injEq] at h
      refine Or.inl ⟨rfl, h.symm, ?_⟩
      rw [strtok_none saved hs]
      intro ch hch
      exact absurd hch (List.not_mem_nil ch)
  | some p =>
    obtain ⟨column, saved3, skipped⟩ := p
    rw [hs] at h
    cases skipped with
    | true => simp at h
    | false =>
      obtain ⟨hcol, _, hne⟩ := strtok_not_skipped saved column saved3 hs
      simp only [Bool.false_eq_true, if_false] at h
      rw [← hcol]
      cases hd : column.dropWhile isspace with
      | nil =>
        rw [hd] at h
        cases we with
        | true => simp at h
        | false =>
          simp only [Bool.false_eq_true, if_false] at h
          split_ifs at h
          rw [Option.some.injEq] at h
          exact Or.inl ⟨rfl, h.symm, (dropWhile_nil_iff isspace column).1 hd⟩
      | cons ch t =>
        rw [hd] at h
        cases we with
        | false => simp at h
        | true =>
          simp only [Bool.not_true, Bool.false_eq_true, if_false] at h
          cases hc : convertColumn column (ch :: t) with
          | none => rw [hc] at h; simp at h
          | some d =>
            rw [hc] at h
            simp only at h
            split_ifs at h
            rw [Option.some.injEq] at h
            exact Or.inr ⟨rfl, hne, by simp, congrArg some h⟩

/-- An accepted row: `we` is the operation of the first column; a read has the data 0 and
a third column, if any, of white space; a write has a third column with a character that is
not white space whose conversion is the data. -/
theorem parseLine_some (line : List Char) (req : Request) (h : parseLine line = some req) :
    parseOp (line.takeWhile (fun x => x != ',')) = some req.we ∧ req.data < 2 ^ 32 ∧
    ((req.we = false ∧ req.data = 0 ∧
        ∀ col, csvColumn 2 line = some col → ∀ ch ∈ col, isspace ch = true) ∨
     (req.we = true ∧ ∃ col, csvColumn 2 line = some col ∧ col.dropWhile isspace ≠ [] ∧
        convertColumn col (col.dropWhile isspace) = some req.data)) := by
  unfold parseLine at h
  split_ifs at h with hhead
  cases h0 : strtok line with
  | none => rw [h0] at h; simp at h
  | some p0 =>
    obtain ⟨column0, saved1, sk0⟩ := p0
    rw [h0] at h
    simp only at h
    have hsk0 : sk0 = false := by
      unfold strtok at h0
      split at h0
      · exact absurd h0 (by simp)
      · simp only [Option.some.injEq, Prod.mk.injEq] at h0
        rw [← h0.2.2]
        simpa using hhead
    subst hsk0
    obtain ⟨hc0, hs1, _⟩ := strtok_not_skipped line column0 saved1 h0
    cases hop : parseOp column0 with
    | none => rw [hop] at h; simp at h
    | some we =>
      rw [hop] at h
      simp only at h
      cases h1 : strtok saved1 with
      | none => rw [h1] at h; simp at h
      | some p1 =>
        obtain ⟨column1, saved2, sk1⟩ := p1
        rw [h1] at h
        simp only at h
        cases sk1 with
        | true => simp at h
        | false =>
          simp only [Bool.false_eq_true, if_false] at h
          obtain ⟨_, hs2, hne1⟩ := strtok_not_skipped saved1 column1 saved2 h1
          cases ha : parseAddress column1 with
          | none => rw [ha] at h; simp at h
          | some address =>
            rw [ha] at h
            simp only at h
            cases hd : parseData we saved2 with
            | none => rw [hd] at h; simp at h
            | some data =>
              rw [hd] at h
              simp only [Option.some.injEq] at h
              subst h
              have hD : ∃ x, line.dropWhile (fun x => x != ',') = x :: saved1 := by
                cases hl : line.dropWhile (fun x => x != ',') with
                | nil => rw [hl] at hs1; exact absurd hs1 hne1
                | cons x t => rw [hl] at hs1; exact ⟨x, by rw [hs1]; rfl⟩
              obtain ⟨x, hx⟩ := hD
              have hcol : csvColumn 2 line =
                  match saved1.dropWhile (fun x => x != ',') with
                  | [] => none
                  | _ :: t => some (t.takeWhile (fun x => x != ',')) := by
                simp only [csvColumn, hx]
              refine ⟨by rw [← hc0]; exact hop, ?_, ?_⟩
              · rcases parseData_some we saved2 data hd with ⟨_, h2, _⟩ | ⟨_, _, _, h4⟩
                · show data < 2 ^ 32
                  rw [h2]; norm_num
                · exact convertColumn_lt _ _ _ h4
              · rcases parseData_some we saved2 data hd with ⟨h1', h2, h3⟩ | ⟨h1', h2, h3, h4⟩
                · refine Or.inl ⟨h1', h2, ?_⟩
                  intro col hcol2 ch hch
                  rw [hcol] at hcol2
                  cases hl : saved1.dropWhile (fun x => x != ',') with
                  | nil => rw [hl] at hcol2; simp at hcol2
                  | cons y t =>
                    rw [hl] at hcol2 hs2
                    simp only [Option.some.injEq] at hcol2
                    simp only [List.tail_cons] at hs2
                    rw [← hcol2, ← hs2] at hch
                    exact h3 ch hch
                · refine Or.inr ⟨h1', saved2.takeWhile (fun x => x != ','), ?_, h3, h4⟩
                  rw [hcol]
                  cases hl : saved1.dropWhile (fun x => x != ',') with
                  | nil => rw [hl] at hs2; exact absurd hs2 h2
                  | cons y t =>
                    rw [hl] at hs2
                    simp only [List.tail_cons] at hs2
                    rw [hs2]

theorem skipSign_suffix (s : List Char) : skipSign s <:+ s := by
  unfold skipSign
  split_ifs
  · exact List.tail_suffix s
  · exact List.suffix_refl s

theorem skipHexMark_suffix (base : Nat) (s : List Char) : skipHexMark base s <:+ s := by
  unfold skipHexMark
  split_ifs
  · split
    · split_ifs
      · exact ⟨[_, _], rfl⟩
      · exact List.suffix_refl _
    · exact List.suffix_refl _
  · exact List.suffix_refl s

/-- A conversion by `strtoul` that moves `endptr` has found a digit of the base. -/
theorem strtoul_digit (c : List Char) (base : Nat)
    (h : (strtoul c base).2.1.length ≠ c.length) : ∃ ch ∈ c, isDigitOf base ch = true := by
  unfold strtoul at h
  simp only at h
  by_cases he : (List.takeWhile (isDigitOf base)
      (skipHexMark base (skipSign (c.dropWhile isspace)))).isEmpty = true
  · rw [if_pos he] at h
    exact absurd rfl h
  · cases hl : skipHexMark base (skipSign (c.dropWhile isspace)) with
    | nil => rw [hl] at he; simp at he
    | cons a t =>
      rw [hl] at he
      have ha : isDigitOf base a = true := by
        by_contra hna
        simp [List.takeWhile, hna] at he
      refine ⟨a, ?_, ha⟩
      have h1 : a ∈ skipHexMark base (skipSign (c.dropWhile isspace)) := by rw [hl]; simp
      exact (List.dropWhile_suffix isspace).subset
        ((skipSign_suffix _).subset ((skipHexMark_suffix base _).subset h1))

theorem convertChecked_digit (c : List Char) (base d : Nat)
    (h : convertChecked c (strtoul c base) = some d) : ∃ ch ∈ c, isDigitOf base ch = true := by
  apply strtoul_digit
  intro hlen
  unfold convertChecked at h
  rw [if_pos hlen] at h
  exact absurd h (by simp)

theorem isDigitOf_mono (ch : Char) (h : isDigitOf 10 ch = true) : isDigitOf 16 ch = true := by
  unfold isDigitOf at h ⊢
  cases hd : digitVal ch with
  | none => rw [hd] at h; exact absurd h (by simp)
  | some v =>
    rw [hd] at h
    simp only [decide_eq_true_eq] at h ⊢
    omega

/-- A column whose conversion succeeds holds a decimal or hexadecimal digit. -/
theorem convertColumn_digit (col rest : List Char) (d : Nat)
    (h : convertColumn col rest = some d) : ∃ ch ∈ col, isDigitOf 16 ch = true := by
  unfold convertColumn at h
  split_ifs at h
  · exact convertChecked_digit col 16 d h
  · obtain ⟨ch, hm, hd⟩ := convertChecked_digit col 10 d h
    exact ⟨ch, hm, isDigitOf_mono ch hd⟩

/-- C25: a row of the input file is accepted only as a read whose third column is missing
or white space, with the data 0, or as a write whose third column holds a character that is
not white space and is converted by `strtoul`, in base 10 or, after `0x` or `0X`, in base
16, to the data, a value below `2 ^ 32`; the converted column holds a digit.  A read row
with a character that is not white space in the third column and a write row whose third
column is missing or white space end the program.  The conversion does not reject every
column that is no 32-bit number: `strtoul` negates in 64 bits after a minus sign, so the
write row with the third column `-18446744073709551615` is accepted with the data 1. -/
theorem csv_third_column_rule :
    (∀ (line : List Char) (req : Request), parseLine line = some req →
      csvColumn 0 line = some (line.takeWhile (fun x => x != ',')) ∧
      parseOp (line.takeWhile (fun x => x != ',')) = some req.we ∧ req.data < 2 ^ 32 ∧
      ((req.we = false ∧ req.data = 0 ∧
          ∀ col, csvColumn 2 line = some col → ∀ ch ∈ col, isspace ch = true) ∨
       (req.we = true ∧ ∃ col, csvColumn 2 line = some col ∧ col.dropWhile isspace ≠ [] ∧
          (∃ ch ∈ col, isspace ch = false) ∧ (∃ ch ∈ col, isDigitOf 16 ch = true) ∧
          convertColumn col (col.dropWhile isspace) = some req.data))) ∧
    (∀ (line col0 col2 : List Char), csvColumn 0 line = some col0 → parseOp col0 = some false →
      csvColumn 2 line = some col2 → (∃ ch ∈ col2, isspace ch = false) →
      parseLine line = none) ∧
    (∀ (line col0 : List Char), csvColumn 0 line = some col0 → parseOp col0 = some true →
      (csvColumn 2 line = none ∨
        ∃ col2, csvColumn 2 line = some col2 ∧ ∀ ch ∈ col2, isspace ch = true) →
      parseLine line = none) ∧
    (parseLine ['W', ',', '0', 'x', '1', '0', ',', '5', Char.ofNat 10]).map
        (fun r => (r.addr, r.data, r.we)) = some (16, 5, true) ∧
    (parseLine ['R', ',', '0', 'x', '1', '0', ',', ' ', Char.ofNat 10]).map
        (fun r => (r.addr, r.data, r.we)) = some (16, 0, false) ∧
    (parseLine ['R', ',', '0', 'x', '1', '0', Char.ofNat 10]).map
        (fun r => (r.addr, r.data, r.we)) = some (16, 0, false) ∧
    (parseLine ['R', ',', '0', 'x', '1', '0', ',', '5', Char.ofNat 10]).map
        (fun r => (r.addr, r.data, r.we)) = none ∧
    (parseLine ['W', ',', '0', 'x', '1', '0', ',', ' ', Char.ofNat 10]).map
        (fun r => (r.addr, r.data, r.we)) = none ∧
    (parseLine ['W', ',', '0', 'x', '1', '0', Char.ofNat 10]).map
        (fun r => (r.addr, r.data, r.we)) = none ∧
    (parseLine ['W', ',', '0', 'x', '1', '0', ',', '-', '1', '8', '4', '4', '6', '7', '4', '4',
        '0', '7', '3', '7', '0', '9', '5', '5', '1', '6', '1', '5', Char.ofNat 10]).map
        (fun r => (r.addr, r.data, r.we)) = some (16, 1, true) := by
  refine ⟨?_, ?_, ?_, by decide, by decide, by decide, by decide, by decide, by decide,
    by decide⟩
  · intro line req h
    obtain ⟨h1, h2, h3⟩ := parseLine_some line req h
    refine ⟨rfl, h1, h2, ?_⟩
    rcases h3 with h3 | ⟨hw, col, hc, hne, hconv⟩
    · exact Or.inl h3
    · refine Or.inr ⟨hw, col, hc, hne, ?_, convertColumn_digit _ _ _ hconv, hconv⟩
      cases hd : col.dropWhile isspace with
      | nil => exact absurd hd hne
      | cons a t =>
        exact ⟨a, mem_of_mem_dropWhile (by rw [hd]; simp), head_dropWhile_not isspace col a t hd⟩
  · intro line col0 col2 h0 hop h2 hns
    cases hp : parseLine line with
    | none => rfl
    | some req =>
      obtain ⟨h1, _, h3⟩ := parseLine_some line req hp
      have e0 : col0 = line.takeWhile (fun x => x != ',') := by
        simp only [csvColumn, Option.some.injEq] at h0
        exact h0.symm
      rw [← e0, hop] at h1
      rcases h3 with ⟨_, _, hall⟩ | ⟨hw, _⟩
      · obtain ⟨ch, hm, hs⟩ := hns
        have := hall col2 h2 ch hm
        rw [hs] at this
        exact absurd this (by simp)
      · rw [hw] at h1
        exact absurd h1 (by simp)
  · intro line col0 h0 hop h2
    cases hp : parseLine line with
    | none => rfl
    | some req =>
      obtain ⟨h1, _, h3⟩ := parseLine_some line req hp
      have e0 : col0 = line.takeWhile (fun x => x != ',') := by
        simp only [csvColumn, Option.some.injEq] at h0
        exact h0.symm
      rw [← e0, hop] at h1
      rcases h3 with ⟨hr, _⟩ | ⟨_, col, hc, hne, _⟩
      · rw [hr] at h1
        exact absurd h1 (by simp)
      · rcases h2 with h2 | ⟨col2, hc2, hall⟩
        · rw [h2] at hc
          exact absurd hc (by simp)
        · rw [hc2, Option.some.injEq] at hc
          rw [← hc] at hne
          exact absurd ((dropWhile_nil_iff isspace col2).2 hall) hne

/-! ## The address decode is a bijection -/

theorem decode_sum (a S N : Nat) :
    a = a / S / N * N * S + a / S % N * S + a % S := by
  have e : S * (N * (a / S / N) + a / S % N) + a % S = a := by
    rw [Nat.div_add_mod (a / S) N, Nat.div_add_mod a S]
  calc a = S * (N * (a / S / N) + a / S % N) + a % S := e.symm
    _ = a / S / N * N * S + a / S % N * S + a % S := by ring

theorem dmOffset_eq (c : DMConfig) (k m : Nat) (h : DMPow2 c k m) (X : Nat) :
    dmOffset c X 0 = X % 2 ^ k := by
  unfold dmOffset
  rw [h.2.2.2.1, Nat.add_zero, Nat.and_pow_two_sub_one_eq_mod]
  apply u32_of_lt
  have h1 : X % 2 ^ k < 2 ^ k := Nat.mod_lt _ (by positivity)
  have h2 : 2 ^ k < 2 ^ 32 := Nat.pow_lt_pow_right (by norm_num) h.1
  omega

/-- The direct-mapped decode of a 32-bit address, for `2 ^ m` lines of `2 ^ k` bytes with
`k + m < 32`. -/
theorem dm_decode (m k cl ml a : Nat) (hkm : k + m < 32) (ha : a < 2 ^ 32) :
    dmOffset (dmConfig (2 ^ m) (2 ^ k) cl ml) a 0 < 2 ^ k ∧
    dmIndex (dmConfig (2 ^ m) (2 ^ k) cl ml) a 0 < 2 ^ m ∧
    a = dmTag (dmConfig (2 ^ m) (2 ^ k) cl ml) a 0 * 2 ^ m * 2 ^ k
        + dmIndex (dmConfig (2 ^ m) (2 ^ k) cl ml) a 0 * 2 ^ k
        + dmOffset (dmConfig (2 ^ m) (2 ^ k) cl ml) a 0 := by
  have hp := dmConfig_pow2 m k cl ml (by omega) (by omega)
  have hmin : min m (32 - k) = m := by omega
  have ht : a / 2 ^ k / 2 ^ m < 2 ^ 32 :=
    lt_of_le_of_lt ((Nat.div_le_self _ _).trans (Nat.div_le_self _ _)) ha
  rw [dmOffset_eq _ k m hp, dmIndex_eq _ k m hp, dmTag_eq _ k m hp, hmin, Nat.mod_eq_of_lt ht]
  exact ⟨Nat.mod_lt _ (by positivity), Nat.mod_lt _ (by positivity), decode_sum a _ _⟩

/-- The four-way decode of a 32-bit address, for `2 ^ m` lines, `m ≥ 2`, of `2 ^ k` bytes
with `k + m < 32`. -/
theorem fw_decode (m k cl ml a : Nat) (hm : 2 ≤ m) (hkm : k + m < 32) :
    fwOffset (fwConfig (2 ^ m) (2 ^ k) cl ml) a < 2 ^ k ∧
    fwSetIndex (fwConfig (2 ^ m) (2 ^ k) cl ml) a < 2 ^ m / 4 ∧
    a = fwTag (fwConfig (2 ^ m) (2 ^ k) cl ml) a * (2 ^ m / 4) * 2 ^ k
        + fwSetIndex (fwConfig (2 ^ m) (2 ^ k) cl ml) a * 2 ^ k
        + fwOffset (fwConfig (2 ^ m) (2 ^ k) cl ml) a := by
  have hp := fwConfig_pow2 m k cl ml (by omega) hm (by omega)
  have hmin : min (m - 2) (32 - k) = m - 2 := by omega
  have hsets : 2 ^ m / 4 = 2 ^ (m - 2) := by
    obtain ⟨j, rfl⟩ : ∃ j, m = j + 2 := ⟨m - 2, by omega⟩
    rw [pow_add]
    norm_num
  rw [fwOffset_eq _ k _ hp, fwSetIndex_eq _ k _ hp, fwTag_eq _ k _ hp, hmin, hsets]
  exact ⟨Nat.mod_lt _ (by positivity), Nat.mod_lt _ (by positivity), decode_sum a _ _⟩

/-- C31: for `N = 2 ^ m` lines of `S = 2 ^ k` bytes with `k + m < 32` and the bit counts and
masks `run_simulation` derives, every 32-bit address `a` decodes in the direct-mapped cache
to an offset below `S`, an index below `N` and a tag with
`a = tag * N * S + index * S + offset`, and in the four-way cache (`m ≥ 2`) to an offset
below `S`, a set index below `N / 4` and a tag with
`a = tag * (N / 4) * S + set * S + offset`; two 32-bit addresses with the same decode are
equal. -/
theorem address_decode_is_bijective :
    (∀ m k cl ml a : Nat, k + m < 32 → a < 2 ^ 32 →
      dmOffset (dmConfig (2 ^ m) (2 ^ k) cl ml) a 0 < 2 ^ k ∧
      dmIndex (dmConfig (2 ^ m) (2 ^ k) cl ml) a 0 < 2 ^ m ∧
      a = dmTag (dmConfig (2 ^ m) (2 ^ k) cl ml) a 0 * 2 ^ m * 2 ^ k
          + dmIndex (dmConfig (2 ^ m) (2 ^ k) cl ml) a 0 * 2 ^ k
          + dmOffset (dmConfig (2 ^ m) (2 ^ k) cl ml) a 0) ∧
    (∀ m k cl ml a b : Nat, k + m < 32 → a < 2 ^ 32 → b < 2 ^ 32 →
      dmTag (dmConfig (2 ^ m) (2 ^ k) cl ml) a 0 = dmTag (dmConfig (2 ^ m) (2 ^ k) cl ml) b 0 →
      dmIndex (dmConfig (2 ^ m) (2 ^ k) cl ml) a 0
        = dmIndex (dmConfig (2 ^ m) (2 ^ k) cl ml) b 0 →
      dmOffset (dmConfig (2 ^ m) (2 ^ k) cl ml) a 0
        = dmOffset (dmConfig (2 ^ m) (2 ^ k) cl ml) b 0 → a = b) ∧
    (∀ m k cl ml a : Nat, 2 ≤ m → k + m < 32 → a < 2 ^ 32 →
      fwOffset (fwConfig (2 ^ m) (2 ^ k) cl ml) a < 2 ^ k ∧
      fwSetIndex (fwConfig (2 ^ m) (2 ^ k) cl ml) a < 2 ^ m / 4 ∧
      a = fwTag (fwConfig (2 ^ m) (2 ^ k) cl ml) a * (2 ^ m / 4) * 2 ^ k
          + fwSetIndex (fwConfig (2 ^ m) (2 ^ k) cl ml) a * 2 ^ k
          + fwOffset (fwConfig (2 ^ m) (2 ^ k) cl ml) a) ∧
    (∀ m k cl ml a b : Nat, 2 ≤ m → k + m < 32 → a < 2 ^ 32 → b < 2 ^ 32 →
      fwTag (fwConfig (2 ^ m) (2 ^ k) cl ml) a = fwTag (fwConfig (2 ^ m) (2 ^ k) cl ml) b →
      fwSetIndex (fwConfig (2 ^ m) (2 ^ k) cl ml) a
        = fwSetIndex (fwConfig (2 ^ m) (2 ^ k) cl ml) b →
      fwOffset (fwConfig (2 ^ m) (2 ^ k) cl ml) a
        = fwOffset (fwConfig (2 ^ m) (2 ^ k) cl ml) b → a = b) ∧
    (dmTag (dmConfig 4 16 1 10) 0x12345678 0, dmIndex (dmConfig 4 16 1 10) 0x12345678 0,
      dmOffset (dmConfig 4 16 1 10) 0x12345678 0) = (0x48D159, 3, 8) ∧
    (fwTag (fwConfig 8 16 1 10) 0x12345678, fwSetIndex (fwConfig 8 16 1 10) 0x12345678,
      fwOffset (fwConfig 8 16 1 10) 0x12345678) = (0x91A2B3, 1, 8) := by
  refine ⟨fun m k cl ml a h1 h2 => dm_decode m k cl ml a h1 h2, ?_,
    fun m k cl ml a h1 h2 _ => fw_decode m k cl ml a h1 h2, ?_, by decide, by decide⟩
  · intro m k cl ml a b hkm ha hb ht hi ho
    have h1 := (dm_decode m k cl ml a hkm ha).2.2
    have h2 := (dm_decode m k cl ml b hkm hb).2.2
    rw [ht, hi, ho] at h1
    exact h1.trans h2.symm
  · intro m k cl ml a b hm hkm _ _ ht hs ho
    have h1 := (fw_decode m k cl ml a hm hkm).2.2
    have h2 := (fw_decode m k cl ml b hm hkm).2.2
    rw [ht, hs, ho] at h1
    exact h1.trans h2.symm

/-! ## Accesses to the request array -/

/-- The hand-over block reads `requests[currentRequest]` only within the array, and then
increments `currentRequest`; it does nothing when `cache_ready` reads false. -/
theorem cpuDispatch_some (st st1 : Sim) (h : cpuDispatch st = some st1) :
    (st.ready = true → st.currentRequest < st.numRequests ∧
      st1.currentRequest = st.currentRequest + 1 ∧
      st1.data = u32 (st.requests st.currentRequest).data ∧ st1.requests = st.requests) ∧
    (st.ready = false → st1 = st) ∧
    st1.numRequests = st.numRequests ∧ st1.maxCycles = st.maxCycles ∧
    st1.elapsedCycles = st.elapsedCycles ∧ st1.now = st.now := by
  unfold cpuDispatch at h
  split_ifs at h with hr hc
  · rw [Option.some.injEq] at h
    subst h
    exact ⟨fun _ => ⟨hc, rfl, rfl, rfl⟩, fun hf => by rw [hr] at hf; exact Bool.noConfusion hf,
      rfl, rfl, rfl, rfl⟩
  · rw [Option.some.injEq] at h
    subst h
    exact ⟨fun ht => absurd ht hr, fun _ => rfl, rfl, rfl, rfl, rfl⟩

/-- The store of the read data accesses `requests[currentRequest - 1]` only with
`1 ≤ currentRequest ≤ numRequests`, and changes no other element. -/
theorem cpuStore_some (st st1 : Sim) (h : cpuStore st = some st1) :
    (st.currentRequest > 0 → st.currentRequest - 1 < st.numRequests) ∧
    (∀ j, j ≠ st.currentRequest - 1 → st1.requests j = st.requests j) ∧
    st1.currentRequest = st.currentRequest ∧ st1.numRequests = st.numRequests ∧
    st1.maxCycles = st.maxCycles ∧ st1.elapsedCycles = st.elapsedCycles ∧
    st1.now = st.now ∧ st1.ready = st.ready := by
  unfold cpuStore at h
  dsimp only at h
  split_ifs at h with h0 h1 h2
  · rw [Option.some.injEq] at h
    subst h
    refine ⟨fun _ => h1, fun j hj => ?_, rfl, rfl, rfl, rfl, rfl, rfl⟩
    simp [mapSet_apply, hj]
  · rw [Option.some.injEq] at h
    subst h
    exact ⟨fun _ => h1, fun _ _ => rfl, rfl, rfl, rfl, rfl, rfl, rfl⟩
  · rw [Option.some.injEq] at h
    subst h
    exact ⟨fun hx => absurd hx h0, fun _ _ => rfl, rfl, rfl, rfl, rfl, rfl, rfl⟩

theorem cpuStore_isSome (st : Sim) (h : st.currentRequest ≤ st.numRequests) :
    ∃ st1, cpuStore st = some st1 := by
  unfold cpuStore
  dsimp only
  split_ifs with h0 h1 h2
  · exact ⟨_, rfl⟩
  · exact ⟨_, rfl⟩
  · omega
  · exact ⟨_, rfl⟩

/-- One pass against arbitrary signals, from a state in which a cache seen ready has a
request left: no access leaves the array, `currentRequest` grows by one exactly when a
request is handed over and stays within `numRequests`, and when the loop goes on a cache
seen ready has a request left again and the budget is not used up. -/
theorem cpuPassAny_safe (r : Bool) (d : Nat) (st : Sim)
    (hle : st.currentRequest ≤ st.numRequests)
    (hk : st.ready = true → st.currentRequest < st.numRequests) :
    ∃ st1 b, cpuPassAny r d st = some (st1, b) ∧
      st1.numRequests = st.numRequests ∧ st1.maxCycles = st.maxCycles ∧
      st1.elapsedCycles = st.elapsedCycles + 1 ∧ st1.now = st.now + 1 ∧
      st1.currentRequest = st.currentRequest + (if st.ready then 1 else 0) ∧
      st1.currentRequest ≤ st1.numRequests ∧
      (b = false → (st1.ready = true → st1.currentRequest < st1.numRequests) ∧
        st1.elapsedCycles < st1.maxCycles) := by
  have hd : ∃ st2, cpuDispatch
      { st with elapsedCycles := st.elapsedCycles + 1, cycles := st.elapsedCycles + 1 }
        = some st2 := by
    unfold cpuDispatch
    split_ifs with hr hc
    · exact ⟨_, rfl⟩
    · exact absurd (hk hr) hc
    · exact ⟨_, rfl⟩
  obtain ⟨st2, e2⟩ := hd
  obtain ⟨d1, d2, d3, d4, d5, d6⟩ := cpuDispatch_some _ st2 e2
  have hcur : st2.currentRequest = st.currentRequest + (if st.ready then 1 else 0) := by
    cases hr : st.ready
    · rw [d2 hr]; simp
    · rw [(d1 hr).2.1]; simp
  have hle2 : st2.currentRequest ≤ st2.numRequests := by
    rw [hcur, d3]
    cases hr : st.ready
    · simpa using hle
    · have := hk hr
      simp
      exact this
  dsimp only at d3 d4 d5 d6 hcur
  have hpass : cpuPassAny r d st = cpuResumeAny r d st2 := by
    unfold cpuPassAny
    simp only [e2]
  rw [hpass]
  unfold cpuResumeAny
  cases r with
  | false =>
    refine ⟨{ st2 with now := st2.now + 1, ready := false, data := d },
      decide (st2.elapsedCycles ≥ st2.maxCycles), by simp, d3, d4, d5,
      by show st2.now + 1 = st.now + 1; rw [d6], hcur, hle2, ?_⟩
    intro hb
    refine ⟨fun hx => Bool.noConfusion hx, ?_⟩
    simp only [decide_eq_false_iff_not, not_le, ge_iff_le] at hb
    exact hb
  | true =>
    obtain ⟨st4, e4⟩ := cpuStore_isSome { st2 with now := st2.now + 1, ready := true, data := d }
      hle2
    obtain ⟨_, _, s3, s4, s5, s6, s7, s8⟩ := cpuStore_some _ st4 e4
    dsimp only at s3 s4 s5 s6 s7 s8
    simp only [if_true, e4]
    by_cases hfin : st4.currentRequest ≥ st4.numRequests
    · refine ⟨st4, true, by rw [if_pos hfin], s4.trans d3, s5.trans d4, s6.trans d5,
        by rw [s7, d6], s3.trans hcur, by rw [s3, s4]; exact hle2, ?_⟩
      intro hb
      exact Bool.noConfusion hb
    · refine ⟨st4, decide (st4.elapsedCycles ≥ st4.maxCycles), by rw [if_neg hfin],
        s4.trans d3, s5.trans d4, s6.trans d5, by rw [s7, d6], s3.trans hcur,
        by rw [s3, s4]; exact hle2, ?_⟩
      intro hb
      simp only [decide_eq_false_iff_not, not_le, ge_iff_le] at hb
      exact ⟨fun _ => by omega, hb⟩

/-- The loop of the CPU against arbitrary signals ends without an access outside the
array. -/
theorem cpuLoopAny_safe (sig : Nat → Bool × Nat) :
    ∀ (fuel : Nat) (st : Sim), st.currentRequest ≤ st.numRequests →
      (st.ready = true → st.currentRequest < st.numRequests) →
      max st.maxCycles 1 ≤ st.elapsedCycles + fuel → st.elapsedCycles < max st.maxCycles 1 →
      ∃ st1, cpuLoopAny sig fuel st = some st1 ∧ st1.numRequests = st.numRequests ∧
        st.currentRequest ≤ st1.currentRequest ∧ st1.currentRequest ≤ st1.numRequests := by
  intro fuel
  induction fuel with
  | zero => intro st _ _ h1 h2; omega
  | succ fuel ih =>
    intro st hle hk hf hlt
    obtain ⟨st1, b, e1, p1, p2, p3, p4, p5, p6, p7⟩ :=
      cpuPassAny_safe (sig st.now).1 (sig st.now).2 st hle hk
    cases b with
    | true =>
      refine ⟨st1, by simp only [cpuLoopAny, e1], p1, by rw [p5]; omega, p6⟩
    | false =>
      obtain ⟨q1, q2⟩ := p7 rfl
      obtain ⟨st3, e3, r1, r2, r3⟩ := ih st1 p6 q1 (by rw [p2, p3]; omega) (by omega)
      refine ⟨st3, by simp only [cpuLoopAny, e1]; exact e3, r1.trans p1, by rw [p5] at r2; omega,
        r3⟩

/-- C32: `main` calls `run_simulation` with at least one request.  The hand-over block of
the CPU reads `requests[currentRequest]` only with `currentRequest < numRequests` and then
increments `currentRequest`, so the requests are handed over once each, in the order of the
array; the store of read data accesses `requests[currentRequest - 1]` only with
`1 ≤ currentRequest ≤ numRequests`.  Started with `currentRequest = 0` on at least one
request, the loop of the CPU ends without an access outside the array for every budget and
every sequence of values the cache puts on `cache_ready` and `data`, and so it does with
the two cache modules.  With no request the first pass reads `requests[0]`. -/
theorem request_array_accesses_in_bounds :
    (∀ requestCount, mainCallsRun requestCount = true → 1 ≤ requestCount) ∧
    (∀ st st1 : Sim, cpuDispatch st = some st1 →
      (st.ready = true → st.currentRequest < st.numRequests ∧
        st1.currentRequest = st.currentRequest + 1 ∧
        st1.data = u32 (st.requests st.currentRequest).data ∧ st1.requests = st.requests) ∧
      (st.ready = false → st1 = st)) ∧
    (∀ st st1 : Sim, cpuStore st = some st1 →
      (st.currentRequest > 0 → st.currentRequest - 1 < st.numRequests) ∧
      (∀ j, j ≠ st.currentRequest - 1 → st1.requests j = st.requests j) ∧
      st1.currentRequest = st.currentRequest) ∧
    (∀ (sig : Nat → Bool × Nat) (st0 : Sim), st0.currentRequest = 0 → st0.elapsedCycles = 0 →
      1 ≤ st0.numRequests →
      ∃ st, cpuLoopAny sig (st0.maxCycles + 1) st0 = some st ∧
        st.currentRequest ≤ st0.numRequests) ∧
    (∀ (cycles dm : Int) (N S cl ml n : Nat) (reqs : Nat → Request), 1 ≤ n →
      ∃ st, cpuLoop (toSizeT cycles + 1) (simInit cycles dm N S cl ml n reqs) = some st ∧
        st.currentRequest ≤ n ∧ (runSimulation cycles dm N S cl ml n reqs).isSome = true) ∧
    (∀ (sig : Nat → Bool × Nat) (st0 : Sim) (fuel : Nat), st0.ready = true →
      st0.currentRequest = 0 → st0.numRequests = 0 → cpuLoopAny sig fuel st0 = none) := by
  refine ⟨?_, ?_, ?_, ?_, ?_, ?_⟩
  · intro n h
    unfold mainCallsRun at h
    by_contra hn
    have : n = 0 := by omega
    subst this
    simp at h
  · intro st st1 h
    have := cpuDispatch_some st st1 h
    exact ⟨this.1, this.2.1⟩
  · intro st st1 h
    have := cpuStore_some st st1 h
    exact ⟨this.1, this.2.1, this.2.2.1⟩
  · intro sig st0 h0 he hn
    obtain ⟨st, e, r1, _, r3⟩ := cpuLoopAny_safe sig (st0.maxCycles + 1) st0 (by omega)
      (fun _ => by omega) (by omega) (by omega)
    exact ⟨st, e, by rw [← r1]; exact r3⟩
  · intro cycles dm N S cl ml n reqs hn
    obtain ⟨st, k, res, e, c, _, _, _, hrun, _⟩ :=
      runSimulation_core cycles dm N S cl ml n reqs hn
    refine ⟨st, e, ?_, by rw [hrun]; rfl⟩
    obtain ⟨_, _, _, _, _, c7, c8⟩ := c
    rcases c8 with ⟨_, _, r3, _⟩ | ⟨_, r2, r3, _⟩
    · omega
    · omega
  · intro sig st0 fuel hr h0 hn
    cases fuel with
    | zero => rfl
    | succ fuel =>
      have hp : cpuPassAny (sig st0.now).1 (sig st0.now).2 st0 = none := by
        unfold cpuPassAny cpuDispatch
        simp [hr, h0, hn]
      simp only [cpuLoopAny, hp]

/-! ## The cycle budget -/

theorem toSizeT_of_nonneg (B : Int) (h0 : 0 ≤ B) (h1 : B < 2 ^ 64) : toSizeT B = B.toNat := by
  unfold toSizeT
  rw [Int.emod_eq_of_lt h0 h1]

/-- C33: a run with a budget `B ≥ 1` on at least one request whose `Result.cycles` is not
the sentinel has stopped with `cache_ready` true and all requests handed over, the counters
add up to the number of requests, and `Result.cycles ≤ B`. -/
theorem unsentinelled_run_is_complete_within_budget (B dm : Int) (N S cl ml n : Nat)
    (reqs : Nat → Request) (hB : 1 ≤ B) (hB2 : B < 2 ^ 64) (hn : 1 ≤ n) :
    ∃ st res reqs1,
      cpuLoop (toSizeT B + 1) (simInit B dm N S cl ml n reqs) = some st ∧
      runSimulation B dm N S cl ml n reqs = some (res, reqs1) ∧
      (res.cycles ≠ sizeMax →
        st.ready = true ∧ st.currentRequest = n ∧ res.hits + res.misses = n ∧
        st.cache = cacheAfter (simCache dm N S cl ml) reqs n ∧
        (res.cycles : Int) ≤ B) := by
  obtain ⟨st, res, j, e, hrun, hiff, hdone, hleft, hcache, hcnt, hj1, _⟩ :=
    runSimulation_result B dm N S cl ml n reqs hn
  refine ⟨st, res, st.requests, e, hrun, ?_⟩
  intro hne
  have hfin : st.ready = true ∧ n ≤ st.currentRequest := by
    by_contra hx
    exact hne (hleft hx)
  obtain ⟨hcyc, _, hcur⟩ := hdone hfin
  have hjn : j = n := by rw [hj1 hfin.1, hcur]
  have hle := hiff.1 hfin
  rw [toSizeT_of_nonneg B (by omega) hB2] at hle
  refine ⟨hfin.1, hcur, by rw [hcnt, hjn], by rw [hcache, hjn], ?_⟩
  rw [hcyc]
  have h1 : 1 ≤ B.toNat := by omega
  have h2 : startEdge (simCache dm N S cl ml) reqs n ≤ B.toNat := by omega
  have h3 : ((B.toNat : Nat) : Int) = B := Int.toNat_of_nonneg (by omega)
  omega

theorem unsentinelled_run_is_complete_within_budget_witness :
    (1 : Int) ≤ 12 ∧ (12 : Int) < 2 ^ 64 ∧ 1 ≤ 2 ∧
    (∃ st res reqs1,
      cpuLoop (toSizeT 12 + 1)
        (simInit 12 1 4 16 1 10 2 (arrayOf [writeReq 0 0xDEADBEEF, readReq 0])) = some st ∧
      runSimulation 12 1 4 16 1 10 2 (arrayOf [writeReq 0 0xDEADBEEF, readReq 0])
        = some (res, reqs1) ∧
      (res.cycles ≠ sizeMax →
        st.ready = true ∧ st.currentRequest = 2 ∧ res.hits + res.misses = 2 ∧
        st.cache = cacheAfter (simCache 1 4 16 1 10)
          (arrayOf [writeReq 0 0xDEADBEEF, readReq 0]) 2 ∧
        (res.cycles : Int) ≤ 12)) ∧
    (runSimulation 12 1 4 16 1 10 2 (arrayOf [writeReq 0 0xDEADBEEF, readReq 0])).map
      (fun p => p.1.cycles) = some 12 :=
  ⟨by decide, by decide, by decide,
    unsentinelled_run_is_complete_within_budget 12 1 4 16 1 10 2
      (arrayOf [writeReq 0 0xDEADBEEF, readReq 0]) (by decide) (by decide) (by decide),
    by decide⟩

/-- C34: the value `N` of the option `--cycles` is stored in an `int` and converted to
`size_t` by the CPU.  For `N < 2 ^ 31` the budget `maxCycles` is `N`; for
`2 ^ 31 ≤ N < 2 ^ 32`, which `convert_unsigned` accepts, the `int` is negative and the
budget is `2 ^ 64 - 2 ^ 32 + N`: the option value 2147483648 gives the budget
18446744071562067968. -/
theorem cycles_option_budget :
    (∀ N, N < 2 ^ 31 → maxCyclesOf N = N) ∧
    (∀ N, 2 ^ 31 ≤ N → N < 2 ^ 32 →
      maxCyclesOf N = 2 ^ 64 - 2 ^ 32 + N ∧ maxCyclesOf N ≠ N) ∧
    (∀ (N : Nat) (dm : Int) (lines S cl ml n : Nat) (reqs : Nat → Request),
      (simInit (intOfUnsigned N) dm lines S cl ml n reqs).maxCycles = maxCyclesOf N) ∧
    convert_unsigned ['2', '1', '4', '7', '4', '8', '3', '6', '4', '8'] = some 2147483648 ∧
    intOfUnsigned 2147483648 = -2147483648 ∧
    maxCyclesOf 2147483648 = 18446744071562067968 ∧
    convert_unsigned ['4', '2', '9', '4', '9', '6', '7', '2', '9', '5'] = some 4294967295 ∧
    maxCyclesOf 4294967295 = sizeMax := by
  refine ⟨?_, ?_, fun _ _ _ _ _ _ _ _ => rfl, by decide, by decide, by decide, by decide,
    by decide⟩
  · intro N hN
    unfold maxCyclesOf intOfUnsigned
    rw [if_pos hN, toSizeT_of_nonneg _ (by omega) (by omega)]
    simp
  · intro N h1 h2
    have hval : maxCyclesOf N = 2 ^ 64 - 2 ^ 32 + N := by
      unfold maxCyclesOf intOfUnsigned toSizeT
      rw [if_neg (by omega)]
      have e : ((N : Int) - 2 ^ 32) % 2 ^ 64 = (N : Int) + (2 ^ 64 - 2 ^ 32) := by omega
      rw [e]
      omega
    exact ⟨hval, by rw [hval]; omega⟩

end CacheSim
